import Mathlib

/-!
# FishEngine model importer: pivot collapsing and animation reconciliation

A shallow embedding of `source/ModelImporter.cpp` (`buildModelTree`,
`ParseMesh`, `ParseAnimation`, `LoadFromFile`, `RemoveDummyNodeFBX`,
`ResursivelyCreateGameObject`), of the component functions of
`source/GameObject.hpp` and of `processInclude` of `source/Shader.cpp`,
together with the properties proved about them.

Conventions of the embedding.

* `std::string` is a list of characters (`Str`); `std::string::find`,
  `substr`, `operator+` and `boost::starts_with` are the list functions
  `strFind`, `List.take`/`List.drop`, `++` and `List.isPrefixOf`.
* `std::map` is an association list (`StdMap`) whose order is the iteration
  order of the map; `find`, `erase` and `operator[]` assignment are
  `StdMap.find`, `StdMap.erase` and `StdMap.assign`.
* `float` is an arbitrary type `F`.  The engine's math headers (`Matrix4x4`,
  `Vector3`, `Quaternion`) are not among the sources, so their operations are
  the fields of a parameter record `FloatOps F`, and the comparison of floats
  with the two infinities are those of a record `FloatOrder F`.
* A failed `assert`, an uncaught exception, an `abort()` and a read through a
  null pointer or past the end of an array terminate the program; the
  functions that can hit one return `Option`, with `none` for the abort.
* Objects that the source holds by pointer are values; where the identity of
  an object matters (a mesh of the model, a game object), it is an index.
* The loop of `processInclude`, which need not end, is run with a bound on the
  number of its iterations (`Run`).
-/

namespace FishEngine

/-! ## Strings -/

/-- The type of `std::string` values. -/
abbrev Str := List Char

/-- Lexicographic comparison of two strings, as `std::string::operator<`. -/
def strLess : Str → Str → Bool
  | [], [] => false
  | [], _ :: _ => true
  | _ :: _, [] => false
  | a :: s, b :: t => if a.toNat < b.toNat then true else if b.toNat < a.toNat then false else strLess s t

/-- The position of the first occurrence of `pat` in `s`, as
`std::string::find(pat)`; `none` stands for `npos`. -/
def strFind (pat : Str) : Str → Option Nat
  | [] => if pat.isPrefixOf [] then some 0 else none
  | c :: t => if pat.isPrefixOf (c :: t) then some 0 else (strFind pat t).map (· + 1)

/-- The substring that marks a synthetic pivot node: `"_$AssimpFbx$"`. -/
def marker : Str := ['_', '$', 'A', 's', 's', 'i', 'm', 'p', 'F', 'b', 'x', '$']

/-- The static set `DummyNodeNames`. -/
def DummyNodeNames : List Str :=
  ["Translation".toList, "PreRotation".toList, "Rotation".toList, "PostRotation".toList,
    "Scaling".toList]

/-- Role name `"Translation"`. -/
def roleTranslation : Str := "Translation".toList
/-- Role name `"PreRotation"`. -/
def rolePreRotation : Str := "PreRotation".toList
/-- Role name `"Rotation"`. -/
def roleRotation : Str := "Rotation".toList
/-- Role name `"PostRotation"`. -/
def rolePostRotation : Str := "PostRotation".toList
/-- Role name `"Scaling"`. -/
def roleScaling : Str := "Scaling".toList

/-- The suffix `"_$AssimpFbx$_Translation"`. -/
def suffixTranslation : Str := marker ++ '_' :: roleTranslation
/-- The suffix `"_$AssimpFbx$_PreRotation"`. -/
def suffixPreRotation : Str := marker ++ '_' :: rolePreRotation
/-- The suffix `"_$AssimpFbx$_Rotation"`. -/
def suffixRotation : Str := marker ++ '_' :: roleRotation
/-- The suffix `"_$AssimpFbx$_PostRotation"`. -/
def suffixPostRotation : Str := marker ++ '_' :: rolePostRotation
/-- The suffix `"_$AssimpFbx$_Scaling"`. -/
def suffixScaling : Str := marker ++ '_' :: roleScaling

/-! ## Ordered maps -/

/-- The strict order a `std::map` sorts its keys by. -/
class KeyOrder (K : Type) where
  /-- The comparison `std::less<K>`. -/
  less : K → K → Bool

instance : KeyOrder Str := ⟨strLess⟩

instance : KeyOrder Nat := ⟨fun a b => decide (a < b)⟩

/-- A `std::map<K, V>`: its entries in iteration order. -/
abbrev StdMap (K V : Type) := List (K × V)

namespace StdMap

variable {K V : Type} [DecidableEq K]

/-- The value stored under `k` (`find`), `none` for `end()`. -/
def find : StdMap K V → K → Option V
  | [], _ => none
  | (k', v) :: t, k => if k' = k then some v else find t k

/-- Removal of the entry stored under `k` (`erase`). -/
def erase (m : StdMap K V) (k : K) : StdMap K V :=
  m.filter (fun e => decide (e.1 ≠ k))

/-- Insertion of a new entry in front of the first larger key. -/
def insertOrdered [KeyOrder K] (k : K) (v : V) : StdMap K V → StdMap K V
  | [] => [(k, v)]
  | (k', v') :: t =>
    if KeyOrder.less k k' then (k, v) :: (k', v') :: t else (k', v') :: insertOrdered k v t

/-- Overwriting of the value of an existing entry, in place. -/
def replace (k : K) (v : V) : StdMap K V → StdMap K V
  | [] => []
  | (k', v') :: t => if k' = k then (k', v) :: t else (k', v') :: replace k v t

/-- The assignment `m[k] = v`: the entry under `k` is overwritten when there
is one and a new entry is inserted at its ordered place otherwise. -/
def assign [KeyOrder K] (m : StdMap K V) (k : K) (v : V) : StdMap K V :=
  match find m k with
  | some _ => replace k v m
  | none => insertOrdered k v m

/-- The keys of the map in iteration order. -/
def keys (m : StdMap K V) : List K := m.map Prod.fst

/-- The number of entries (`size`). -/
def size (m : StdMap K V) : Nat := m.length

/-- The number of entries stored under the key `k` (`count`). -/
def count (m : StdMap K V) (k : K) : Nat := m.countP (fun e => decide (e.1 = k))

end StdMap

/-! ## Math types -/

/-- The engine's `Vector3`. -/
structure Vector3 (F : Type) where
  x : F
  y : F
  z : F
deriving DecidableEq, Repr

/-- The engine's `Quaternion`, constructed as `Quaternion(x, y, z, w)`. -/
structure Quaternion (F : Type) where
  x : F
  y : F
  z : F
  w : F
deriving DecidableEq, Repr

/-- The engine's `Matrix4x4`; field `mij` is the entry `m[i][j]`. -/
structure Matrix4x4 (F : Type) where
  m00 : F
  m01 : F
  m02 : F
  m03 : F
  m10 : F
  m11 : F
  m12 : F
  m13 : F
  m20 : F
  m21 : F
  m22 : F
  m23 : F
  m30 : F
  m31 : F
  m32 : F
  m33 : F
deriving DecidableEq, Repr

/-- The importer library's `aiMatrix4x4`, sixteen floats `a1 .. d4` laid out
row after row. -/
structure aiMatrix4x4 (F : Type) where
  a1 : F
  a2 : F
  a3 : F
  a4 : F
  b1 : F
  b2 : F
  b3 : F
  b4 : F
  c1 : F
  c2 : F
  c3 : F
  c4 : F
  d1 : F
  d2 : F
  d3 : F
  d4 : F
deriving DecidableEq, Repr

/-- The operations of the math headers that the importer uses.  The headers
are not among the sources, so every operation is a parameter. -/
structure FloatOps (F : Type) where
  /-- The literal `0.f`. -/
  zero : F
  /-- The literal `1.f`. -/
  one : F
  /-- Multiplication of two floats. -/
  mul : F → F → F
  /-- The product `Matrix4x4::operator*`. -/
  matMul : Matrix4x4 F → Matrix4x4 F → Matrix4x4 F
  /-- The value of a default-constructed `Matrix4x4`. -/
  matDefault : Matrix4x4 F
  /-- The decomposition `Matrix4x4::Decompose` into position, rotation and scale. -/
  decompose : Matrix4x4 F → Vector3 F × Quaternion F × Vector3 F
  /-- The conversion `Matrix4x4::FromRotation`. -/
  fromRotation : Quaternion F → Matrix4x4 F
  /-- The conversion `Matrix4x4::ToRotation`. -/
  toRotation : Matrix4x4 F → Quaternion F
  /-- The constant `Quaternion::identity`. -/
  quatIdentity : Quaternion F
  /-- The comparison `Vector3::operator==`. -/
  vecEq : Vector3 F → Vector3 F → Bool
  /-- The comparison `Quaternion::operator==`. -/
  quatEq : Quaternion F → Quaternion F → Bool
  /-- The product `Vector3::operator*` of a vector and a float. -/
  vecScale : Vector3 F → F → Vector3 F
  /-- The comparison `<=` of two floats. -/
  le : F → F → Bool
  /-- The literal `25.f`. -/
  twentyFive : F

/-- The constant `Vector3::zero`. -/
def FloatOps.vecZero {F : Type} (ops : FloatOps F) : Vector3 F := ⟨ops.zero, ops.zero, ops.zero⟩

/-- The constant `Vector3::one`. -/
def FloatOps.vecOne {F : Type} (ops : FloatOps F) : Vector3 F := ⟨ops.one, ops.one, ops.one⟩

/-- The function `ConvertMatrix`: a `memcpy` of the sixteen floats. -/
def ConvertMatrix {F : Type} (m : aiMatrix4x4 F) : Matrix4x4 F :=
  ⟨m.a1, m.a2, m.a3, m.a4, m.b1, m.b2, m.b3, m.b4, m.c1, m.c2, m.c3, m.c4, m.d1, m.d2, m.d3, m.d4⟩

/-- The three statements `transform.m[i][3] *= m_fileScale` for `i = 0, 1, 2`. -/
def scaleTranslation {F : Type} (ops : FloatOps F) (fileScale : F) (t : Matrix4x4 F) : Matrix4x4 F :=
  { t with m03 := ops.mul t.m03 fileScale, m13 := ops.mul t.m13 fileScale,
           m23 := ops.mul t.m23 fileScale }

/-! ## The importer's scene graph and the model tree -/

/-- The importer library's `aiNode`: name, local transformation, mesh indices
and children. -/
inductive aiNode (F : Type) where
  | mk (mName : Str) (mTransformation : aiMatrix4x4 F) (mMeshes : List Nat)
      (mChildren : List (aiNode F)) : aiNode F

/-- The field `mName`. -/
def aiNode.mName {F : Type} : aiNode F → Str
  | .mk n _ _ _ => n

/-- The field `mTransformation`. -/
def aiNode.mTransformation {F : Type} : aiNode F → aiMatrix4x4 F
  | .mk _ t _ _ => t

/-- The field `mChildren`. -/
def aiNode.mChildren {F : Type} : aiNode F → List (aiNode F)
  | .mk _ _ _ c => c

/-- The engine's `ModelNode` (the parent pointer is left out: it is the node
the entry is a child of). -/
inductive ModelNode (F : Type) where
  | mk (name : Str) (transform : Matrix4x4 F) (isBone : Bool) (index : Nat)
      (meshesIndices : List Nat) (children : List (ModelNode F)) : ModelNode F

/-- The field `name`. -/
def ModelNode.name {F : Type} : ModelNode F → Str
  | .mk n _ _ _ _ _ => n

/-- The field `transform`. -/
def ModelNode.transform {F : Type} : ModelNode F → Matrix4x4 F
  | .mk _ t _ _ _ _ => t

/-- The field `index`. -/
def ModelNode.index {F : Type} : ModelNode F → Nat
  | .mk _ _ _ i _ _ => i

/-- The field `meshesIndices`. -/
def ModelNode.meshesIndices {F : Type} : ModelNode F → List Nat
  | .mk _ _ _ _ ms _ => ms

/-- The field `children`. -/
def ModelNode.children {F : Type} : ModelNode F → List (ModelNode F)
  | .mk _ _ _ _ _ c => c

/-- The assignment `c->transform = t`. -/
def ModelNode.setTransform {F : Type} (t : Matrix4x4 F) : ModelNode F → ModelNode F
  | .mk n _ b i ms c => .mk n t b i ms c

/-- The pending pivot map `m_nodeTransformations`: true name, then role, to
the synthetic node's transform. -/
abbrev PivotMap (F : Type) := StdMap Str (StdMap Str (Matrix4x4 F))

/-- The part of the importer's state that `buildModelTree` reads and writes. -/
structure ImporterState (F : Type) where
  /-- The member `m_nodeTransformations`. -/
  m_nodeTransformations : PivotMap F
  /-- The avatar's `m_boneToIndex`. -/
  m_boneToIndex : StdMap Str Nat
  /-- The avatar's `m_indexToBone`. -/
  m_indexToBone : StdMap Nat Str

/-- Lines 84-89 of `buildModelTree`: the transform of a synthetic node is
stored under its true name and role. -/
def recordPivot {F : Type} (m : PivotMap F) (trueName typeName : Str) (transform : Matrix4x4 F) :
    PivotMap F :=
  match StdMap.find m trueName with
  | some roles => StdMap.replace trueName (StdMap.assign roles typeName transform) m
  | none => StdMap.assign m trueName [(typeName, transform)]

/-- The state after lines 84-89 of `buildModelTree`. -/
def ImporterState.withPivot {F : Type} (st : ImporterState F) (trueName typeName : Str)
    (transform : Matrix4x4 F) : ImporterState F :=
  { st with
    m_nodeTransformations := recordPivot st.m_nodeTransformations trueName typeName transform }

/-- The state after lines 105-107 of `buildModelTree`: the node `name` gets
the index `m_boneToIndex.size()` in both bone tables. -/
def ImporterState.withBone {F : Type} (st : ImporterState F) (name : Str) : ImporterState F :=
  { st with
    m_boneToIndex := StdMap.assign st.m_boneToIndex name st.m_boneToIndex.size
    m_indexToBone := StdMap.assign st.m_indexToBone st.m_boneToIndex.size name }

mutual

/-- The method `ModelImporter::buildModelTree`. -/
def buildModelTree {F : Type} (ops : FloatOps F) (fileScale : F) :
    aiNode F → ImporterState F → Option (ModelNode F × ImporterState F)
  | .mk name mTransformation mMeshes mChildren, st =>
    let transform := scaleTranslation ops fileScale (ConvertMatrix mTransformation)
    match strFind marker name with
    | some pos =>
      let trueName := name.take pos
      -- `substr(pos + 13)` throws when `pos + 13` exceeds the length
      if name.length < pos + 13 then none else
      let typeName := name.drop (pos + 13)
      if typeName ∉ DummyNodeNames then none else
      let st1 := st.withPivot trueName typeName transform
      match mChildren with
      | [child] =>
        if !(trueName.isPrefixOf child.mName) then none else
        match buildModelTree ops fileScale child st1 with
        | some (c, st2) => some (c.setTransform (ops.matMul transform c.transform), st2)
        | none => none
      | _ => none
    | none =>
      let index := st.m_boneToIndex.size
      let st1 := st.withBone name
      match buildChildren ops fileScale mChildren st1 with
      | some (cs, st2) => some (.mk name transform false index mMeshes cs, st2)
      | none => none

/-- The loop over `mChildren` at the end of `buildModelTree`. -/
def buildChildren {F : Type} (ops : FloatOps F) (fileScale : F) :
    List (aiNode F) → ImporterState F → Option (List (ModelNode F) × ImporterState F)
  | [], st => some ([], st)
  | child :: rest, st =>
    match buildModelTree ops fileScale child st with
    | some (c, st1) =>
      match buildChildren ops fileScale rest st1 with
      | some (cs, st2) => some (c :: cs, st2)
      | none => none
    | none => none

end

mutual

/-- The number of nodes named `x` in a model tree. -/
def ModelNode.countName {F : Type} (x : Str) : ModelNode F → Nat
  | .mk n _ _ _ _ cs => (if n = x then 1 else 0) + countNameList x cs

/-- The number of nodes named `x` in a list of model trees. -/
def countNameList {F : Type} (x : Str) : List (ModelNode F) → Nat
  | [] => 0
  | c :: cs => c.countName x + countNameList x cs

end

/-! ## Animations -/

/-- The engine's `Vector3Key`. -/
structure Vector3Key (F : Type) where
  time : F
  value : Vector3 F
deriving DecidableEq, Repr

/-- The engine's `QuaternionKey`. -/
structure QuaternionKey (F : Type) where
  time : F
  value : Quaternion F
deriving DecidableEq, Repr

/-- The engine's `AnimationNode`: the channel of one node. -/
structure AnimationNode (F : Type) where
  name : Str
  positionKeys : List (Vector3Key F)
  rotationKeys : List (QuaternionKey F)
  scalingKeys : List (Vector3Key F)
deriving DecidableEq, Repr

/-- The channel map `Animation::channels`. -/
abbrev Channels (F : Type) := StdMap Str (AnimationNode F)

/-- The engine's `Animation`. -/
structure Animation (F : Type) where
  name : Str
  duration : F
  ticksPerSecond : F
  channels : Channels F
deriving DecidableEq, Repr

/-- The importer library's `aiVectorKey`; `D` is the type `double`. -/
structure aiVectorKey (F D : Type) where
  mTime : D
  mValue : Vector3 F

/-- The importer library's `aiQuatKey`; the value is kept in the order
`x, y, z, w` that `ConvertQuaternion` produces. -/
structure aiQuatKey (F D : Type) where
  mTime : D
  mValue : Quaternion F

/-- The importer library's `aiNodeAnim`. -/
structure aiNodeAnim (F D : Type) where
  mNodeName : Str
  mPositionKeys : List (aiVectorKey F D)
  mRotationKeys : List (aiQuatKey F D)
  mScalingKeys : List (aiVectorKey F D)

/-- The importer library's `aiAnimation`. -/
structure aiAnimation (F D : Type) where
  mName : Str
  mDuration : D
  mTicksPerSecond : D
  mChannels : List (aiNodeAnim F D)

/-- The body of the channel loop of `ParseAnimation` for one source channel. -/
def parseChannel {F D : Type} (ops : FloatOps F) (toFloat : D → F) (fileScale : F)
    (channels : Channels F) (an : aiNodeAnim F D) : Channels F :=
  let name := an.mNodeName
  let n : AnimationNode F :=
    match StdMap.find channels name with
    | some n => n
    | none => ⟨[], [], [], []⟩
  StdMap.assign channels name
    { name := name
      positionKeys := n.positionKeys ++
        an.mPositionKeys.map (fun k => ⟨toFloat k.mTime, ops.vecScale k.mValue fileScale⟩)
      rotationKeys := n.rotationKeys ++
        an.mRotationKeys.map (fun k => ⟨toFloat k.mTime, k.mValue⟩)
      scalingKeys := n.scalingKeys ++
        an.mScalingKeys.map (fun k => ⟨toFloat k.mTime, k.mValue⟩) }

/-- The function `ParseAnimation`; `toFloat` is the cast `(float)` of a
`double`. -/
def ParseAnimation {F D : Type} (ops : FloatOps F) (toFloat : D → F) (a : aiAnimation F D)
    (fileScale : F) : Option (Animation F) :=
  let nameOk : Bool :=
    match strFind marker a.mName with
    | some pos =>
      if a.mName.length < pos + 13 then false
      else
        let typeName := a.mName.drop (pos + 13)
        decide (typeName = roleTranslation ∨ typeName = roleRotation ∨ typeName = roleScaling)
    | none => true
  if nameOk then
    let tps := toFloat a.mTicksPerSecond
    some
      { name := a.mName
        duration := toFloat a.mDuration
        ticksPerSecond := if ops.le tps ops.zero then ops.twentyFive else tps
        channels := a.mChannels.foldl (parseChannel ops toFloat fileScale) [] }
  else none

/-! ## Reconciliation of the pivot channels -/

/-- The pair of assertions `keys.size() == 1` and `keys[0].value == v` on a
track of vector keys. -/
def singleVectorKey {F : Type} (ops : FloatOps F) (keys : List (Vector3Key F)) (v : Vector3 F) :
    Bool :=
  match keys with
  | [k] => ops.vecEq k.value v
  | _ => false

/-- The pair of assertions `keys.size() == 1` and `keys[0].value == q` on a
track of rotation keys. -/
def singleQuaternionKey {F : Type} (ops : FloatOps F) (keys : List (QuaternionKey F))
    (q : Quaternion F) : Bool :=
  match keys with
  | [k] => ops.quatEq k.value q
  | _ => false

/-- The rotation that the static branches of the rotation block compute from
`rotMat`: `Decompose` followed by the three assertions; `none` when one
of them fails. -/
def staticRotation {F : Type} (ops : FloatOps F) (rotMat : Matrix4x4 F) : Option (Quaternion F) :=
  let d := ops.decompose rotMat
  if ops.vecEq d.1 ops.vecZero && ops.vecEq d.2.2 ops.vecOne
      && ops.quatEq d.2.1 (ops.toRotation rotMat) then some d.2.1
  else none

/-- The block `// position` of `RemoveDummyNodeFBX` for the node `name` with
recorded transforms `roles`: the position keys of the result node and the
channel map after the block. -/
def reconcilePosition {F : Type} (ops : FloatOps F) (name : Str) (roles : StdMap Str (Matrix4x4 F))
    (channels : Channels F) : Option (List (Vector3Key F) × Channels F) :=
  match StdMap.find roles roleTranslation with
  | none => some ([⟨ops.zero, ops.vecZero⟩], channels)
  | some positionMat =>
    let initPosition : Vector3 F := ⟨positionMat.m03, positionMat.m13, positionMat.m23⟩
    let fullName := name ++ suffixTranslation
    match StdMap.find channels fullName with
    | none => some ([⟨ops.zero, initPosition⟩], channels)
    | some ch =>
      if singleQuaternionKey ops ch.rotationKeys ops.quatIdentity
          && singleVectorKey ops ch.scalingKeys ops.vecOne then
        some (ch.positionKeys, StdMap.erase channels fullName)
      else none

/-- The value of `preRotation` after the lookup of `"PreRotation"`. -/
def preRotationOf {F : Type} (ops : FloatOps F) (roles : StdMap Str (Matrix4x4 F)) : Matrix4x4 F :=
  match StdMap.find roles rolePreRotation with
  | some m => m
  | none => ops.matDefault

/-- The value of `postRotation` after the lookup of `"PostRotation"`. -/
def postRotationOf {F : Type} (ops : FloatOps F) (roles : StdMap Str (Matrix4x4 F)) : Matrix4x4 F :=
  match StdMap.find roles rolePostRotation with
  | some m => m
  | none => ops.matDefault

/-- The key that the loop over an animated rotation channel emits for the
source key `rk`. -/
def animatedRotationKey {F : Type} (ops : FloatOps F) (preRotation postRotation : Matrix4x4 F)
    (rk : QuaternionKey F) : QuaternionKey F :=
  let rotMat := ops.matMul (ops.matMul preRotation (ops.fromRotation rk.value)) postRotation
  ⟨rk.time, (ops.decompose rotMat).2.1⟩

/-- The block `// rotation` of `RemoveDummyNodeFBX`. -/
def reconcileRotation {F : Type} (ops : FloatOps F) (name : Str) (roles : StdMap Str (Matrix4x4 F))
    (channels : Channels F) : Option (List (QuaternionKey F) × Channels F) :=
  let preRotation := preRotationOf ops roles
  let postRotation := postRotationOf ops roles
  match StdMap.find roles roleRotation with
  | none =>
    (staticRotation ops (ops.matMul preRotation postRotation)).map
      (fun rot => ([⟨ops.zero, rot⟩], channels))
  | some rotationMat =>
    let fullName := name ++ suffixRotation
    match StdMap.find channels fullName with
    | none =>
      (staticRotation ops (ops.matMul (ops.matMul preRotation rotationMat) postRotation)).map
        (fun initRotation => ([⟨ops.zero, initRotation⟩], channels))
    | some ch =>
      if singleVectorKey ops ch.positionKeys ops.vecZero
          && singleVectorKey ops ch.scalingKeys ops.vecOne then
        some (ch.rotationKeys.map (animatedRotationKey ops preRotation postRotation),
          StdMap.erase channels fullName)
      else none

/-- The block `// scale` of `RemoveDummyNodeFBX`. -/
def reconcileScale {F : Type} (ops : FloatOps F) (name : Str) (roles : StdMap Str (Matrix4x4 F))
    (channels : Channels F) : Option (List (Vector3Key F) × Channels F) :=
  match StdMap.find roles roleScaling with
  | none => some ([⟨ops.zero, ops.vecOne⟩], channels)
  | some scaleMat =>
    let fullName := name ++ suffixScaling
    match StdMap.find channels fullName with
    | none =>
      let d := ops.decompose scaleMat
      if ops.vecEq d.1 ops.vecZero && ops.quatEq d.2.1 ops.quatIdentity then
        some ([⟨ops.zero, d.2.2⟩], channels)
      else none
    | some ch =>
      if singleVectorKey ops ch.positionKeys ops.vecZero
          && singleQuaternionKey ops ch.rotationKeys ops.quatIdentity then
        some (ch.scalingKeys, StdMap.erase channels fullName)
      else none

/-- One iteration of the loop of `RemoveDummyNodeFBX`: the three blocks in
turn, then `animation->channels[name] = resultNode`.  The result is the
reconciled node together with the channel map after the iteration. -/
def reconcileNode {F : Type} (ops : FloatOps F) (name : Str) (roles : StdMap Str (Matrix4x4 F))
    (channels : Channels F) : Option (AnimationNode F × Channels F) :=
  match reconcilePosition ops name roles channels with
  | none => none
  | some (positionKeys, c1) =>
    match reconcileRotation ops name roles c1 with
    | none => none
    | some (rotationKeys, c2) =>
      match reconcileScale ops name roles c2 with
      | none => none
      | some (scalingKeys, c3) =>
        let resultNode : AnimationNode F := ⟨name, positionKeys, rotationKeys, scalingKeys⟩
        some (resultNode, StdMap.assign c3 name resultNode)

/-- The loop of `RemoveDummyNodeFBX` over the entries of the pivot map, in the
map's iteration order. -/
def reconcileAll {F : Type} (ops : FloatOps F) : PivotMap F → Channels F → Option (Channels F)
  | [], channels => some channels
  | (name, roles) :: rest, channels =>
    match reconcileNode ops name roles channels with
    | some (_, c1) => reconcileAll ops rest c1
    | none => none

/-- The method `ModelImporter::RemoveDummyNodeFBX`, with the member
`m_nodeTransformations` as the argument `pivots`. -/
def RemoveDummyNodeFBX {F : Type} (ops : FloatOps F) (pivots : PivotMap F)
    (animation : Animation F) : Option (Animation F) :=
  match reconcileAll ops pivots animation.channels with
  | some channels => some { animation with channels := channels }
  | none => none

/-- The method `ModelImporter::RemoveDummyNodeFBX` as a transition of the
importer state: the loop reads the member `m_nodeTransformations` and writes
to the animation only, so the state after the call is the state before it. -/
def ImporterState.RemoveDummyNodeFBX {F : Type} (ops : FloatOps F) (st : ImporterState F)
    (animation : Animation F) : Option (Animation F × ImporterState F) :=
  (FishEngine.RemoveDummyNodeFBX ops st.m_nodeTransformations animation).map
    (fun result => (result, st))

/-! ## An exact instance for evaluation -/

/-- The exact product of two 4x4 integer matrices. -/
def intMatMul (a b : Matrix4x4 Int) : Matrix4x4 Int :=
  ⟨a.m00 * b.m00 + a.m01 * b.m10 + a.m02 * b.m20 + a.m03 * b.m30,
   a.m00 * b.m01 + a.m01 * b.m11 + a.m02 * b.m21 + a.m03 * b.m31,
   a.m00 * b.m02 + a.m01 * b.m12 + a.m02 * b.m22 + a.m03 * b.m32,
   a.m00 * b.m03 + a.m01 * b.m13 + a.m02 * b.m23 + a.m03 * b.m33,
   a.m10 * b.m00 + a.m11 * b.m10 + a.m12 * b.m20 + a.m13 * b.m30,
   a.m10 * b.m01 + a.m11 * b.m11 + a.m12 * b.m21 + a.m13 * b.m31,
   a.m10 * b.m02 + a.m11 * b.m12 + a.m12 * b.m22 + a.m13 * b.m32,
   a.m10 * b.m03 + a.m11 * b.m13 + a.m12 * b.m23 + a.m13 * b.m33,
   a.m20 * b.m00 + a.m21 * b.m10 + a.m22 * b.m20 + a.m23 * b.m30,
   a.m20 * b.m01 + a.m21 * b.m11 + a.m22 * b.m21 + a.m23 * b.m31,
   a.m20 * b.m02 + a.m21 * b.m12 + a.m22 * b.m22 + a.m23 * b.m32,
   a.m20 * b.m03 + a.m21 * b.m13 + a.m22 * b.m23 + a.m23 * b.m33,
   a.m30 * b.m00 + a.m31 * b.m10 + a.m32 * b.m20 + a.m33 * b.m30,
   a.m30 * b.m01 + a.m31 * b.m11 + a.m32 * b.m21 + a.m33 * b.m31,
   a.m30 * b.m02 + a.m31 * b.m12 + a.m32 * b.m22 + a.m33 * b.m32,
   a.m30 * b.m03 + a.m31 * b.m13 + a.m32 * b.m23 + a.m33 * b.m33⟩

/-- The 4x4 integer identity matrix. -/
def intIdentity : Matrix4x4 Int := ⟨1, 0, 0, 0, 0, 1, 0, 0, 0, 0, 1, 0, 0, 0, 0, 1⟩

/-- The rotation matrix of an integer quaternion `(x, y, z, w)`. -/
def intFromRotation (q : Quaternion Int) : Matrix4x4 Int :=
  ⟨1 - 2 * (q.y * q.y + q.z * q.z), 2 * (q.x * q.y - q.z * q.w), 2 * (q.x * q.z + q.y * q.w), 0,
   2 * (q.x * q.y + q.z * q.w), 1 - 2 * (q.x * q.x + q.z * q.z), 2 * (q.y * q.z - q.x * q.w), 0,
   2 * (q.x * q.z - q.y * q.w), 2 * (q.y * q.z + q.x * q.w), 1 - 2 * (q.x * q.x + q.y * q.y), 0,
   0, 0, 0, 1⟩

/-- A quaternion read off the antisymmetric part of an integer matrix. -/
def intToRotation (m : Matrix4x4 Int) : Quaternion Int :=
  ⟨m.m21 - m.m12, m.m02 - m.m20, m.m10 - m.m01, m.m33⟩

/-- An instance of the operations over the integers, for evaluating the
embedding on concrete inputs: the matrix product is exact, and the
decomposition reads the translation column, the antisymmetric part and the
diagonal of the matrix. -/
def intOps : FloatOps Int where
  zero := 0
  one := 1
  mul := fun a b => a * b
  matMul := intMatMul
  matDefault := intIdentity
  decompose := fun m => (⟨m.m03, m.m13, m.m23⟩, intToRotation m, ⟨m.m00, m.m11, m.m22⟩)
  fromRotation := intFromRotation
  toRotation := intToRotation
  quatIdentity := ⟨0, 0, 0, 1⟩
  vecEq := fun a b => decide (a = b)
  quatEq := fun a b => decide (a = b)
  vecScale := fun v s => ⟨v.x * s, v.y * s, v.z * s⟩
  le := fun a b => decide (a ≤ b)
  twentyFive := 25

/-- The `aiMatrix4x4` of a translation by `(x, y, z)`. -/
def aiTranslation (x y z : Int) : aiMatrix4x4 Int := ⟨1, 0, 0, x, 0, 1, 0, y, 0, 0, 1, z, 0, 0, 0, 1⟩

/-- The state of a fresh importer: all three tables empty. -/
def emptyState (F : Type) : ImporterState F := ⟨[], [], []⟩

/-- A pivot chain for the node `X` whose last node has a child that is named
`X` as well. -/
def chainWithHomonym : aiNode Int :=
  .mk (['X'] ++ suffixPreRotation) (aiTranslation 1 0 0) []
    [.mk (['X'] ++ suffixRotation) (aiTranslation 0 1 0) []
      [.mk (['X'] ++ suffixPostRotation) (aiTranslation 0 0 1) []
        [.mk ['X'] (aiTranslation 1 1 1) [] [.mk ['X'] (aiTranslation 0 0 0) [] []]]]]

/-! ## Invariants and footprints used in the statements -/

/-- The invariant of the pending pivot map: its keys are pairwise distinct and
each is a true node name, one that does not contain the marker. -/
def PivotsWF {F : Type} (pivots : PivotMap F) : Prop :=
  (StdMap.keys pivots).Nodup ∧ ∀ k ∈ StdMap.keys pivots, strFind marker k = none

instance {F : Type} (pivots : PivotMap F) : Decidable (PivotsWF pivots) := by
  unfold PivotsWF
  infer_instance

/-- Whether the iteration of `RemoveDummyNodeFBX` for the node `name` looks
up, and erases when it finds it, the channel `k`: the synthetic channel of an
animated role that is recorded in `roles`. -/
def consumes {F : Type} (name : Str) (roles : StdMap Str (Matrix4x4 F)) (k : Str) : Bool :=
  ((StdMap.find roles roleTranslation).isSome && decide (k = name ++ suffixTranslation))
  || ((StdMap.find roles roleRotation).isSome && decide (k = name ++ suffixRotation))
  || ((StdMap.find roles roleScaling).isSome && decide (k = name ++ suffixScaling))

/-- The channel map after the three blocks of one iteration: each recorded
animated role has its synthetic channel erased. -/
def eraseConsumed {F : Type} (name : Str) (roles : StdMap Str (Matrix4x4 F))
    (channels : Channels F) : Channels F :=
  let c1 := if (StdMap.find roles roleTranslation).isSome then
    StdMap.erase channels (name ++ suffixTranslation) else channels
  let c2 := if (StdMap.find roles roleRotation).isSome then
    StdMap.erase c1 (name ++ suffixRotation) else c1
  if (StdMap.find roles roleScaling).isSome then StdMap.erase c2 (name ++ suffixScaling) else c2

/-- The node that one iteration of `RemoveDummyNodeFBX` builds for `name`,
with each of the three blocks reading the channel map `channels`. -/
def reconciledNode {F : Type} (ops : FloatOps F) (name : Str) (roles : StdMap Str (Matrix4x4 F))
    (channels : Channels F) : Option (AnimationNode F) :=
  match reconcilePosition ops name roles channels with
  | none => none
  | some (positionKeys, _) =>
    match reconcileRotation ops name roles channels with
    | none => none
    | some (rotationKeys, _) =>
      match reconcileScale ops name roles channels with
      | none => none
      | some (scalingKeys, _) => some ⟨name, positionKeys, rotationKeys, scalingKeys⟩

/-- No synthetic channel that `RemoveDummyNodeFBX` would consume: for every
pending node and each of the roles `Translation`, `Rotation`, `Scaling` that
is recorded for it, the channel map has no entry for the synthetic sub-node. -/
def NoConsumableChannel {F : Type} (pivots : PivotMap F) (channels : Channels F) : Prop :=
  ∀ p ∈ pivots,
    (StdMap.find p.2 roleTranslation ≠ none →
      StdMap.find channels (p.1 ++ suffixTranslation) = none) ∧
    (StdMap.find p.2 roleRotation ≠ none →
      StdMap.find channels (p.1 ++ suffixRotation) = none) ∧
    (StdMap.find p.2 roleScaling ≠ none →
      StdMap.find channels (p.1 ++ suffixScaling) = none)

instance {F : Type} [DecidableEq F] (pivots : PivotMap F) (channels : Channels F) :
    Decidable (NoConsumableChannel pivots channels) := by
  unfold NoConsumableChannel
  infer_instance

/-! ## Sample inputs -/

/-- A matrix that the integer instance reads as a pure rotation: zero
translation column and unit diagonal. -/
def sampleRotation : Matrix4x4 Int := ⟨1, -1, 0, 0, 1, 1, 0, 0, 0, 0, 1, 0, 0, 0, 0, 1⟩

/-- A translation by `(1, 2, 3)`. -/
def sampleTranslation : Matrix4x4 Int := ⟨1, 0, 0, 1, 0, 1, 0, 2, 0, 0, 1, 3, 0, 0, 0, 1⟩

/-- A scaling by `(2, 3, 4)`. -/
def sampleScaling : Matrix4x4 Int := ⟨2, 0, 0, 0, 0, 3, 0, 0, 0, 0, 4, 0, 0, 0, 0, 1⟩

/-- A pivot map with two nodes: `A` has a `Rotation` and a `Translation`
transform, `B` only a `Rotation` transform. -/
def samplePivots : PivotMap Int :=
  [(['A'], [(roleRotation, intIdentity), (roleTranslation, sampleTranslation)]),
   (['B'], [(roleRotation, sampleRotation)])]

/-- The synthetic channel `A_$AssimpFbx$_Rotation`: two rotation keys. -/
def sampleRotationChannel : AnimationNode Int :=
  ⟨['A'] ++ suffixRotation, [⟨0, ⟨0, 0, 0⟩⟩], [⟨0, ⟨0, 0, 0, 1⟩⟩, ⟨5, ⟨0, 0, 0, 1⟩⟩],
    [⟨0, ⟨1, 1, 1⟩⟩]⟩

/-- The synthetic channel `A_$AssimpFbx$_Translation`: two position keys. -/
def sampleTranslationChannel : AnimationNode Int :=
  ⟨['A'] ++ suffixTranslation, [⟨0, ⟨1, 2, 3⟩⟩, ⟨5, ⟨4, 5, 6⟩⟩], [⟨0, ⟨0, 0, 0, 1⟩⟩],
    [⟨0, ⟨1, 1, 1⟩⟩]⟩

/-- An animation with the two synthetic channels of `A`. -/
def sampleAnimation : Animation Int :=
  ⟨"Take".toList, 10, 25,
    [(['A'] ++ suffixRotation, sampleRotationChannel),
     (['A'] ++ suffixTranslation, sampleTranslationChannel)]⟩

/-- An animation without any synthetic channel. -/
def staticAnimation : Animation Int :=
  ⟨"Take".toList, 10, 25, [(['C'], ⟨['C'], [⟨0, ⟨7, 7, 7⟩⟩], [], []⟩)]⟩

/-- A tree with one synthetic `PreRotation` node above the node `X`. -/
def preRotationTree : aiNode Int :=
  .mk (['X'] ++ suffixPreRotation) (aiTranslation 0 0 0) [] [.mk ['X'] (aiTranslation 0 0 0) [] []]

/-- A source animation with a channel for the synthetic `PreRotation` node of
`X`. -/
def preRotationSource : aiAnimation Int Int :=
  ⟨"Take".toList, 10, 25, [⟨['X'] ++ suffixPreRotation, [], [⟨0, ⟨0, 0, 0, 1⟩⟩], []⟩]⟩

/-- A tree whose root `Root` has the pivot chain `A_Translation`, `A_Rotation`,
`A` below it. -/
def sampleTree : aiNode Int :=
  .mk "Root".toList (aiTranslation 0 0 0) []
    [.mk (['A'] ++ suffixTranslation) (aiTranslation 1 2 3) []
      [.mk (['A'] ++ suffixRotation) (aiTranslation 0 0 0) [] [.mk ['A'] (aiTranslation 0 0 0) [0] []]]]

/-- A source animation with the two synthetic channels of `A`. -/
def sampleSource : aiAnimation Int Int :=
  ⟨"Take".toList, 10, 0,
    [⟨['A'] ++ suffixRotation, [⟨0, ⟨0, 0, 0⟩⟩], [⟨0, ⟨0, 0, 0, 1⟩⟩, ⟨5, ⟨0, 0, 0, 1⟩⟩],
        [⟨0, ⟨1, 1, 1⟩⟩]⟩,
     ⟨['A'] ++ suffixTranslation, [⟨0, ⟨1, 2, 3⟩⟩, ⟨5, ⟨4, 5, 6⟩⟩], [⟨0, ⟨0, 0, 0, 1⟩⟩],
        [⟨0, ⟨1, 1, 1⟩⟩]⟩]⟩

/-- The result of `RemoveDummyNodeFBX` on `sampleAnimation` with
`samplePivots`. -/
def sampleResult : Animation Int :=
  ⟨"Take".toList, 10, 25,
    [(['A'], ⟨['A'], [⟨0, ⟨1, 2, 3⟩⟩, ⟨5, ⟨4, 5, 6⟩⟩], [⟨0, ⟨0, 0, 0, 1⟩⟩, ⟨5, ⟨0, 0, 0, 1⟩⟩],
        [⟨0, ⟨1, 1, 1⟩⟩]⟩),
     (['B'], ⟨['B'], [⟨0, ⟨0, 0, 0⟩⟩], [⟨0, ⟨0, 0, 2, 1⟩⟩], [⟨0, ⟨1, 1, 1⟩⟩]⟩)]⟩

/-- The result of `RemoveDummyNodeFBX` on `staticAnimation` with
`samplePivots`. -/
def staticResult : Animation Int :=
  ⟨"Take".toList, 10, 25,
    [(['A'], ⟨['A'], [⟨0, ⟨1, 2, 3⟩⟩], [⟨0, ⟨0, 0, 0, 1⟩⟩], [⟨0, ⟨1, 1, 1⟩⟩]⟩),
     (['B'], ⟨['B'], [⟨0, ⟨0, 0, 0⟩⟩], [⟨0, ⟨0, 0, 2, 1⟩⟩], [⟨0, ⟨1, 1, 1⟩⟩]⟩),
     (['C'], ⟨['C'], [⟨0, ⟨7, 7, 7⟩⟩], [], []⟩)]⟩

/-- The model tree that `buildModelTree` returns for `sampleTree` with file
scale 2. -/
def sampleRoot : ModelNode Int :=
  .mk "Root".toList ⟨1, 0, 0, 0, 0, 1, 0, 0, 0, 0, 1, 0, 0, 0, 0, 1⟩ false 0 []
    [.mk ['A'] ⟨1, 0, 0, 2, 0, 1, 0, 4, 0, 0, 1, 6, 0, 0, 0, 1⟩ false 1 [0] []]

/-- The importer state after `buildModelTree` on `sampleTree` with file
scale 2, from the empty state. -/
def sampleState : ImporterState Int :=
  ⟨[(['A'], [(roleRotation, intIdentity),
      (roleTranslation, ⟨1, 0, 0, 2, 0, 1, 0, 4, 0, 0, 1, 6, 0, 0, 0, 1⟩)])],
    [(['A'], 1), ("Root".toList, 0)], [(0, "Root".toList), (1, ['A'])]⟩

/-- The animation that `ParseAnimation` returns for `sampleSource` with file
scale 2. -/
def sampleParsed : Animation Int :=
  ⟨"Take".toList, 10, 25,
    [(['A'] ++ suffixRotation,
      ⟨['A'] ++ suffixRotation, [⟨0, ⟨0, 0, 0⟩⟩], [⟨0, ⟨0, 0, 0, 1⟩⟩, ⟨5, ⟨0, 0, 0, 1⟩⟩],
        [⟨0, ⟨1, 1, 1⟩⟩]⟩),
     (['A'] ++ suffixTranslation,
      ⟨['A'] ++ suffixTranslation, [⟨0, ⟨2, 4, 6⟩⟩, ⟨5, ⟨8, 10, 12⟩⟩], [⟨0, ⟨0, 0, 0, 1⟩⟩],
        [⟨0, ⟨1, 1, 1⟩⟩]⟩)]⟩

/-- The result of `RemoveDummyNodeFBX` on `sampleParsed` with the pivot map of
`sampleState`. -/
def sampleFinal : Animation Int :=
  ⟨"Take".toList, 10, 25,
    [(['A'], ⟨['A'], [⟨0, ⟨2, 4, 6⟩⟩, ⟨5, ⟨8, 10, 12⟩⟩],
      [⟨0, ⟨0, 0, 0, 1⟩⟩, ⟨5, ⟨0, 0, 0, 1⟩⟩], [⟨0, ⟨1, 1, 1⟩⟩]⟩)]⟩

/-- The importer state below a pivot chain for `['X']` that starts in the
empty state, with file scale 2. -/
def chainState : ImporterState Int :=
  ((((emptyState Int).withPivot ['X'] rolePreRotation
      (scaleTranslation intOps 2 (ConvertMatrix (aiTranslation 1 0 0)))).withPivot ['X'] roleRotation
      (scaleTranslation intOps 2 (ConvertMatrix (aiTranslation 0 1 0)))).withPivot ['X']
      rolePostRotation
      (scaleTranslation intOps 2 (ConvertMatrix (aiTranslation 0 0 1)))).withBone ['X']

/-! ## Observations on importer trees and model trees -/

mutual

/-- The nodes of a model tree, in pre-order. -/
def ModelNode.nodes {F : Type} : ModelNode F → List (ModelNode F)
  | .mk n t b i ms cs => .mk n t b i ms cs :: nodesList cs

/-- The nodes of a list of model trees, in pre-order. -/
def nodesList {F : Type} : List (ModelNode F) → List (ModelNode F)
  | [] => []
  | c :: cs => c.nodes ++ nodesList cs

end

/-- The names of the nodes of a model tree, in pre-order. -/
def ModelNode.names {F : Type} (r : ModelNode F) : List Str := r.nodes.map ModelNode.name

/-- The bone indices of the nodes of a model tree, in pre-order. -/
def ModelNode.indices {F : Type} (r : ModelNode F) : List Nat := r.nodes.map ModelNode.index

/-- Whether an importer node is synthetic: its name contains the marker. -/
def aiNode.isSynthetic {F : Type} (n : aiNode F) : Bool := (strFind marker n.mName).isSome

mutual

/-- The names of the non-synthetic nodes of an importer tree, in pre-order. -/
def aiNode.plainNames {F : Type} : aiNode F → List Str
  | .mk name _ _ children =>
    (if (strFind marker name).isSome then [] else [name]) ++ plainNamesList children

/-- The names of the non-synthetic nodes of a list of importer trees. -/
def plainNamesList {F : Type} : List (aiNode F) → List Str
  | [] => []
  | c :: cs => c.plainNames ++ plainNamesList cs

end

mutual

/-- The non-synthetic nodes of an importer tree that are not the child of a
synthetic node, each as its name and its local matrix with the translation
column multiplied by `fileScale`.  The flag tells whether the node at hand is
the child of a synthetic node. -/
def aiNode.directEntries {F : Type} (ops : FloatOps F) (fileScale : F) (underSynthetic : Bool) :
    aiNode F → List (Str × Matrix4x4 F)
  | .mk name t _ children =>
    if (strFind marker name).isSome then directEntriesList ops fileScale true children
    else
      (if underSynthetic then []
        else [(name, scaleTranslation ops fileScale (ConvertMatrix t))])
      ++ directEntriesList ops fileScale false children

/-- The entries of `aiNode.directEntries` for a list of importer trees. -/
def directEntriesList {F : Type} (ops : FloatOps F) (fileScale : F) (underSynthetic : Bool) :
    List (aiNode F) → List (Str × Matrix4x4 F)
  | [] => []
  | c :: cs =>
    c.directEntries ops fileScale underSynthetic ++ directEntriesList ops fileScale underSynthetic cs

end

/-- A tree of names. -/
inductive NameTree where
  | mk (name : Str) (children : List NameTree) : NameTree

mutual

/-- The names of a model tree, as a tree. -/
def ModelNode.shape {F : Type} : ModelNode F → NameTree
  | .mk n _ _ _ _ cs => .mk n (shapeList cs)

/-- The trees of names of a list of model trees. -/
def shapeList {F : Type} : List (ModelNode F) → List NameTree
  | [] => []
  | c :: cs => c.shape :: shapeList cs

end

mutual

/-- The tree of names of an importer tree in which every synthetic node is
replaced by the result for its single child, so by the end of its chain;
`none` when a synthetic node does not have exactly one child. -/
def aiNode.collapsedShape {F : Type} : aiNode F → Option NameTree
  | .mk name _ _ children =>
    if (strFind marker name).isSome then
      match children with
      | [child] => child.collapsedShape
      | _ => none
    else (collapsedShapeList children).map (NameTree.mk name)

/-- The collapsed trees of names of a list of importer trees, in order. -/
def collapsedShapeList {F : Type} : List (aiNode F) → Option (List NameTree)
  | [] => some []
  | c :: cs =>
    match c.collapsedShape with
    | some a => (collapsedShapeList cs).map (fun b => a :: b)
    | none => none

end

mutual

/-- The synthetic nodes of an importer tree in pre-order, each as the true
name and role that `buildModelTree` reads off its name and its local matrix
with the translation column multiplied by `fileScale`. -/
def aiNode.syntheticEntries {F : Type} (ops : FloatOps F) (fileScale : F) :
    aiNode F → List (Str × Str × Matrix4x4 F)
  | .mk name t _ children =>
    (match strFind marker name with
      | some pos =>
        [(name.take pos, name.drop (pos + 13), scaleTranslation ops fileScale (ConvertMatrix t))]
      | none => [])
    ++ syntheticEntriesList ops fileScale children

/-- The synthetic nodes of a list of importer trees. -/
def syntheticEntriesList {F : Type} (ops : FloatOps F) (fileScale : F) :
    List (aiNode F) → List (Str × Str × Matrix4x4 F)
  | [] => []
  | c :: cs => c.syntheticEntries ops fileScale ++ syntheticEntriesList ops fileScale cs

end

/-- The pivot map after the synthetic nodes `entries` have been recorded, in
their order, in the map `m`. -/
def recordAll {F : Type} (m : PivotMap F) (entries : List (Str × Str × Matrix4x4 F)) :
    PivotMap F :=
  entries.foldl (fun acc e => recordPivot acc e.1 e.2.1 e.2.2) m

/-- The entry `m[trueName][role]` of a pivot map. -/
def PivotMap.lookup {F : Type} (m : PivotMap F) (trueName role : Str) : Option (Matrix4x4 F) :=
  match StdMap.find m trueName with
  | some roles => StdMap.find roles role
  | none => none

/-- Whether the synthetic node `n` breaks the convention that `buildModelTree`
asserts: it does not have exactly one child, or the name of its single child
does not start with its true name. -/
def aiNode.brokenSynthetic {F : Type} (n : aiNode F) : Bool :=
  match strFind marker n.mName with
  | none => false
  | some pos =>
    match n.mChildren with
    | [child] => !((n.mName.take pos).isPrefixOf child.mName)
    | _ => true

/-- Whether the node `n` is not synthetic, or is synthetic with a role of the
vocabulary, exactly one child, and a child whose name starts with its true
name. -/
def aiNode.regular {F : Type} (n : aiNode F) : Bool :=
  match strFind marker n.mName with
  | none => true
  | some pos =>
    decide (¬ n.mName.length < pos + 13) && decide (n.mName.drop (pos + 13) ∈ DummyNodeNames) &&
      (match n.mChildren with
        | [child] => (n.mName.take pos).isPrefixOf child.mName
        | _ => false)

mutual

/-- Whether some node of the importer tree is a broken synthetic node. -/
def aiNode.anyBroken {F : Type} : aiNode F → Bool
  | .mk name t ms children => (aiNode.mk name t ms children).brokenSynthetic || anyBrokenList children

/-- Whether some node of a list of importer trees is a broken synthetic node. -/
def anyBrokenList {F : Type} : List (aiNode F) → Bool
  | [] => false
  | c :: cs => c.anyBroken || anyBrokenList cs

end

mutual

/-- Whether every node of the importer tree is regular. -/
def aiNode.allRegular {F : Type} : aiNode F → Bool
  | .mk name t ms children => (aiNode.mk name t ms children).regular && allRegularList children

/-- Whether every node of a list of importer trees is regular. -/
def allRegularList {F : Type} : List (aiNode F) → Bool
  | [] => true
  | c :: cs => c.allRegular && allRegularList cs

end

/-- The bone tables hold exactly the names `created`, each under its position
in the list: the name-to-index table has `created.length` entries, all of
them names of `created`, and both tables map the `i`-th name and `i` to each
other. -/
def BoneTables {F : Type} (created : List Str) (st : ImporterState F) : Prop :=
  st.m_boneToIndex.size = created.length ∧
  (∀ k ∈ StdMap.keys st.m_boneToIndex, k ∈ created) ∧
  ∀ i x, created.get? i = some x →
    StdMap.find st.m_boneToIndex x = some i ∧ StdMap.find st.m_indexToBone i = some x

/-- Some model node of the list carries the name and the transform of the
entry `e`. -/
def HasEntry {F : Type} (l : List (ModelNode F)) (e : Str × Matrix4x4 F) : Prop :=
  ∃ n ∈ l, n.name = e.1 ∧ n.transform = e.2

/-- The transform that the last entry of `entries` with true name `t` and role
`r` carries, and `init` when there is none. -/
def lastRecorded {F : Type} (entries : List (Str × Str × Matrix4x4 F)) (t r : Str)
    (init : Option (Matrix4x4 F)) : Option (Matrix4x4 F) :=
  entries.foldl (fun acc e => if e.1 = t ∧ e.2.1 = r then some e.2.2 else acc) init

/-- A tree whose root has two pivot chains for nodes that are both named `X`:
the two synthetic `Rotation` nodes have the same name and different
matrices. -/
def twinPivotTree : aiNode Int :=
  .mk "Root".toList (aiTranslation 0 0 0) []
    [.mk (['X'] ++ suffixRotation) (aiTranslation 1 0 0) [] [.mk ['X'] (aiTranslation 0 0 0) [] []],
     .mk (['X'] ++ suffixRotation) (aiTranslation 2 0 0) [] [.mk ['X'] (aiTranslation 0 0 0) [] []]]

/-- A tree without synthetic nodes whose root has the children `X`, `X` and
`Y`. -/
def homonymSiblings : aiNode Int :=
  .mk "Root".toList (aiTranslation 0 0 0) []
    [.mk ['X'] (aiTranslation 0 0 0) [] [], .mk ['X'] (aiTranslation 0 0 0) [] [],
     .mk ['Y'] (aiTranslation 0 0 0) [] []]

/-- A tree whose synthetic node has two children. -/
def forkedPivotTree : aiNode Int :=
  .mk (['X'] ++ suffixRotation) (aiTranslation 0 0 0) []
    [.mk ['X'] (aiTranslation 0 0 0) [] [], .mk ['Y'] (aiTranslation 0 0 0) [] []]

/-! ## Meshes -/

/-- The engine's `Vector4`. -/
structure Vector4 (F : Type) where
  x : F
  y : F
  z : F
  w : F
deriving DecidableEq, Repr

/-- The engine's `Int4`. -/
structure Int4 where
  x : Nat
  y : Nat
  z : Nat
  w : Nat
deriving DecidableEq, Repr

/-- The float comparison and the two constants that `ParseMesh` uses for the
bounding box.  `Mathf` is not among the sources, so they are parameters; the
test `a > b` of the source is `lt b a`. -/
structure FloatOrder (F : Type) where
  /-- The comparison `<` of two floats. -/
  lt : F → F → Bool
  /-- The constant `Mathf::Infinity`. -/
  infinity : F
  /-- The constant `Mathf::NegativeInfinity`. -/
  negativeInfinity : F

/-- The importer library's `aiFace`: `mNumIndices` is the length of
`mIndices`. -/
structure aiFace where
  mIndices : List Nat
deriving DecidableEq, Repr

/-- The importer library's `aiVertexWeight`. -/
structure aiVertexWeight (F : Type) where
  mVertexId : Nat
  mWeight : F
deriving DecidableEq, Repr

/-- The importer library's `aiBone`: `mNumWeights` is the length of
`mWeights`. -/
structure aiBone (F : Type) where
  mName : Str
  mOffsetMatrix : aiMatrix4x4 F
  mWeights : List (aiVertexWeight F)

/-- The importer library's `aiMesh`.  `mNumVertices`, `mNumFaces` and
`mNumBones` are the lengths of `mVertices`, `mFaces` and `mBones`; an array
that may be a null pointer is an `Option`; `mTextureCoords0` is the channel
`mTextureCoords[0]`. -/
structure aiMesh (F : Type) where
  mName : Str
  mVertices : List (Vector3 F)
  mNormals : Option (List (Vector3 F))
  mTextureCoords0 : Option (List (Vector3 F))
  mTangents : Option (List (Vector3 F))
  mFaces : List aiFace
  mBones : List (aiBone F)

/-- The read `array[j]` of an array that may be a null pointer; `none` is a
read through the null pointer or past the end of the array. -/
def readAt {α : Type} (array : Option (List α)) (j : Nat) : Option α :=
  match array with
  | some l => l.get? j
  | none => none

/-- The method `aiMesh::HasTextureCoords(0)`. -/
def aiMesh.HasTextureCoords0 {F : Type} (m : aiMesh F) : Bool :=
  m.mTextureCoords0.isSome && decide (0 < m.mVertices.length)

/-- Modelled from the spec: the per-vertex accumulator `BoneWeight` and its
method `AddBoneData` are not among the sources; only the reads
`b.boneIndex[k]` and `b.weight[k]` of `ParseMesh` are.  The spec describes a
"transient per-vertex structure holding up to 4 (boneIndex, weight) slots
filled in arbitrary bone-processing order; overflow beyond 4 influences are
dropped".  The structure is the list of the filled slots, in the order in
which they were filled. -/
structure BoneWeight (F : Type) where
  slots : List (Nat × F)
deriving DecidableEq, Repr

/-- Modelled from the spec: `AddBoneData` fills the next of the 4 slots and
drops the influence when all 4 are filled. -/
def BoneWeight.AddBoneData {F : Type} (b : BoneWeight F) (boneIndex : Nat) (weight : F) :
    BoneWeight F :=
  if b.slots.length < 4 then ⟨b.slots ++ [(boneIndex, weight)]⟩ else b

/-- Modelled from the spec: the read `b.boneIndex[k]`; a slot that was not
filled holds the index 0. -/
def BoneWeight.boneIndex {F : Type} (b : BoneWeight F) (k : Nat) : Nat :=
  match b.slots.get? k with
  | some s => s.1
  | none => 0

/-- Modelled from the spec: the read `b.weight[k]`; a slot that was not filled
holds the weight `0.f`. -/
def BoneWeight.weight {F : Type} (ops : FloatOps F) (b : BoneWeight F) (k : Nat) : F :=
  match b.slots.get? k with
  | some s => s.2
  | none => ops.zero

/-- The engine's `Mesh`, as far as `ParseMesh` fills it.  The bounds are the
two arguments of `m_bounds.SetMinMax`. -/
structure Mesh (F : Type) where
  m_name : Str
  m_positionBuffer : List F
  m_normalBuffer : List F
  m_uvBuffer : List F
  m_tangentBuffer : List F
  m_indexBuffer : List Nat
  m_boundsMin : Vector3 F
  m_boundsMax : Vector3 F
  m_skinned : Bool
  m_boneNameToIndex : StdMap Str Nat
  m_bindposes : List (Matrix4x4 F)
  m_boneWeights : List (BoneWeight F)
  m_boneIndexBuffer : List Int4
  m_boneWeightBuffer : List (Vector4 F)

/-- The constant `MAX_BONE_SIZE`. -/
def MAX_BONE_SIZE : Nat := 100

/-- The variables that the vertex loop of `ParseMesh` updates. -/
structure VertexBuffers (F : Type) where
  vmin : Vector3 F
  vmax : Vector3 F
  positionBuffer : List F
  normalBuffer : List F
  uvBuffer : List F
  tangentBuffer : List F

/-- The statement `if (a > c) a = c;` of the vertex loop. -/
def lowerTo {F : Type} (ord : FloatOrder F) (a c : F) : F := if ord.lt c a then c else a

/-- The statement `if (a < c) a = c;` of the vertex loop. -/
def raiseTo {F : Type} (ord : FloatOrder F) (a c : F) : F := if ord.lt a c then c else a

/-- The values that the UV block of the vertex loop pushes for vertex `j`;
the outer `none` is an invalid read. -/
def uvValues {F : Type} (m : aiMesh F) (has_uv : Bool) (j : Nat) : Option (List F) :=
  if has_uv then (readAt m.mTextureCoords0 j).map (fun uv => [uv.x, uv.y]) else some []

/-- The values that the tangent block of the vertex loop pushes for vertex
`j`; the outer `none` is an invalid read. -/
def tangentValues {F : Type} (m : aiMesh F) (load_tangent : Bool) (j : Nat) : Option (List F) :=
  if load_tangent then (readAt m.mTangents j).map (fun t => [t.x, t.y, t.z]) else some []

/-- The body of the vertex loop of `ParseMesh` for the vertex `v` with
index `j`. -/
def vertexStep {F : Type} (ops : FloatOps F) (ord : FloatOrder F) (fileScale : F)
    (m : aiMesh F) (has_uv load_tangent : Bool) (s : VertexBuffers F) (j : Nat)
    (v : Vector3 F) : Option (VertexBuffers F) :=
  let vx := ops.mul v.x fileScale
  let vy := ops.mul v.y fileScale
  let vz := ops.mul v.z fileScale
  match readAt m.mNormals j with
  | none => none
  | some n =>
    match uvValues m has_uv j with
    | none => none
    | some uvs =>
      match tangentValues m load_tangent j with
      | none => none
      | some ts =>
        some
          { vmin := ⟨lowerTo ord s.vmin.x vx, lowerTo ord s.vmin.y vy, lowerTo ord s.vmin.z vz⟩
            vmax := ⟨raiseTo ord s.vmax.x vx, raiseTo ord s.vmax.y vy, raiseTo ord s.vmax.z vz⟩
            positionBuffer := s.positionBuffer ++ [vx, vy, vz]
            normalBuffer := s.normalBuffer ++ [n.x, n.y, n.z]
            uvBuffer := s.uvBuffer ++ uvs
            tangentBuffer := s.tangentBuffer ++ ts }

/-- The vertex loop of `ParseMesh` over the vertices from index `j` on. -/
def vertexLoop {F : Type} (ops : FloatOps F) (ord : FloatOrder F) (fileScale : F)
    (m : aiMesh F) (has_uv load_tangent : Bool) :
    List (Vector3 F) → Nat → VertexBuffers F → Option (VertexBuffers F)
  | [], _, s => some s
  | v :: rest, j, s =>
    match vertexStep ops ord fileScale m has_uv load_tangent s j v with
    | none => none
    | some s1 => vertexLoop ops ord fileScale m has_uv load_tangent rest (j + 1) s1

/-- The face loop of `ParseMesh`: the assertion `face.mNumIndices == 3` and
the three pushes. -/
def faceLoop : List aiFace → List Nat → Option (List Nat)
  | [], buffer => some buffer
  | face :: rest, buffer =>
    if face.mIndices.length = 3 then faceLoop rest (buffer ++ face.mIndices) else none

/-- The loop over the weights of the bone `boneIndex`: each weight is added to
the accumulator of its vertex; `none` is a vertex index past the end of
`m_boneWeights`. -/
def weightLoop {F : Type} (boneIndex : Nat) :
    List (aiVertexWeight F) → List (BoneWeight F) → Option (List (BoneWeight F))
  | [], boneWeights => some boneWeights
  | w :: rest, boneWeights =>
    match boneWeights.get? w.mVertexId with
    | none => none
    | some b =>
      weightLoop boneIndex rest
        (boneWeights.set w.mVertexId (b.AddBoneData boneIndex w.mWeight))

/-- The variables that the bone loop of `ParseMesh` updates. -/
structure SkinData (F : Type) where
  boneNameToIndex : StdMap Str Nat
  bindposes : List (Matrix4x4 F)
  boneWeights : List (BoneWeight F)

/-- The bone loop of `ParseMesh` over the bones from index `boneIndex` on. -/
def boneLoop {F : Type} (ops : FloatOps F) (fileScale : F) :
    List (aiBone F) → Nat → SkinData F → Option (SkinData F)
  | [], _, s => some s
  | bone :: rest, boneIndex, s =>
    match weightLoop boneIndex bone.mWeights s.boneWeights with
    | none => none
    | some boneWeights =>
      boneLoop ops fileScale rest (boneIndex + 1)
        { boneNameToIndex := StdMap.assign s.boneNameToIndex bone.mName boneIndex
          bindposes := s.bindposes.set boneIndex
            (scaleTranslation ops fileScale (ConvertMatrix bone.mOffsetMatrix))
          boneWeights := boneWeights }

/-- The entry of `m_boneIndexBuffer` for the accumulator `b`. -/
def packIndices {F : Type} (b : BoneWeight F) : Int4 :=
  ⟨b.boneIndex 0, b.boneIndex 1, b.boneIndex 2, b.boneIndex 3⟩

/-- The entry of `m_boneWeightBuffer` for the accumulator `b`. -/
def packWeights {F : Type} (ops : FloatOps F) (b : BoneWeight F) : Vector4 F :=
  ⟨b.weight ops 0, b.weight ops 1, b.weight ops 2, b.weight ops 3⟩

set_option linter.unusedVariables false in
/-- The method `ModelImporter::ParseMesh`, up to the calls that create the
GPU buffers.  The argument `load_uv` is not read, as in the source. -/
def ParseMesh {F : Type} (ops : FloatOps F) (ord : FloatOrder F) (fileScale : F)
    (assimp_mesh : aiMesh F) (load_uv load_tangent : Bool) : Option (Mesh F) :=
  let has_uv := assimp_mesh.HasTextureCoords0
  let n_vertices := assimp_mesh.mVertices.length
  let vmin : Vector3 F := ⟨ord.infinity, ord.infinity, ord.infinity⟩
  let vmax : Vector3 F := ⟨ord.negativeInfinity, ord.negativeInfinity, ord.negativeInfinity⟩
  match vertexLoop ops ord fileScale assimp_mesh has_uv load_tangent assimp_mesh.mVertices 0
      ⟨vmin, vmax, [], [], [], []⟩ with
  | none => none
  | some vb =>
    match faceLoop assimp_mesh.mFaces [] with
    | none => none
    | some indexBuffer =>
      if 0 < assimp_mesh.mBones.length then
        if assimp_mesh.mBones.length ≤ MAX_BONE_SIZE then
          match boneLoop ops fileScale assimp_mesh.mBones 0
              ⟨[], List.replicate assimp_mesh.mBones.length ops.matDefault,
                List.replicate n_vertices ⟨[]⟩⟩ with
          | none => none
          | some skin =>
            some
              { m_name := assimp_mesh.mName
                m_positionBuffer := vb.positionBuffer
                m_normalBuffer := vb.normalBuffer
                m_uvBuffer := vb.uvBuffer
                m_tangentBuffer := vb.tangentBuffer
                m_indexBuffer := indexBuffer
                m_boundsMin := vb.vmin
                m_boundsMax := vb.vmax
                m_skinned := true
                m_boneNameToIndex := skin.boneNameToIndex
                m_bindposes := skin.bindposes
                m_boneWeights := skin.boneWeights
                m_boneIndexBuffer := skin.boneWeights.map packIndices
                m_boneWeightBuffer := skin.boneWeights.map (packWeights ops) }
        else none
      else
        some
          { m_name := assimp_mesh.mName
            m_positionBuffer := vb.positionBuffer
            m_normalBuffer := vb.normalBuffer
            m_uvBuffer := vb.uvBuffer
            m_tangentBuffer := vb.tangentBuffer
            m_indexBuffer := indexBuffer
            m_boundsMin := vb.vmin
            m_boundsMax := vb.vmax
            m_skinned := false
            m_boneNameToIndex := []
            m_bindposes := []
            m_boneWeights := []
            m_boneIndexBuffer := []
            m_boneWeightBuffer := [] }

/-- Every array read of `ParseMesh` on the mesh is a valid read: the normals,
the texture coordinates when the mesh has them, and the tangents when
`load_tangent` is set, have an entry for every vertex, and every weight of a
bone refers to a vertex of the mesh. -/
def aiMesh.InBounds {F : Type} (m : aiMesh F) (load_tangent : Bool) : Prop :=
  (∀ j < m.mVertices.length, (readAt m.mNormals j).isSome = true) ∧
  (m.HasTextureCoords0 = true →
    ∀ j < m.mVertices.length, (readAt m.mTextureCoords0 j).isSome = true) ∧
  (load_tangent = true → ∀ j < m.mVertices.length, (readAt m.mTangents j).isSome = true) ∧
  ∀ b ∈ m.mBones, ∀ w ∈ b.mWeights, w.mVertexId < m.mVertices.length

instance {F : Type} (m : aiMesh F) (load_tangent : Bool) : Decidable (m.InBounds load_tangent) := by
  unfold aiMesh.InBounds
  infer_instance

/-- The stored position of the source vertex `v`: each component multiplied
by `fileScale`. -/
def scaledPosition {F : Type} (ops : FloatOps F) (fileScale : F) (v : Vector3 F) : Vector3 F :=
  ⟨ops.mul v.x fileScale, ops.mul v.y fileScale, ops.mul v.z fileScale⟩

/-- The value `a` is the minimum of the list `l`. -/
def IsListMin {F : Type} [LE F] (l : List F) (a : F) : Prop := a ∈ l ∧ ∀ c ∈ l, a ≤ c

/-- The value `a` is the maximum of the list `l`. -/
def IsListMax {F : Type} [LE F] (l : List F) (a : F) : Prop := a ∈ l ∧ ∀ c ∈ l, c ≤ a

/-- The vertex indices that the bones of the mesh refer to, bone after
bone. -/
def aiMesh.referencedVertices {F : Type} (m : aiMesh F) : List Nat :=
  m.mBones.flatMap (fun b => b.mWeights.map (fun w => w.mVertexId))

/-- The integer comparison, with `bound` and `-bound` in the place of the two
infinities: an instance for meshes whose coordinates lie within the bound. -/
def intOrder (bound : Int) : FloatOrder Int := ⟨fun a b => decide (a < b), bound, -bound⟩

/-! ## Sample meshes -/

/-- A mesh of one triangle with the vertices (0,0,0), (2,0,0) and (0,3,0),
with normals and without texture coordinates, tangents and bones. -/
def triangleMesh : aiMesh Int :=
  { mName := "triangle".toList
    mVertices := [⟨0, 0, 0⟩, ⟨2, 0, 0⟩, ⟨0, 3, 0⟩]
    mNormals := some [⟨0, 0, 1⟩, ⟨0, 0, 1⟩, ⟨0, 0, 1⟩]
    mTextureCoords0 := none
    mTangents := none
    mFaces := [⟨[0, 1, 2]⟩]
    mBones := [] }

/-- The triangle with texture coordinates and tangents. -/
def texturedTriangle : aiMesh Int :=
  { triangleMesh with
    mTextureCoords0 := some [⟨0, 0, 0⟩, ⟨1, 0, 0⟩, ⟨0, 1, 0⟩]
    mTangents := some [⟨1, 0, 0⟩, ⟨1, 0, 0⟩, ⟨1, 0, 0⟩] }

/-- The triangle with texture coordinates and without tangents. -/
def untangentedTriangle : aiMesh Int :=
  { triangleMesh with mTextureCoords0 := some [⟨0, 0, 0⟩, ⟨1, 0, 0⟩, ⟨0, 1, 0⟩] }

/-- A mesh with a face of four indices. -/
def quadMesh : aiMesh Int :=
  { mName := "quad".toList
    mVertices := [⟨0, 0, 0⟩, ⟨1, 0, 0⟩, ⟨1, 1, 0⟩, ⟨0, 1, 0⟩]
    mNormals := some [⟨0, 0, 1⟩, ⟨0, 0, 1⟩, ⟨0, 0, 1⟩, ⟨0, 0, 1⟩]
    mTextureCoords0 := none
    mTangents := none
    mFaces := [⟨[0, 1, 2, 3]⟩]
    mBones := [] }

/-- A bone named `name` that refers to the vertices `ids`, each with the
weight 1. -/
def unitBone (name : String) (ids : List Nat) : aiBone Int :=
  ⟨name.toList, aiTranslation 0 0 0, ids.map (fun i => ⟨i, 1⟩)⟩

/-- A mesh of six vertices and two triangles, with normals, texture
coordinates and tangents, whose bones are `bones`. -/
def skinnedMesh (bones : List (aiBone Int)) : aiMesh Int :=
  { mName := "skin".toList
    mVertices := [⟨0, 0, 0⟩, ⟨1, 0, 0⟩, ⟨0, 1, 0⟩, ⟨0, 0, 1⟩, ⟨1, 0, 1⟩, ⟨0, 1, 1⟩]
    mNormals := some [⟨0, 0, 1⟩, ⟨0, 0, 1⟩, ⟨0, 0, 1⟩, ⟨0, 0, 1⟩, ⟨0, 0, 1⟩, ⟨0, 0, 1⟩]
    mTextureCoords0 := some [⟨0, 0, 0⟩, ⟨1, 0, 0⟩, ⟨0, 1, 0⟩, ⟨0, 0, 0⟩, ⟨1, 0, 0⟩, ⟨0, 1, 0⟩]
    mTangents := some [⟨1, 0, 0⟩, ⟨1, 0, 0⟩, ⟨1, 0, 0⟩, ⟨1, 0, 0⟩, ⟨1, 0, 0⟩, ⟨1, 0, 0⟩]
    mFaces := [⟨[0, 1, 2]⟩, ⟨[3, 4, 5]⟩]
    mBones := bones }

/-- Five bones that refer to pairwise disjoint sets of vertices, which cover
the six vertices of the mesh. -/
def fiveBoneMesh : aiMesh Int :=
  skinnedMesh [unitBone "b0" [0], unitBone "b1" [1], unitBone "b2" [2], unitBone "b3" [3],
    unitBone "b4" [4, 5]]

/-- Five bones that refer to pairwise disjoint sets of vertices, none of which
contains the vertex 5. -/
def looseVertexMesh : aiMesh Int :=
  skinnedMesh [unitBone "b0" [0], unitBone "b1" [1], unitBone "b2" [2], unitBone "b3" [3],
    unitBone "b4" [4]]

/-- A mesh with 101 bones, none of which refers to a vertex. -/
def overBonedMesh : aiMesh Int :=
  skinnedMesh (List.replicate 101 (unitBone "b" []))

/-- The mesh that `ParseMesh` returns for `triangleMesh`. -/
def triangleParsed : Mesh Int :=
  { m_name := "triangle".toList
    m_positionBuffer := [0, 0, 0, 2, 0, 0, 0, 3, 0]
    m_normalBuffer := [0, 0, 1, 0, 0, 1, 0, 0, 1]
    m_uvBuffer := []
    m_tangentBuffer := []
    m_indexBuffer := [0, 1, 2]
    m_boundsMin := ⟨0, 0, 0⟩
    m_boundsMax := ⟨2, 3, 0⟩
    m_skinned := false
    m_boneNameToIndex := []
    m_bindposes := []
    m_boneWeights := []
    m_boneIndexBuffer := []
    m_boneWeightBuffer := [] }

/-- The mesh that `ParseMesh` returns for `fiveBoneMesh` when the tangents
are loaded. -/
def fiveBoneParsed : Mesh Int :=
  { m_name := "skin".toList
    m_positionBuffer := [0, 0, 0, 1, 0, 0, 0, 1, 0, 0, 0, 1, 1, 0, 1, 0, 1, 1]
    m_normalBuffer := [0, 0, 1, 0, 0, 1, 0, 0, 1, 0, 0, 1, 0, 0, 1, 0, 0, 1]
    m_uvBuffer := [0, 0, 1, 0, 0, 1, 0, 0, 1, 0, 0, 1]
    m_tangentBuffer := [1, 0, 0, 1, 0, 0, 1, 0, 0, 1, 0, 0, 1, 0, 0, 1, 0, 0]
    m_indexBuffer := [0, 1, 2, 3, 4, 5]
    m_boundsMin := ⟨0, 0, 0⟩
    m_boundsMax := ⟨1, 1, 1⟩
    m_skinned := true
    m_boneNameToIndex := [("b0".toList, 0), ("b1".toList, 1), ("b2".toList, 2),
      ("b3".toList, 3), ("b4".toList, 4)]
    m_bindposes := List.replicate 5 ⟨1, 0, 0, 0, 0, 1, 0, 0, 0, 0, 1, 0, 0, 0, 0, 1⟩
    m_boneWeights := [⟨[(0, 1)]⟩, ⟨[(1, 1)]⟩, ⟨[(2, 1)]⟩, ⟨[(3, 1)]⟩, ⟨[(4, 1)]⟩, ⟨[(4, 1)]⟩]
    m_boneIndexBuffer := [⟨0, 0, 0, 0⟩, ⟨1, 0, 0, 0⟩, ⟨2, 0, 0, 0⟩, ⟨3, 0, 0, 0⟩, ⟨4, 0, 0, 0⟩,
      ⟨4, 0, 0, 0⟩]
    m_boneWeightBuffer := [⟨1, 0, 0, 0⟩, ⟨1, 0, 0, 0⟩, ⟨1, 0, 0, 0⟩, ⟨1, 0, 0, 0⟩, ⟨1, 0, 0, 0⟩,
      ⟨1, 0, 0, 0⟩] }

/-! ## Observations on source animations -/

/-- The source channels of the animation that carry the node name `name`, in
source order. -/
def aiAnimation.channelsNamed {F D : Type} (a : aiAnimation F D) (name : Str) :
    List (aiNodeAnim F D) :=
  a.mChannels.filter (fun an => decide (an.mNodeName = name))

/-- The node `base` with the converted keys of the source channels `cs`
appended to its three tracks, channel after channel, and the name `name`. -/
def appendChannels {F D : Type} (ops : FloatOps F) (toFloat : D → F) (fileScale : F)
    (name : Str) (base : AnimationNode F) (cs : List (aiNodeAnim F D)) : AnimationNode F :=
  { name := name
    positionKeys := base.positionKeys ++ cs.flatMap (fun an =>
      an.mPositionKeys.map (fun k => ⟨toFloat k.mTime, ops.vecScale k.mValue fileScale⟩))
    rotationKeys := base.rotationKeys ++ cs.flatMap (fun an =>
      an.mRotationKeys.map (fun k => ⟨toFloat k.mTime, k.mValue⟩))
    scalingKeys := base.scalingKeys ++ cs.flatMap (fun an =>
      an.mScalingKeys.map (fun k => ⟨toFloat k.mTime, k.mValue⟩)) }

/-- The node that merges the source channels `cs` under the name `name`. -/
def mergedNode {F D : Type} (ops : FloatOps F) (toFloat : D → F) (fileScale : F)
    (name : Str) (cs : List (aiNodeAnim F D)) : AnimationNode F :=
  appendChannels ops toFloat fileScale name ⟨[], [], [], []⟩ cs

/-- A source animation with two channels for the node `A` and one for the
node `B` between them. -/
def mergeSource : aiAnimation Int Int :=
  ⟨"Take".toList, 10, 30,
    [⟨['A'], [⟨0, ⟨1, 2, 3⟩⟩, ⟨5, ⟨4, 5, 6⟩⟩], [⟨0, ⟨0, 0, 0, 1⟩⟩], []⟩,
     ⟨['B'], [⟨1, ⟨1, 1, 1⟩⟩], [], [⟨1, ⟨2, 2, 2⟩⟩]⟩,
     ⟨['A'], [⟨7, ⟨0, 0, 1⟩⟩], [⟨7, ⟨0, 1, 0, 0⟩⟩], [⟨7, ⟨3, 3, 3⟩⟩]⟩]⟩

/-- The animation that `ParseAnimation` returns for `mergeSource` with file
scale 2. -/
def mergeParsed : Animation Int :=
  ⟨"Take".toList, 10, 30,
    [(['A'], ⟨['A'], [⟨0, ⟨2, 4, 6⟩⟩, ⟨5, ⟨8, 10, 12⟩⟩, ⟨7, ⟨0, 0, 2⟩⟩],
        [⟨0, ⟨0, 0, 0, 1⟩⟩, ⟨7, ⟨0, 1, 0, 0⟩⟩], [⟨7, ⟨3, 3, 3⟩⟩]⟩),
     (['B'], ⟨['B'], [⟨1, ⟨2, 2, 2⟩⟩], [], [⟨1, ⟨2, 2, 2⟩⟩]⟩)]⟩

/-! ## Scenes and models -/

/-- The importer library's `aiScene`, as far as `LoadFromFile` reads it. -/
structure aiScene (F D : Type) where
  mRootNode : aiNode F
  mMeshes : List (aiMesh F)
  mAnimations : List (aiAnimation F D)

/-- The engine's `Model`, as far as `LoadFromFile` fills it. -/
structure Model (F : Type) where
  m_name : Str
  m_rootNode : ModelNode F
  m_meshes : List (Mesh F)
  m_animations : List (Animation F)

/-- The result of `boost::lexical_cast<std::string>` on an unsigned integer:
its decimal representation. -/
def lexicalCast (n : Nat) : Str := Nat.toDigits 10 n

/-- The two statements of the mesh loop of `LoadFromFile` between the call of
`ParseMesh` and the call of `AddMesh`: a mesh with an empty name is named
`"mesh"` followed by `count`, the value of `m_model->m_meshes.size()`. -/
def nameMesh {F : Type} (mesh : Mesh F) (count : Nat) : Mesh F :=
  if mesh.m_name.isEmpty then { mesh with m_name := "mesh".toList ++ lexicalCast count }
  else mesh

/-- The mesh loop of `LoadFromFile`; `m_meshes` is the mesh list of the model,
to which `Model::AddMesh` appends. -/
def meshLoop {F : Type} (ops : FloatOps F) (ord : FloatOrder F) (fileScale : F)
    (load_uv load_tangent : Bool) : List (aiMesh F) → List (Mesh F) → Option (List (Mesh F))
  | [], m_meshes => some m_meshes
  | assimp_mesh :: rest, m_meshes =>
    match ParseMesh ops ord fileScale assimp_mesh load_uv load_tangent with
    | none => none
    | some mesh =>
      meshLoop ops ord fileScale load_uv load_tangent rest
        (m_meshes ++ [nameMesh mesh m_meshes.length])

/-- The animation loop of `LoadFromFile`, with `REMOVE_FBX_PIVOT` defined. -/
def animationLoop {F D : Type} (ops : FloatOps F) (toFloat : D → F) (fileScale : F)
    (isFBX : Bool) (pivots : PivotMap F) :
    List (aiAnimation F D) → List (Animation F) → Option (List (Animation F))
  | [], m_animations => some m_animations
  | a :: rest, m_animations =>
    match ParseAnimation ops toFloat a fileScale with
    | none => none
    | some animation =>
      if isFBX then
        match RemoveDummyNodeFBX ops pivots animation with
        | none => none
        | some reconciled =>
          animationLoop ops toFloat fileScale isFBX pivots rest (m_animations ++ [reconciled])
      else animationLoop ops toFloat fileScale isFBX pivots rest (m_animations ++ [animation])

/-- The method `ModelImporter::LoadFromFile` from the result `scene` of
`importer.ReadFile` on.  The functions `split` (of `Common.hpp`) and
`boost::to_lower_copy` are not among the sources and are parameters, as are
the members `m_fileScale` and the two flags computed from `m_vertexUsages` and
`m_importTangents`.  The state `st` holds the member `m_nodeTransformations`
and the bone tables of the avatar of the new model.  The result `none` is an
`abort()`, a failed assertion, an exception or an invalid read. -/
def LoadFromFile {F D : Type} (ops : FloatOps F) (ord : FloatOrder F) (toFloat : D → F)
    (split : Str → Str → List Str) (toLower : Str → Str) (fileScale : F)
    (load_uv load_tangent : Bool) (scene : Option (aiScene F D)) (path : Str)
    (st : ImporterState F) : Option (Model F × ImporterState F) :=
  match scene with
  | none => none
  | some scene =>
    match (split path ['/']).getLast? with
    | none => none
    | some m_name =>
      -- `substr(size() - 3)` throws when the name has fewer than 3 characters
      if m_name.length < 3 then none else
      let isFBX := decide (toLower (m_name.drop (m_name.length - 3)) = "fbx".toList)
      match buildModelTree ops fileScale scene.mRootNode st with
      | none => none
      | some (m_rootNode, st1) =>
        match meshLoop ops ord fileScale load_uv load_tangent scene.mMeshes [] with
        | none => none
        | some m_meshes =>
          match animationLoop ops toFloat fileScale isFBX st1.m_nodeTransformations
              scene.mAnimations [] with
          | none => none
          | some m_animations => some (⟨m_name, m_rootNode, m_meshes, m_animations⟩, st1)

/-- The triangle of `triangleMesh` without a name. -/
def unnamedTriangle : aiMesh Int := { triangleMesh with mName := [] }

/-- A scene whose root node refers to two meshes, the second of which has no
name, and which has one animation. -/
def twoMeshScene : aiScene Int Int :=
  ⟨.mk "Root".toList (aiTranslation 0 0 0) [0, 1] [], [triangleMesh, unnamedTriangle],
    [mergeSource]⟩

/-- The model that `LoadFromFile` returns for `twoMeshScene` and the path
`models/robot.fbx`, with file scale 1. -/
def twoMeshModel : Model Int :=
  ⟨"robot.fbx".toList,
    .mk "Root".toList ⟨1, 0, 0, 0, 0, 1, 0, 0, 0, 0, 1, 0, 0, 0, 0, 1⟩ false 0 [0, 1] [],
    [triangleParsed, { triangleParsed with m_name := "mesh1".toList }],
    [⟨"Take".toList, 10, 30,
      [(['A'], ⟨['A'], [⟨0, ⟨1, 2, 3⟩⟩, ⟨5, ⟨4, 5, 6⟩⟩, ⟨7, ⟨0, 0, 1⟩⟩],
          [⟨0, ⟨0, 0, 0, 1⟩⟩, ⟨7, ⟨0, 1, 0, 0⟩⟩], [⟨7, ⟨3, 3, 3⟩⟩]⟩),
       (['B'], ⟨['B'], [⟨1, ⟨1, 1, 1⟩⟩], [], [⟨1, ⟨2, 2, 2⟩⟩]⟩)]⟩]⟩

/-- The importer state after `LoadFromFile` on `twoMeshScene` from the empty
state. -/
def twoMeshState : ImporterState Int :=
  ⟨[], [("Root".toList, 0)], [(0, "Root".toList)]⟩

/-! ## Game objects -/

/-- A component of a game object: the class name that the virtual
`ClassName()` of the component returns, and the data of the component.  The
back pointer `m_gameObject`, which `AddComponent` sets to the owner, is left
out: it is the object that has the component in its list. -/
structure Component (P : Type) where
  ClassName : Str
  data : P
deriving DecidableEq, Repr

/-- A template argument `T` of `GetComponent` and `AddComponent`: the value of
`T::StaticClassName()` and the value of `IsUniqueComponent<T>()`.  Neither
function is among the sources. -/
structure ComponentClass where
  StaticClassName : Str
  IsUniqueComponent : Bool
deriving DecidableEq, Repr

/-- The engine's `GameObject`, as far as the importer and the component
functions use it: its name, the list `m_components` in insertion order, and,
in the place of the transform `m_transform`, which is not among the sources,
the matrix that `setLocalToWorldMatrix` stored, if any, and the objects whose
transforms were given this object's transform as parent by `SetParent`, in
call order.  The identity of the object is the number `id`. -/
inductive GameObject (P F : Type) where
  | mk (id : Nat) (name : Str) (localToWorldMatrix : Option (Matrix4x4 F))
      (m_components : List (Component P)) (children : List (GameObject P F)) : GameObject P F

/-- The identity of the object. -/
def GameObject.id {P F : Type} : GameObject P F → Nat
  | .mk i _ _ _ _ => i

/-- The name of the object. -/
def GameObject.name {P F : Type} : GameObject P F → Str
  | .mk _ n _ _ _ => n

/-- The matrix stored by `setLocalToWorldMatrix`. -/
def GameObject.localToWorldMatrix {P F : Type} : GameObject P F → Option (Matrix4x4 F)
  | .mk _ _ t _ _ => t

/-- The member `m_components`. -/
def GameObject.m_components {P F : Type} : GameObject P F → List (Component P)
  | .mk _ _ _ cs _ => cs

/-- The objects parented to the object. -/
def GameObject.children {P F : Type} : GameObject P F → List (GameObject P F)
  | .mk _ _ _ _ ch => ch

/-- The call `transform()->setLocalToWorldMatrix(t)`. -/
def GameObject.setLocalToWorldMatrix {P F : Type} (t : Matrix4x4 F) :
    GameObject P F → GameObject P F
  | .mk i n _ cs ch => .mk i n (some t) cs ch

/-- The method `GameObject::GetComponent<T>`; `none` is `nullptr`. -/
def GameObject.GetComponent {P F : Type} (go : GameObject P F) (T : ComponentClass) :
    Option (Component P) :=
  go.m_components.find? (fun comp => decide (comp.ClassName = T.StaticClassName))

/-- The method `GameObject::AddComponent<T>(component)` for a type `T` that is
not a script: the returned flag and the object after the call. -/
def GameObject.AddComponent {P F : Type} (go : GameObject P F) (T : ComponentClass)
    (component : Component P) : Bool × GameObject P F :=
  if T.IsUniqueComponent && (go.GetComponent T).isSome then (false, go)
  else
    match go with
    | .mk i n t cs ch => (true, .mk i n t (cs ++ [component]) ch)

/-- A game object with the components `MeshRenderer` and `Light`. -/
def litObject : GameObject Nat Int :=
  .mk 0 "lamp".toList none [⟨"MeshRenderer".toList, 1⟩, ⟨"Light".toList, 2⟩,
    ⟨"Light".toList, 3⟩] []

/-! ## Assembly of the runtime objects -/

/-- The data of the three renderer components that the assembly attaches.  A
mesh is referred to by its index in `m_meshes` and the root bone by the
identity of its game object; the material, always `Material::defaultMaterial()`,
and the avatar, always `m_avatar`, are left out. -/
inductive RendererData where
  | skinnedMeshRenderer (sharedMesh : Nat) (rootBone : Nat) : RendererData
  | meshRenderer : RendererData
  | meshFilter (mesh : Nat) : RendererData
deriving DecidableEq, Repr

/-- The state that `ResursivelyCreateGameObject` reads and writes: the number
of game objects that the scene has created, the meshes of the model (a mesh is
renamed by `setName`), the weak pointer `m_rootGameObject` (`none` when it is
expired) and the argument `nameToGameObject`. -/
structure AssemblyState (F : Type) where
  created : Nat
  m_meshes : List (Mesh F)
  m_rootGameObject : Option Nat
  nameToGameObject : StdMap Str Nat

/-- The object that `m_rootGameObject` points to after the statement
`if (m_rootGameObject.expired()) m_rootGameObject = go;` of a call in the
state `st`: the object it pointed to, and the object `go` that the call
creates, whose identity is `st.created`, when the pointer was expired. -/
def AssemblyState.rootBone {F : Type} (st : AssemblyState F) : Nat :=
  match st.m_rootGameObject with
  | some root => root
  | none => st.created

/-- Modelled from the spec: `Scene::CreateGameObject` is not among the
sources; the spec has it "create" a runtime node, to which the assembly then
attaches components and children.  The new object has the given name, no
component and no child, and its identity is the number of objects created
before it. -/
def Scene.CreateGameObject {F : Type} (st : AssemblyState F) (name : Str) :
    GameObject RendererData F × AssemblyState F :=
  (.mk st.created name none [] [], { st with created := st.created + 1 })

/-- The branch on `mesh->m_skinned` of `ResursivelyCreateGameObject`, on the
object `go` for the mesh with index `meshIndex`: a `SkinnedMeshRenderer`, or a
`MeshRenderer` and a `MeshFilter`, each passed to `AddComponent`.  The class
names are those of the three classes, and `IsUniqueComponent` is the absent
template of that name. -/
def attachRenderers {F : Type} (IsUniqueComponent : Str → Bool)
    (go : GameObject RendererData F) (meshIndex : Nat) (m_skinned : Bool) (rootBone : Nat) :
    GameObject RendererData F :=
  if m_skinned then
    (go.AddComponent
      ⟨"SkinnedMeshRenderer".toList, IsUniqueComponent "SkinnedMeshRenderer".toList⟩
      ⟨"SkinnedMeshRenderer".toList, .skinnedMeshRenderer meshIndex rootBone⟩).2
  else
    ((go.AddComponent ⟨"MeshRenderer".toList, IsUniqueComponent "MeshRenderer".toList⟩
        ⟨"MeshRenderer".toList, .meshRenderer⟩).2.AddComponent
      ⟨"MeshFilter".toList, IsUniqueComponent "MeshFilter".toList⟩
      ⟨"MeshFilter".toList, .meshFilter meshIndex⟩).2

/-- The loop over `node->meshesIndices` of the branch for more than one mesh:
the objects created for the meshes, in order, and the state after the loop;
`none` is a read of `m_meshes` past its end. -/
def meshChildren {F : Type} (IsUniqueComponent : Str → Bool) (rootBone : Nat) :
    List Nat → AssemblyState F → Option (List (GameObject RendererData F) × AssemblyState F)
  | [], st => some ([], st)
  | idx :: rest, st =>
    match st.m_meshes.get? idx with
    | none => none
    | some m =>
      let created := Scene.CreateGameObject st m.m_name
      let st1 : AssemblyState F :=
        { created.2 with
          nameToGameObject := StdMap.assign created.2.nameToGameObject m.m_name created.1.id }
      let child := attachRenderers IsUniqueComponent created.1 idx m.m_skinned rootBone
      match meshChildren IsUniqueComponent rootBone rest st1 with
      | none => none
      | some (cs, st2) => some (child :: cs, st2)

/-- The part of `ResursivelyCreateGameObject` between the creation of `go`
and the loop over the children of the node: the three cases on the number of
meshes of the node.  The result is `go` with the attached components, the
objects created for the meshes, and the state. -/
def attachMeshes {F : Type} (IsUniqueComponent : Str → Bool) (name : Str)
    (meshesIndices : List Nat) (rootBone : Nat) (go : GameObject RendererData F)
    (st : AssemblyState F) :
    Option (GameObject RendererData F × List (GameObject RendererData F) × AssemblyState F) :=
  match meshesIndices with
  | [] => some (go, [], st)
  | [idx] =>
    match st.m_meshes.get? idx with
    | none => none
    | some mesh =>
      some (attachRenderers IsUniqueComponent go idx mesh.m_skinned rootBone, [],
        { st with m_meshes := st.m_meshes.set idx { mesh with m_name := name } })
  | idx :: idx2 :: rest =>
    (meshChildren IsUniqueComponent rootBone (idx :: idx2 :: rest) st).map
      (fun r => (go, r.1, r.2))

mutual

/-- The method `Model::ResursivelyCreateGameObject`. -/
def ResursivelyCreateGameObject {F : Type} (IsUniqueComponent : Str → Bool) :
    ModelNode F → AssemblyState F → Option (GameObject RendererData F × AssemblyState F)
  | .mk name transform _ _ meshesIndices children, st =>
    let created := Scene.CreateGameObject st name
    let go := created.1.setLocalToWorldMatrix transform
    let st1 : AssemblyState F :=
      { created.2 with
        nameToGameObject := StdMap.assign created.2.nameToGameObject name go.id
        m_rootGameObject := some st.rootBone }
    match attachMeshes IsUniqueComponent name meshesIndices st.rootBone go st1 with
    | none => none
    | some (go1, meshObjects, st2) =>
      match createChildren IsUniqueComponent children st2 with
      | none => none
      | some (nodeObjects, st3) =>
        some (.mk go1.id go1.name go1.localToWorldMatrix go1.m_components
          (meshObjects ++ nodeObjects), st3)

/-- The loop over `node->children` at the end of
`ResursivelyCreateGameObject`. -/
def createChildren {F : Type} (IsUniqueComponent : Str → Bool) :
    List (ModelNode F) → AssemblyState F →
      Option (List (GameObject RendererData F) × AssemblyState F)
  | [], st => some ([], st)
  | c :: rest, st =>
    match ResursivelyCreateGameObject IsUniqueComponent c st with
    | none => none
    | some (child, st1) =>
      match createChildren IsUniqueComponent rest st1 with
      | none => none
      | some (cs, st2) => some (child :: cs, st2)

end

/-- The components that the assembly attaches for the mesh with index
`meshIndex`: a skinned-mesh renderer for a skinned mesh, and a mesh renderer
followed by a mesh filter otherwise. -/
def rendererComponents (meshIndex : Nat) (m_skinned : Bool) (rootBone : Nat) :
    List (Component RendererData) :=
  if m_skinned then
    [⟨"SkinnedMeshRenderer".toList, .skinnedMeshRenderer meshIndex rootBone⟩]
  else [⟨"MeshRenderer".toList, .meshRenderer⟩, ⟨"MeshFilter".toList, .meshFilter meshIndex⟩]

/-- A model node with one skinned mesh and three children: one with one mesh,
one without a mesh and one with two meshes. -/
def bodyNode : ModelNode Int :=
  .mk "Body".toList intIdentity false 0 [2]
    [.mk "Hand".toList intIdentity false 1 [1] [],
     .mk "Empty".toList intIdentity false 2 [] [],
     .mk "Pair".toList intIdentity false 3 [1, 2] []]

/-- A state with three meshes, the third of which is skinned, in which no
object has been created. -/
def assemblyStart : AssemblyState Int :=
  ⟨0, [triangleParsed, { triangleParsed with m_name := "mesh1".toList }, fiveBoneParsed], none, []⟩

/-- The object that `ResursivelyCreateGameObject` returns for `bodyNode` in
the state `assemblyStart`. -/
def bodyObject : GameObject RendererData Int :=
  .mk 0 "Body".toList (some intIdentity)
    [⟨"SkinnedMeshRenderer".toList, .skinnedMeshRenderer 2 0⟩]
    [.mk 1 "Hand".toList (some intIdentity)
        [⟨"MeshRenderer".toList, .meshRenderer⟩, ⟨"MeshFilter".toList, .meshFilter 1⟩] [],
     .mk 2 "Empty".toList (some intIdentity) [] [],
     .mk 3 "Pair".toList (some intIdentity) []
        [.mk 4 "Hand".toList none
            [⟨"MeshRenderer".toList, .meshRenderer⟩, ⟨"MeshFilter".toList, .meshFilter 1⟩] [],
         .mk 5 "Body".toList none
            [⟨"SkinnedMeshRenderer".toList, .skinnedMeshRenderer 2 0⟩] []]]

/-- The state after `ResursivelyCreateGameObject` on `bodyNode` from
`assemblyStart`. -/
def assemblyEnd : AssemblyState Int :=
  ⟨6, [triangleParsed, { triangleParsed with m_name := "Hand".toList },
      { fiveBoneParsed with m_name := "Body".toList }], some 0,
    [("Body".toList, 5), ("Empty".toList, 2), ("Hand".toList, 4), ("Pair".toList, 3)]⟩

/-! ## Shader headers -/

/-- The call `s.find(pat, pos)` of `std::string`: the position of the first
occurrence of `pat` in `s` that starts at `pos` or later; `none` stands for
`npos`. -/
def strFindFrom (pat s : Str) (pos : Nat) : Option Nat :=
  if s.length < pos then none else (strFind pat (s.drop pos)).map (· + pos)

/-- The call `s.substr(pos, len)` of `std::string`; `none` is the exception
`std::out_of_range`, thrown when `pos` exceeds the length. -/
def substr (s : Str) (pos len : Nat) : Option Str :=
  if s.length < pos then none else some ((s.drop pos).take len)

/-- The directive that `processInclude` looks for. -/
def includeDirective : Str := "#include".toList

/-- The result of a loop that is run with a bound on the number of its
iterations. -/
inductive Run (α : Type) where
  /-- The loop ended with the value `a`. -/
  | done (a : α) : Run α
  /-- The program was terminated by `abort()` or by an exception. -/
  | aborted : Run α
  /-- The bound was reached before the loop ended. -/
  | unfinished : Run α
deriving DecidableEq, Repr

/-- The variables of the loop of `processInclude`: `result`, the headers
`loaded_headers` in the order in which they were inserted, and `pos`. -/
structure IncludeScan where
  result : Str
  loaded_headers : List Str
  pos : Option Nat
deriving DecidableEq, Repr

/-- The body of the loop of `processInclude` for a directive found at `pos`.
The function `readFile` of `Shader.cpp` reads the file system, which is the
argument `readFile` here, with `none` for a file that cannot be opened (the
program is aborted); `include_dir` is the constant of that name.  The length
`pos2-pos-8-2-1` is computed in `size_t`, modulo `2 ^ 64`.  The result `none`
is an abort or the exception of `substr`. -/
def includeStep (readFile : Str → Option Str) (include_dir : Str) (result : Str)
    (loaded_headers : List Str) (pos : Nat) : Option IncludeScan :=
  let pos2 :=
    match strFindFrom ['\n'] result pos with
    | some p => p
    | none => result.length
  match substr result (pos + 8 + 2) ((pos2 + 2 ^ 64 - pos - 8 - 2 - 1) % 2 ^ 64) with
  | none => none
  | some filename =>
    if filename ∈ loaded_headers then
      let result1 := result.take pos ++ result.drop pos2
      some ⟨result1, loaded_headers, strFindFrom includeDirective result1 pos⟩
    else
      match readFile (include_dir ++ filename) with
      | none => none
      | some include_file =>
        let result1 := result.take pos ++ include_file ++ result.drop pos2
        some ⟨result1, loaded_headers ++ [filename], strFindFrom includeDirective result1 pos⟩

/-- The loop of `processInclude`, run for at most `fuel` iterations. -/
def includeLoop (readFile : Str → Option Str) (include_dir : Str) :
    Nat → IncludeScan → Run IncludeScan
  | _, ⟨result, loaded_headers, none⟩ => .done ⟨result, loaded_headers, none⟩
  | 0, ⟨_, _, some _⟩ => .unfinished
  | fuel + 1, ⟨result, loaded_headers, some pos⟩ =>
    match includeStep readFile include_dir result loaded_headers pos with
    | none => .aborted
    | some scan => includeLoop readFile include_dir fuel scan

/-- The function `processInclude` of `Shader.cpp`, with its loop run for at
most `fuel` iterations: the returned string, together with the headers that
were read, in reading order. -/
def processInclude (readFile : Str → Option Str) (include_dir : Str) (fuel : Nat) (str : Str) :
    Run (Str × List Str) :=
  match includeLoop readFile include_dir fuel ⟨str, [], strFindFrom includeDirective str 0⟩ with
  | .done scan => .done (scan.result, scan.loaded_headers)
  | .aborted => .aborted
  | .unfinished => .unfinished

/-- A file system for the headers: the files with their contents; every other
file cannot be opened. -/
def headerFiles (files : List (Str × Str)) (path : Str) : Option Str :=
  StdMap.find files path

/-- A directive that names the file `name` between double quotes. -/
def directive (name : String) : Str := "#include ".toList ++ ['"'] ++ name.toList ++ ['"']

/-- A shader source in which the text `#inc` stands right before a directive
that names the header `a`. -/
def joinedSource : Str := "#inc".toList ++ directive "a"

/-- A header directory with two headers: the content of `a` starts with the
text `lude`. -/
def joinedFiles : List (Str × Str) :=
  [("inc/a".toList, "lude ".toList ++ ['"', 'b', '"']), ("inc/b".toList, "void f();".toList)]

/-- A shader source with a directive for the header `a` and, later, one for
the header `b`. -/
def nestedSource : Str :=
  "x".toList ++ ['\n'] ++ directive "a" ++ ['\n', 'y', '\n'] ++ directive "b" ++ ['\n', 'z']

/-- A header directory in which `a` includes `b` and `b` includes `a`. -/
def nestedFiles : List (Str × Str) :=
  [("inc/a".toList, ['A', '\n'] ++ directive "b" ++ ['\n', 'C']),
   ("inc/b".toList, ['B', '\n'] ++ directive "a" ++ ['\n', 'D'])]

/-! ## Sample inputs with recorded pivots of every role -/

/-- A matrix with unit diagonal and zero translation column that is not the
identity, used as a recorded `PreRotation`. -/
def samplePre : Matrix4x4 Int := ⟨1, 2, 0, 0, 0, 1, 0, 0, 0, 0, 1, 0, 0, 0, 0, 1⟩

/-- A second such matrix, used as a recorded `PostRotation`. -/
def samplePost : Matrix4x4 Int := ⟨1, 0, 0, 0, 0, 1, 3, 0, 0, 0, 1, 0, 0, 0, 0, 1⟩

/-- A third such matrix, used as a recorded `Rotation`. -/
def sampleMid : Matrix4x4 Int := ⟨1, 0, 5, 0, 0, 1, 0, 0, 0, 0, 1, 0, 0, 0, 0, 1⟩

/-- A pivot map with six nodes.  `P` records `PreRotation`, `Rotation` and
`PostRotation` and has an animated `Rotation` sub-node; `Q` records
`PreRotation` and `PostRotation` only; `R` records the three rotation roles
and is not animated; `S` records a `Scaling` and is not animated; `T` records
a `Scaling` and has an animated `Scaling` sub-node; `U` records the identity as
`PreRotation`, a `Rotation`, and has an animated `Rotation` sub-node. -/
def rolePivots : PivotMap Int :=
  [(['P'], [(rolePostRotation, samplePost), (rolePreRotation, samplePre),
      (roleRotation, sampleMid)]),
   (['Q'], [(rolePostRotation, samplePost), (rolePreRotation, samplePre)]),
   (['R'], [(rolePostRotation, samplePost), (rolePreRotation, samplePre),
      (roleRotation, sampleMid)]),
   (['S'], [(roleScaling, sampleScaling)]),
   (['T'], [(roleScaling, sampleScaling)]),
   (['U'], [(rolePreRotation, intIdentity), (roleRotation, sampleMid)])]

/-- The synthetic channel `P_$AssimpFbx$_Rotation`: two rotation keys. -/
def pivotRotationChannel : AnimationNode Int :=
  ⟨['P'] ++ suffixRotation, [⟨0, ⟨0, 0, 0⟩⟩], [⟨0, ⟨1, 0, 0, 1⟩⟩, ⟨5, ⟨0, 1, 0, 1⟩⟩],
    [⟨0, ⟨1, 1, 1⟩⟩]⟩

/-- The synthetic channel `T_$AssimpFbx$_Scaling`: two scaling keys. -/
def pivotScalingChannel : AnimationNode Int :=
  ⟨['T'] ++ suffixScaling, [⟨0, ⟨0, 0, 0⟩⟩], [⟨0, ⟨0, 0, 0, 1⟩⟩],
    [⟨0, ⟨1, 1, 1⟩⟩, ⟨5, ⟨2, 2, 2⟩⟩]⟩

/-- The synthetic channel `U_$AssimpFbx$_Rotation`: three rotation keys, the
last of which is the negated identity quaternion. -/
def signedRotationChannel : AnimationNode Int :=
  ⟨['U'] ++ suffixRotation, [⟨0, ⟨0, 0, 0⟩⟩],
    [⟨0, ⟨0, 0, 0, 1⟩⟩, ⟨5, ⟨1, 0, 0, 1⟩⟩, ⟨7, ⟨0, 0, 0, -1⟩⟩], [⟨0, ⟨1, 1, 1⟩⟩]⟩

/-- An animation with the three synthetic channels of `P`, `T` and `U`. -/
def roleAnimation : Animation Int :=
  ⟨"Take".toList, 10, 25,
    [(['P'] ++ suffixRotation, pivotRotationChannel),
     (['T'] ++ suffixScaling, pivotScalingChannel),
     (['U'] ++ suffixRotation, signedRotationChannel)]⟩

/-- The result of `RemoveDummyNodeFBX` on `roleAnimation` with `rolePivots`. -/
def roleResult : Animation Int :=
  ⟨"Take".toList, 10, 25,
    [(['P'], ⟨['P'], [⟨0, ⟨0, 0, 0⟩⟩], [⟨0, ⟨7, -10, 2, 1⟩⟩, ⟨5, ⟨-3, 10, -2, 1⟩⟩],
        [⟨0, ⟨1, 1, 1⟩⟩]⟩),
     (['Q'], ⟨['Q'], [⟨0, ⟨0, 0, 0⟩⟩], [⟨0, ⟨-3, 6, -2, 1⟩⟩], [⟨0, ⟨1, 1, 1⟩⟩]⟩),
     (['R'], ⟨['R'], [⟨0, ⟨0, 0, 0⟩⟩], [⟨0, ⟨-3, 11, -2, 1⟩⟩], [⟨0, ⟨1, 1, 1⟩⟩]⟩),
     (['S'], ⟨['S'], [⟨0, ⟨0, 0, 0⟩⟩], [⟨0, ⟨0, 0, 0, 1⟩⟩], [⟨0, ⟨2, 3, 4⟩⟩]⟩),
     (['T'], ⟨['T'], [⟨0, ⟨0, 0, 0⟩⟩], [⟨0, ⟨0, 0, 0, 1⟩⟩],
        [⟨0, ⟨1, 1, 1⟩⟩, ⟨5, ⟨2, 2, 2⟩⟩]⟩),
     (['U'], ⟨['U'], [⟨0, ⟨0, 0, 0⟩⟩],
        [⟨0, ⟨0, 0, 0, 1⟩⟩, ⟨5, ⟨4, 0, 0, 1⟩⟩, ⟨7, ⟨0, 0, 0, 1⟩⟩], [⟨0, ⟨1, 1, 1⟩⟩]⟩)]⟩

/-- A cast that rounds every value of magnitude below 1000 to 0 and keeps the
other values, as the cast of a `double` to `float` rounds a value below the
smallest positive `float` to 0. -/
def coarseCast (d : Int) : Int := if d.natAbs < 1000 then 0 else d

/-- A source animation whose rate 5 is positive and is rounded to 0 by
`coarseCast`. -/
def slowSource : aiAnimation Int Int := ⟨"Take".toList, 10000, 5, []⟩

/-! ## Strings: facts about the marker -/


theorem marker_isPrefixOf_overlap (p rest : Str) (hp : p <+: marker) (hne : p ≠ [])
    (hne2 : p ≠ marker) : marker.isPrefixOf (p ++ (marker ++ rest)) = false := by
  rw [← List.mem_inits] at hp
  simp only [marker, List.inits, List.mem_cons] at hp
  simp at hp
  rcases hp with h | h | h | h | h | h | h | h | h | h | h | h | h <;> subst h <;>
    first
    | exact absurd rfl hne
    | exact absurd rfl hne2
    | simp [marker, List.isPrefixOf]

theorem strFind_marker_self (rest : Str) : strFind marker (marker ++ rest) = some 0 := by
  simp [marker, strFind, List.isPrefixOf]

theorem strFind_cons_none {pat : Str} {c : Char} {t : Str} (h : strFind pat (c :: t) = none) :
    pat.isPrefixOf (c :: t) = false ∧ strFind pat t = none := by
  unfold strFind at h
  cases hp : pat.isPrefixOf (c :: t) with
  | true => rw [hp] at h; simp at h
  | false => rw [hp] at h; exact ⟨rfl, by simpa using h⟩

theorem strFind_append_marker (X rest : Str) (h : strFind marker X = none) :
    strFind marker (X ++ (marker ++ rest)) = some X.length := by
  induction X with
  | nil => simpa using strFind_marker_self rest
  | cons c t ih =>
    obtain ⟨h1, h2⟩ := strFind_cons_none h
    have hnp : marker.isPrefixOf (c :: t ++ (marker ++ rest)) = false := by
      by_contra hcon
      have hcon : marker.isPrefixOf (c :: t ++ (marker ++ rest)) = true := by simpa using hcon
      rw [List.isPrefixOf_iff_prefix] at hcon
      have hpre : (c :: t) <+: (c :: t ++ (marker ++ rest)) := List.prefix_append _ _
      rcases List.prefix_or_prefix_of_prefix hcon hpre with hm | hm
      · rw [← List.isPrefixOf_iff_prefix] at hm
        rw [hm] at h1
        exact Bool.noConfusion h1
      · have hne2 : (c :: t) ≠ marker := by
          intro he
          have : marker.isPrefixOf (c :: t) = true := by
            rw [List.isPrefixOf_iff_prefix, he]
          rw [this] at h1
          exact Bool.noConfusion h1
        have := marker_isPrefixOf_overlap (c :: t) rest hm (List.cons_ne_nil _ _) hne2
        rw [← List.isPrefixOf_iff_prefix] at hcon
        rw [this] at hcon
        exact Bool.noConfusion hcon
    have hgoal : strFind marker (c :: (t ++ (marker ++ rest))) = some (t.length + 1) := by
      rw [strFind]
      have hnp2 : marker.isPrefixOf (c :: (t ++ (marker ++ rest))) = false := by simpa using hnp
      rw [hnp2, ih h2]
      rfl
    simpa using hgoal

/-- Shape of a synthetic name: position of the marker, true name and role. -/
theorem synthetic_name_parts (X role : Str) (h : strFind marker X = none) :
    strFind marker (X ++ (marker ++ '_' :: role)) = some X.length ∧
    (X ++ (marker ++ '_' :: role)).take X.length = X ∧
    ¬ (X ++ (marker ++ '_' :: role)).length < X.length + 13 ∧
    (X ++ (marker ++ '_' :: role)).drop (X.length + 13) = role := by
  refine ⟨strFind_append_marker X _ h, ?_, ?_, ?_⟩
  · simp
  · simp [marker]
  · rw [List.drop_append]
    simp [marker]

/-! ## Facts about `StdMap` -/

set_option linter.unusedSectionVars false

namespace StdMap

variable {K V : Type} [DecidableEq K]

theorem find_eq_none_iff (m : StdMap K V) (k : K) : find m k = none ↔ k ∉ keys m := by
  induction m with
  | nil => simp [find, keys]
  | cons e t ih =>
    obtain ⟨k', v⟩ := e
    by_cases h : k' = k
    · simp [find, keys, h]
    · have h2 : ¬ k = k' := fun e => h e.symm
      simp [find, h, h2, ih, keys]

theorem find_erase_self (m : StdMap K V) (k : K) : find (erase m k) k = none := by
  rw [find_eq_none_iff]
  simp [erase, keys, List.mem_map, List.mem_filter]

theorem erase_cons (e : K × V) (t : StdMap K V) (k : K) :
    erase (e :: t) k = if e.1 = k then erase t k else e :: erase t k := by
  by_cases h : e.1 = k <;> simp [erase, h]

theorem find_erase_ne (m : StdMap K V) {k k' : K} (h : k' ≠ k) :
    find (erase m k) k' = find m k' := by
  induction m with
  | nil => rfl
  | cons e t ih =>
    obtain ⟨k0, v⟩ := e
    rw [erase_cons]
    by_cases h0 : k0 = k
    · have h1 : ¬ k0 = k' := fun e => h (e.symm.trans h0)
      simp only [h0, if_true, find, ih]
      rw [if_neg (fun e => h e.symm)]
    · simp only [h0, if_false, find, ih]

theorem erase_of_find_none (m : StdMap K V) (k : K) (h : find m k = none) : erase m k = m := by
  rw [find_eq_none_iff] at h
  unfold erase
  rw [List.filter_eq_self]
  intro e he
  have : e.1 ∈ keys m := List.mem_map_of_mem _ he
  simp only [ne_eq, decide_eq_true_eq]
  intro hk; rw [hk] at this; exact h this

theorem find_replace_self (m : StdMap K V) (k : K) (v : V) (h : find m k ≠ none) :
    find (replace k v m) k = some v := by
  induction m with
  | nil => exact absurd rfl h
  | cons e t ih =>
    obtain ⟨k0, v0⟩ := e
    by_cases h0 : k0 = k
    · simp [replace, find, h0]
    · simp only [find, h0, if_false] at h
      simp [replace, find, h0, ih h]

theorem find_replace_ne (m : StdMap K V) {k k' : K} (v : V) (h : k' ≠ k) :
    find (replace k v m) k' = find m k' := by
  induction m with
  | nil => rfl
  | cons e t ih =>
    obtain ⟨k0, v0⟩ := e
    by_cases h0 : k0 = k
    · have h1 : ¬ k0 = k' := fun e => h (e.symm.trans h0)
      simp only [replace, h0, if_true, find]
      rw [if_neg (fun e => h e.symm), if_neg (fun e => h e.symm)]
    · simp only [replace, h0, if_false, find, ih]

theorem replace_of_find (m : StdMap K V) (k : K) (v : V) (h : find m k = some v) :
    replace k v m = m := by
  induction m with
  | nil => rfl
  | cons e t ih =>
    obtain ⟨k0, v0⟩ := e
    by_cases h0 : k0 = k
    · simp [find, h0] at h
      simp [replace, h0, h]
    · simp only [find, h0, if_false] at h
      simp [replace, h0, ih h]

theorem keys_replace (m : StdMap K V) (k : K) (v : V) : keys (replace k v m) = keys m := by
  induction m with
  | nil => rfl
  | cons e t ih =>
    obtain ⟨k0, v0⟩ := e
    have ih2 : List.map Prod.fst (replace k v t) = List.map Prod.fst t := ih
    by_cases h0 : k0 = k <;> simp [replace, keys, h0, ih2]

theorem find_insertOrdered_self [KeyOrder K] (m : StdMap K V) (k : K) (v : V)
    (h : find m k = none) : find (insertOrdered k v m) k = some v := by
  induction m with
  | nil => simp [insertOrdered, find]
  | cons e t ih =>
    obtain ⟨k0, v0⟩ := e
    by_cases h0 : k0 = k
    · simp [find, h0] at h
    · simp only [find, h0, if_false] at h
      cases hl : KeyOrder.less k k0 <;> simp [insertOrdered, hl, find, h0, ih h]

theorem find_insertOrdered_ne [KeyOrder K] (m : StdMap K V) {k k' : K} (v : V) (h : k' ≠ k) :
    find (insertOrdered k v m) k' = find m k' := by
  have h2 : ¬ k = k' := fun e => h e.symm
  induction m with
  | nil => simp [insertOrdered, find, h2]
  | cons e t ih =>
    obtain ⟨k0, v0⟩ := e
    cases hl : KeyOrder.less k k0 <;> simp [insertOrdered, hl, find, h2, ih]

theorem perm_insertOrdered [KeyOrder K] (m : StdMap K V) (k : K) (v : V) :
    (insertOrdered k v m).Perm ((k, v) :: m) := by
  induction m with
  | nil => simp [insertOrdered]
  | cons e t ih =>
    obtain ⟨k0, v0⟩ := e
    cases hl : KeyOrder.less k k0
    · simp only [insertOrdered, hl]
      exact (List.Perm.cons _ ih).trans (List.Perm.swap _ _ _)
    · simp [insertOrdered, hl]

theorem find_assign_self [KeyOrder K] (m : StdMap K V) (k : K) (v : V) :
    find (assign m k v) k = some v := by
  unfold assign
  cases h : find m k with
  | none => exact find_insertOrdered_self m k v h
  | some w => exact find_replace_self m k v (by rw [h]; exact Option.some_ne_none _)

theorem find_assign_ne [KeyOrder K] (m : StdMap K V) {k k' : K} (v : V) (h : k' ≠ k) :
    find (assign m k v) k' = find m k' := by
  unfold assign
  cases find m k with
  | none => exact find_insertOrdered_ne m v h
  | some w => exact find_replace_ne m v h

theorem assign_of_find [KeyOrder K] (m : StdMap K V) (k : K) (v : V) (h : find m k = some v) :
    assign m k v = m := by
  unfold assign
  rw [h]
  exact replace_of_find m k v h

theorem keys_nodup_erase (m : StdMap K V) (k : K) (h : (keys m).Nodup) :
    (keys (erase m k)).Nodup := by
  unfold keys erase
  exact (List.Nodup.sublist (List.Sublist.map _ (List.filter_sublist _)) h)

theorem keys_nodup_assign [KeyOrder K] (m : StdMap K V) (k : K) (v : V) (h : (keys m).Nodup) :
    (keys (assign m k v)).Nodup := by
  unfold assign
  cases hf : find m k with
  | some w => simpa [keys_replace] using h
  | none =>
    have hp : (keys (insertOrdered k v m)).Perm (k :: keys m) := by
      simpa [keys] using (perm_insertOrdered m k v).map Prod.fst
    rw [hp.nodup_iff, List.nodup_cons]
    exact ⟨(find_eq_none_iff m k).1 hf, h⟩

theorem mem_keys_of_find {m : StdMap K V} {k : K} {v : V} (h : find m k = some v) :
    k ∈ keys m := by
  by_contra hc
  rw [← find_eq_none_iff] at hc
  rw [hc] at h
  exact Option.noConfusion h

theorem find_of_mem_nodup {m : StdMap K V} {k : K} {v : V} (hn : (keys m).Nodup)
    (h : (k, v) ∈ m) : find m k = some v := by
  induction m with
  | nil => simp at h
  | cons e t ih =>
    obtain ⟨k0, v0⟩ := e
    simp only [keys, List.map_cons, List.nodup_cons] at hn
    rcases List.mem_cons.1 h with h1 | h1
    · cases h1; simp [find]
    · have : k0 ≠ k := by
        intro e; subst e
        exact hn.1 (List.mem_map_of_mem Prod.fst h1)
      simp [find, this, ih hn.2 h1]

end StdMap

/-! ## Steps of `buildModelTree` -/

/-- One step of `buildModelTree` at a synthetic node with a single child. -/
theorem buildModelTree_synthetic {F : Type} (ops : FloatOps F) (fileScale : F) (X role : Str)
    (t : aiMatrix4x4 F) (ms : List Nat) (child : aiNode F) (st : ImporterState F)
    (hX : strFind marker X = none) (hrole : role ∈ DummyNodeNames)
    (hchild : X.isPrefixOf child.mName = true) :
    buildModelTree ops fileScale (.mk (X ++ (marker ++ '_' :: role)) t ms [child]) st =
      match buildModelTree ops fileScale child
          (st.withPivot X role (scaleTranslation ops fileScale (ConvertMatrix t))) with
      | some (c, st2) =>
        some (c.setTransform
          (ops.matMul (scaleTranslation ops fileScale (ConvertMatrix t)) c.transform), st2)
      | none => none := by
  obtain ⟨a1, a2, a3, a4⟩ := synthetic_name_parts X role hX
  rw [buildModelTree]
  simp only [a1, a2, a3, a4, hchild, hrole]
  simp

/-- One step of `buildModelTree` at a node whose name has no marker. -/
theorem buildModelTree_plain {F : Type} (ops : FloatOps F) (fileScale : F) (X : Str)
    (t : aiMatrix4x4 F) (ms : List Nat) (children : List (aiNode F)) (st : ImporterState F)
    (hX : strFind marker X = none) :
    buildModelTree ops fileScale (.mk X t ms children) st =
      match buildChildren ops fileScale children (st.withBone X) with
      | some (cs, st2) =>
        some (.mk X (scaleTranslation ops fileScale (ConvertMatrix t)) false
          st.m_boneToIndex.size ms cs, st2)
      | none => none := by
  rw [buildModelTree]
  simp only [hX]

theorem isPrefixOf_append_self (X s : Str) : X.isPrefixOf (X ++ s) = true := by
  rw [List.isPrefixOf_iff_prefix]; exact List.prefix_append _ _

/-- The result of `buildModelTree` on a pivot chain. -/
theorem buildModelTree_chain_eq {F : Type} (ops : FloatOps F) (fileScale : F) (X : Str)
    (tPre tRot tPost tX : aiMatrix4x4 F) (msPre msRot msPost ms : List Nat)
    (children : List (aiNode F)) (st : ImporterState F)
    (cs : List (ModelNode F)) (st' : ImporterState F)
    (hX : strFind marker X = none)
    (hchildren : buildChildren ops fileScale children
      ((((st.withPivot X rolePreRotation (scaleTranslation ops fileScale (ConvertMatrix tPre))).withPivot
        X roleRotation (scaleTranslation ops fileScale (ConvertMatrix tRot))).withPivot
        X rolePostRotation (scaleTranslation ops fileScale (ConvertMatrix tPost))).withBone X)
      = some (cs, st')) :
    buildModelTree ops fileScale
      (.mk (X ++ suffixPreRotation) tPre msPre
        [.mk (X ++ suffixRotation) tRot msRot
          [.mk (X ++ suffixPostRotation) tPost msPost [.mk X tX ms children]]]) st
    = some (.mk X
        (ops.matMul (scaleTranslation ops fileScale (ConvertMatrix tPre))
          (ops.matMul (scaleTranslation ops fileScale (ConvertMatrix tRot))
            (ops.matMul (scaleTranslation ops fileScale (ConvertMatrix tPost))
              (scaleTranslation ops fileScale (ConvertMatrix tX)))))
        false st.m_boneToIndex.size ms cs, st') := by
  simp only [suffixPreRotation, suffixRotation, suffixPostRotation]
  rw [buildModelTree_synthetic ops fileScale X rolePreRotation _ _ _ _ hX (by decide)
      (isPrefixOf_append_self _ _),
    buildModelTree_synthetic ops fileScale X roleRotation _ _ _ _ hX (by decide)
      (isPrefixOf_append_self _ _),
    buildModelTree_synthetic ops fileScale X rolePostRotation _ _ _ _ hX (by decide)
      (by simp [aiNode.mName]),
    buildModelTree_plain ops fileScale X _ _ _ _ hX, hchildren]
  rfl

/-! ## The three blocks of one iteration, case by case -/

theorem reconcilePosition_none {F : Type} (ops : FloatOps F) (n : Str)
    (r : StdMap Str (Matrix4x4 F)) (c : Channels F)
    (hr : StdMap.find r roleTranslation = none) :
    reconcilePosition ops n r c = some ([⟨ops.zero, ops.vecZero⟩], c) := by
  simp only [reconcilePosition, hr]

theorem reconcilePosition_static {F : Type} (ops : FloatOps F) (n : Str)
    (r : StdMap Str (Matrix4x4 F)) (c : Channels F) (m : Matrix4x4 F)
    (hr : StdMap.find r roleTranslation = some m)
    (hc : StdMap.find c (n ++ suffixTranslation) = none) :
    reconcilePosition ops n r c = some ([⟨ops.zero, ⟨m.m03, m.m13, m.m23⟩⟩], c) := by
  simp only [reconcilePosition, hr, hc]

theorem reconcilePosition_animated {F : Type} (ops : FloatOps F) (n : Str)
    (r : StdMap Str (Matrix4x4 F)) (c : Channels F) (m : Matrix4x4 F) (ch : AnimationNode F)
    (hr : StdMap.find r roleTranslation = some m)
    (hc : StdMap.find c (n ++ suffixTranslation) = some ch) :
    reconcilePosition ops n r c =
      if singleQuaternionKey ops ch.rotationKeys ops.quatIdentity
          && singleVectorKey ops ch.scalingKeys ops.vecOne then
        some (ch.positionKeys, StdMap.erase c (n ++ suffixTranslation))
      else none := by
  simp only [reconcilePosition, hr, hc]

theorem reconcileRotation_none {F : Type} (ops : FloatOps F) (n : Str)
    (r : StdMap Str (Matrix4x4 F)) (c : Channels F)
    (hr : StdMap.find r roleRotation = none) :
    reconcileRotation ops n r c =
      (staticRotation ops (ops.matMul (preRotationOf ops r) (postRotationOf ops r))).map
        (fun rot => ([⟨ops.zero, rot⟩], c)) := by
  simp only [reconcileRotation, hr]

theorem reconcileRotation_static {F : Type} (ops : FloatOps F) (n : Str)
    (r : StdMap Str (Matrix4x4 F)) (c : Channels F) (m : Matrix4x4 F)
    (hr : StdMap.find r roleRotation = some m)
    (hc : StdMap.find c (n ++ suffixRotation) = none) :
    reconcileRotation ops n r c =
      (staticRotation ops
          (ops.matMul (ops.matMul (preRotationOf ops r) m) (postRotationOf ops r))).map
        (fun rot => ([⟨ops.zero, rot⟩], c)) := by
  simp only [reconcileRotation, hr, hc]

theorem reconcileRotation_animated {F : Type} (ops : FloatOps F) (n : Str)
    (r : StdMap Str (Matrix4x4 F)) (c : Channels F) (m : Matrix4x4 F) (ch : AnimationNode F)
    (hr : StdMap.find r roleRotation = some m)
    (hc : StdMap.find c (n ++ suffixRotation) = some ch) :
    reconcileRotation ops n r c =
      if singleVectorKey ops ch.positionKeys ops.vecZero
          && singleVectorKey ops ch.scalingKeys ops.vecOne then
        some (ch.rotationKeys.map (animatedRotationKey ops (preRotationOf ops r)
          (postRotationOf ops r)), StdMap.erase c (n ++ suffixRotation))
      else none := by
  simp only [reconcileRotation, hr, hc]

theorem reconcileScale_none {F : Type} (ops : FloatOps F) (n : Str)
    (r : StdMap Str (Matrix4x4 F)) (c : Channels F)
    (hr : StdMap.find r roleScaling = none) :
    reconcileScale ops n r c = some ([⟨ops.zero, ops.vecOne⟩], c) := by
  simp only [reconcileScale, hr]

theorem reconcileScale_static {F : Type} (ops : FloatOps F) (n : Str)
    (r : StdMap Str (Matrix4x4 F)) (c : Channels F) (m : Matrix4x4 F)
    (hr : StdMap.find r roleScaling = some m)
    (hc : StdMap.find c (n ++ suffixScaling) = none) :
    reconcileScale ops n r c =
      if ops.vecEq (ops.decompose m).1 ops.vecZero
          && ops.quatEq (ops.decompose m).2.1 ops.quatIdentity then
        some ([⟨ops.zero, (ops.decompose m).2.2⟩], c)
      else none := by
  simp only [reconcileScale, hr, hc]

theorem reconcileScale_animated {F : Type} (ops : FloatOps F) (n : Str)
    (r : StdMap Str (Matrix4x4 F)) (c : Channels F) (m : Matrix4x4 F) (ch : AnimationNode F)
    (hr : StdMap.find r roleScaling = some m)
    (hc : StdMap.find c (n ++ suffixScaling) = some ch) :
    reconcileScale ops n r c =
      if singleVectorKey ops ch.positionKeys ops.vecZero
          && singleQuaternionKey ops ch.rotationKeys ops.quatIdentity then
        some (ch.scalingKeys, StdMap.erase c (n ++ suffixScaling))
      else none := by
  simp only [reconcileScale, hr, hc]

/-! ## What a block does to the channel map, and what it reads -/

theorem reconcilePosition_channels {F : Type} (ops : FloatOps F) (n : Str)
    (r : StdMap Str (Matrix4x4 F)) (c c1 : Channels F) (pk : List (Vector3Key F))
    (h : reconcilePosition ops n r c = some (pk, c1)) :
    c1 = if (StdMap.find r roleTranslation).isSome then StdMap.erase c (n ++ suffixTranslation)
      else c := by
  cases hr : StdMap.find r roleTranslation with
  | none =>
    rw [reconcilePosition_none ops n r c hr] at h
    simp only [Option.some.injEq, Prod.mk.injEq] at h
    simp [h.2]
  | some m =>
    simp only [Option.isSome_some, if_true]
    cases hc : StdMap.find c (n ++ suffixTranslation) with
    | none =>
      rw [reconcilePosition_static ops n r c m hr hc] at h
      simp only [Option.some.injEq, Prod.mk.injEq] at h
      rw [StdMap.erase_of_find_none c _ hc, h.2]
    | some ch =>
      rw [reconcilePosition_animated ops n r c m ch hr hc] at h
      split at h
      · simp only [Option.some.injEq, Prod.mk.injEq] at h
        exact h.2.symm
      · exact Option.noConfusion h

theorem reconcilePosition_congr {F : Type} (ops : FloatOps F) (n : Str)
    (r : StdMap Str (Matrix4x4 F)) (c c' : Channels F)
    (h : StdMap.find c (n ++ suffixTranslation) = StdMap.find c' (n ++ suffixTranslation)) :
    (reconcilePosition ops n r c).map Prod.fst = (reconcilePosition ops n r c').map Prod.fst := by
  cases hr : StdMap.find r roleTranslation with
  | none => rw [reconcilePosition_none ops n r c hr, reconcilePosition_none ops n r c' hr]; rfl
  | some m =>
    cases hc : StdMap.find c' (n ++ suffixTranslation) with
    | none =>
      rw [reconcilePosition_static ops n r c m hr (h.trans hc),
        reconcilePosition_static ops n r c' m hr hc]; rfl
    | some ch =>
      rw [reconcilePosition_animated ops n r c m ch hr (h.trans hc),
        reconcilePosition_animated ops n r c' m ch hr hc]
      split <;> rfl

theorem reconcileRotation_channels {F : Type} (ops : FloatOps F) (n : Str)
    (r : StdMap Str (Matrix4x4 F)) (c c1 : Channels F) (rk : List (QuaternionKey F))
    (h : reconcileRotation ops n r c = some (rk, c1)) :
    c1 = if (StdMap.find r roleRotation).isSome then StdMap.erase c (n ++ suffixRotation)
      else c := by
  cases hr : StdMap.find r roleRotation with
  | none =>
    rw [reconcileRotation_none ops n r c hr] at h
    obtain ⟨rot, -, hrot⟩ := Option.map_eq_some'.1 h
    simp only [Prod.mk.injEq] at hrot
    simp [hrot.2]
  | some m =>
    simp only [Option.isSome_some, if_true]
    cases hc : StdMap.find c (n ++ suffixRotation) with
    | none =>
      rw [reconcileRotation_static ops n r c m hr hc] at h
      obtain ⟨rot, -, hrot⟩ := Option.map_eq_some'.1 h
      simp only [Prod.mk.injEq] at hrot
      rw [StdMap.erase_of_find_none c _ hc, hrot.2]
    | some ch =>
      rw [reconcileRotation_animated ops n r c m ch hr hc] at h
      split at h
      · simp only [Option.some.injEq, Prod.mk.injEq] at h
        exact h.2.symm
      · exact Option.noConfusion h

theorem reconcileRotation_congr {F : Type} (ops : FloatOps F) (n : Str)
    (r : StdMap Str (Matrix4x4 F)) (c c' : Channels F)
    (h : StdMap.find c (n ++ suffixRotation) = StdMap.find c' (n ++ suffixRotation)) :
    (reconcileRotation ops n r c).map Prod.fst = (reconcileRotation ops n r c').map Prod.fst := by
  cases hr : StdMap.find r roleRotation with
  | none =>
    rw [reconcileRotation_none ops n r c hr, reconcileRotation_none ops n r c' hr]
    simp only [Option.map_map]
    rfl
  | some m =>
    cases hc : StdMap.find c' (n ++ suffixRotation) with
    | none =>
      rw [reconcileRotation_static ops n r c m hr (h.trans hc),
        reconcileRotation_static ops n r c' m hr hc]
      simp only [Option.map_map]
      rfl
    | some ch =>
      rw [reconcileRotation_animated ops n r c m ch hr (h.trans hc),
        reconcileRotation_animated ops n r c' m ch hr hc]
      split <;> rfl

theorem reconcileScale_channels {F : Type} (ops : FloatOps F) (n : Str)
    (r : StdMap Str (Matrix4x4 F)) (c c1 : Channels F) (sk : List (Vector3Key F))
    (h : reconcileScale ops n r c = some (sk, c1)) :
    c1 = if (StdMap.find r roleScaling).isSome then StdMap.erase c (n ++ suffixScaling)
      else c := by
  cases hr : StdMap.find r roleScaling with
  | none =>
    rw [reconcileScale_none ops n r c hr] at h
    simp only [Option.some.injEq, Prod.mk.injEq] at h
    simp [h.2]
  | some m =>
    simp only [Option.isSome_some, if_true]
    cases hc : StdMap.find c (n ++ suffixScaling) with
    | none =>
      rw [reconcileScale_static ops n r c m hr hc] at h
      split at h
      · simp only [Option.some.injEq, Prod.mk.injEq] at h
        rw [StdMap.erase_of_find_none c _ hc, h.2]
      · exact Option.noConfusion h
    | some ch =>
      rw [reconcileScale_animated ops n r c m ch hr hc] at h
      split at h
      · simp only [Option.some.injEq, Prod.mk.injEq] at h
        exact h.2.symm
      · exact Option.noConfusion h

theorem reconcileScale_congr {F : Type} (ops : FloatOps F) (n : Str)
    (r : StdMap Str (Matrix4x4 F)) (c c' : Channels F)
    (h : StdMap.find c (n ++ suffixScaling) = StdMap.find c' (n ++ suffixScaling)) :
    (reconcileScale ops n r c).map Prod.fst = (reconcileScale ops n r c').map Prod.fst := by
  cases hr : StdMap.find r roleScaling with
  | none => rw [reconcileScale_none ops n r c hr, reconcileScale_none ops n r c' hr]; rfl
  | some m =>
    cases hc : StdMap.find c' (n ++ suffixScaling) with
    | none =>
      rw [reconcileScale_static ops n r c m hr (h.trans hc),
        reconcileScale_static ops n r c' m hr hc]
      split <;> rfl
    | some ch =>
      rw [reconcileScale_animated ops n r c m ch hr (h.trans hc),
        reconcileScale_animated ops n r c' m ch hr hc]
      split <;> rfl

/-! ## One iteration of the loop -/

set_option linter.unnecessarySeqFocus false

theorem suffix_ne_RT (n : Str) : n ++ suffixRotation ≠ n ++ suffixTranslation := by
  intro h; exact absurd (List.append_cancel_left h) (by decide)
theorem suffix_ne_SR (n : Str) : n ++ suffixScaling ≠ n ++ suffixRotation := by
  intro h; exact absurd (List.append_cancel_left h) (by decide)
theorem suffix_ne_ST (n : Str) : n ++ suffixScaling ≠ n ++ suffixTranslation := by
  intro h; exact absurd (List.append_cancel_left h) (by decide)

theorem ne_append_suffix (n s : Str) (hs : s ≠ []) : n ≠ n ++ s := by
  intro h
  have := congrArg List.length h
  simp at this
  exact hs this

theorem find_eraseConsumed {F : Type} (n : Str) (r : StdMap Str (Matrix4x4 F)) (c : Channels F)
    (k : Str) :
    StdMap.find (eraseConsumed n r c) k = if consumes n r k then none else StdMap.find c k := by
  have key : ∀ (b : Bool) (m : Channels F) (x : Str),
      StdMap.find (if b = true then StdMap.erase m x else m) k
        = if (b && decide (k = x)) = true then none else StdMap.find m k := by
    intro b m x
    cases b
    · simp
    · by_cases hk : k = x
      · subst hk; simp [StdMap.find_erase_self]
      · simp [hk, StdMap.find_erase_ne m hk]
  unfold eraseConsumed consumes
  simp only [key]
  cases h1 : ((StdMap.find r roleTranslation).isSome && decide (k = n ++ suffixTranslation)) <;>
  cases h2 : ((StdMap.find r roleRotation).isSome && decide (k = n ++ suffixRotation)) <;>
  cases h3 : ((StdMap.find r roleScaling).isSome && decide (k = n ++ suffixScaling)) <;> simp

theorem reconcileNode_spec {F : Type} (ops : FloatOps F) (n : Str)
    (r : StdMap Str (Matrix4x4 F)) (c c' : Channels F) (node : AnimationNode F)
    (h : reconcileNode ops n r c = some (node, c')) :
    reconciledNode ops n r c = some node ∧ c' = StdMap.assign (eraseConsumed n r c) n node := by
  unfold reconcileNode at h
  cases hp : reconcilePosition ops n r c with
  | none => rw [hp] at h; exact Option.noConfusion h
  | some p1 =>
    obtain ⟨pk, c1⟩ := p1
    rw [hp] at h
    simp only at h
    have hc1 := reconcilePosition_channels ops n r c c1 pk hp
    cases hq : reconcileRotation ops n r c1 with
    | none => rw [hq] at h; exact Option.noConfusion h
    | some p2 =>
      obtain ⟨rk, c2⟩ := p2
      rw [hq] at h
      simp only at h
      have hc2 := reconcileRotation_channels ops n r c1 c2 rk hq
      cases hs : reconcileScale ops n r c2 with
      | none => rw [hs] at h; exact Option.noConfusion h
      | some p3 =>
        obtain ⟨sk, c3⟩ := p3
        rw [hs] at h
        simp only [Option.some.injEq, Prod.mk.injEq] at h
        have hc3 := reconcileScale_channels ops n r c2 c3 sk hs
        -- the blocks read the same entries in `c`
        have e1 : StdMap.find c1 (n ++ suffixRotation) = StdMap.find c (n ++ suffixRotation) := by
          rw [hc1]; split
          · exact StdMap.find_erase_ne c (suffix_ne_RT n)
          · rfl
        have e2 : StdMap.find c2 (n ++ suffixScaling) = StdMap.find c (n ++ suffixScaling) := by
          have e21 : StdMap.find c2 (n ++ suffixScaling) = StdMap.find c1 (n ++ suffixScaling) := by
            rw [hc2]; split
            · exact StdMap.find_erase_ne c1 (suffix_ne_SR n)
            · rfl
          rw [e21, hc1]; split
          · exact StdMap.find_erase_ne c (suffix_ne_ST n)
          · rfl
        have hq' := reconcileRotation_congr ops n r c1 c e1
        have hs' := reconcileScale_congr ops n r c2 c e2
        rw [hq] at hq'
        rw [hs] at hs'
        constructor
        · unfold reconciledNode
          rw [hp]
          cases hq2 : reconcileRotation ops n r c with
          | none => rw [hq2] at hq'; exact Option.noConfusion hq'
          | some p2' =>
            rw [hq2] at hq'
            cases hs2 : reconcileScale ops n r c with
            | none => rw [hs2] at hs'; exact Option.noConfusion hs'
            | some p3' =>
              rw [hs2] at hs'
              simp only [Option.map_some', Option.some.injEq] at hq' hs'
              simp only [← hq', ← hs', h.1]
        · rw [← h.2, ← h.1, hc3, hc2, hc1]
          rfl

theorem reconcileNode_find {F : Type} (ops : FloatOps F) (n : Str)
    (r : StdMap Str (Matrix4x4 F)) (c c' : Channels F) (node : AnimationNode F)
    (h : reconcileNode ops n r c = some (node, c')) (k : Str) :
    StdMap.find c' k =
      if k = n then some node else if consumes n r k then none else StdMap.find c k := by
  obtain ⟨-, hc⟩ := reconcileNode_spec ops n r c c' node h
  rw [hc]
  by_cases hk : k = n
  · subst hk; simp [StdMap.find_assign_self]
  · rw [StdMap.find_assign_ne _ _ hk, find_eraseConsumed]
    simp [hk]

theorem reconciledNode_congr {F : Type} (ops : FloatOps F) (n : Str)
    (r : StdMap Str (Matrix4x4 F)) (c c' : Channels F)
    (hT : StdMap.find c (n ++ suffixTranslation) = StdMap.find c' (n ++ suffixTranslation))
    (hR : StdMap.find c (n ++ suffixRotation) = StdMap.find c' (n ++ suffixRotation))
    (hS : StdMap.find c (n ++ suffixScaling) = StdMap.find c' (n ++ suffixScaling)) :
    reconciledNode ops n r c = reconciledNode ops n r c' := by
  have h1 := reconcilePosition_congr ops n r c c' hT
  have h2 := reconcileRotation_congr ops n r c c' hR
  have h3 := reconcileScale_congr ops n r c c' hS
  unfold reconciledNode
  cases a : reconcilePosition ops n r c <;> cases a' : reconcilePosition ops n r c' <;>
    rw [a, a'] at h1 <;> simp at h1 <;>
  cases b : reconcileRotation ops n r c <;> cases b' : reconcileRotation ops n r c' <;>
    rw [b, b'] at h2 <;> simp at h2 <;>
  cases d : reconcileScale ops n r c <;> cases d' : reconcileScale ops n r c' <;>
    rw [d, d'] at h3 <;> simp at h3 <;> simp [h1, h2, h3]

/-! ## The whole loop -/

theorem consumes_shape {F : Type} (n : Str) (r : StdMap Str (Matrix4x4 F)) (k : Str)
    (h : consumes n r k = true) : ∃ rest, k = n ++ (marker ++ rest) := by
  unfold consumes at h
  simp only [Bool.or_eq_true, Bool.and_eq_true, decide_eq_true_eq] at h
  rcases h with (⟨-, h⟩ | ⟨-, h⟩) | ⟨-, h⟩
  · exact ⟨_, h⟩
  · exact ⟨_, h⟩
  · exact ⟨_, h⟩

theorem markerfree_ne_synthetic (n0 n rest : Str) (h0 : strFind marker n0 = none)
    (hn : strFind marker n = none) : n0 ≠ n ++ (marker ++ rest) := by
  intro h
  rw [h, strFind_append_marker n rest hn] at h0
  exact Option.noConfusion h0

theorem synthetic_inj (n n' rest rest' : Str) (hn : strFind marker n = none)
    (hn' : strFind marker n' = none) (h : n ++ (marker ++ rest) = n' ++ (marker ++ rest')) :
    n = n' := by
  have h1 := strFind_append_marker n rest hn
  rw [h, strFind_append_marker n' rest' hn'] at h1
  have hl : n.length = n'.length := (Option.some.inj h1).symm
  exact List.append_inj_left h hl

theorem consumes_false_of_ne {F : Type} (n n' : Str) (r : StdMap Str (Matrix4x4 F)) (rest : Str)
    (hn : strFind marker n = none) (hn' : strFind marker n' = none) (hne : n ≠ n') :
    consumes n r (n' ++ (marker ++ rest)) = false := by
  cases hc : consumes n r (n' ++ (marker ++ rest)) with
  | false => rfl
  | true =>
    obtain ⟨rest2, h2⟩ := consumes_shape n r _ hc
    exact absurd (synthetic_inj n' n rest rest2 hn' hn h2).symm hne

theorem consumes_false_of_markerfree {F : Type} (n k : Str) (r : StdMap Str (Matrix4x4 F))
    (hn : strFind marker n = none) (hk : strFind marker k = none) :
    consumes n r k = false := by
  cases hc : consumes n r k with
  | false => rfl
  | true =>
    obtain ⟨rest2, h2⟩ := consumes_shape n r _ hc
    exact absurd h2 (markerfree_ne_synthetic k n rest2 hk hn)

theorem PivotsWF_cons {F : Type} (n : Str) (r : StdMap Str (Matrix4x4 F)) (ps : PivotMap F)
    (h : PivotsWF ((n, r) :: ps)) :
    strFind marker n = none ∧ n ∉ StdMap.keys ps ∧ PivotsWF ps := by
  obtain ⟨h1, h2⟩ := h
  simp only [StdMap.keys, List.map_cons, List.nodup_cons, List.mem_cons, forall_eq_or_imp] at h1 h2
  exact ⟨h2.1, h1.1, h1.2, h2.2⟩

theorem PivotsWF_mem {F : Type} {n : Str} {r : StdMap Str (Matrix4x4 F)} {ps : PivotMap F}
    (h : PivotsWF ps) (hm : (n, r) ∈ ps) : strFind marker n = none :=
  h.2 n (List.mem_map_of_mem Prod.fst hm)

/-- The channel map after the whole loop, entry by entry, in terms of the
channel map before it. -/
theorem reconcileAll_spec {F : Type} (ops : FloatOps F) (ps : PivotMap F) (hwf : PivotsWF ps) :
    ∀ c cf : Channels F, reconcileAll ops ps c = some cf →
      (∀ n r, (n, r) ∈ ps → ∃ node, reconciledNode ops n r c = some node ∧
        StdMap.find cf n = some node) ∧
      (∀ n r k, (n, r) ∈ ps → consumes n r k = true → StdMap.find cf k = none) ∧
      (∀ k, (∀ n r, (n, r) ∈ ps → k ≠ n ∧ consumes n r k = false) →
        StdMap.find cf k = StdMap.find c k) := by
  induction ps with
  | nil =>
    intro c cf h
    simp only [reconcileAll, Option.some.injEq] at h
    subst h
    exact ⟨fun _ _ hm => absurd hm (List.not_mem_nil _),
      fun _ _ _ hm => absurd hm (List.not_mem_nil _), fun _ _ => rfl⟩
  | cons p rest ih =>
    obtain ⟨n0, r0⟩ := p
    obtain ⟨hn0, hnot, hwf'⟩ := PivotsWF_cons n0 r0 rest hwf
    intro c cf h
    rw [reconcileAll] at h
    cases hstep : reconcileNode ops n0 r0 c with
    | none => rw [hstep] at h; exact Option.noConfusion h
    | some res =>
      obtain ⟨node0, c1⟩ := res
      rw [hstep] at h
      simp only at h
      obtain ⟨ih1, ih2, ih3⟩ := ih hwf' c1 cf h
      obtain ⟨hnode0, -⟩ := reconcileNode_spec ops n0 r0 c c1 node0 hstep
      have hfind := reconcileNode_find ops n0 r0 c c1 node0 hstep
      -- keys of the other nodes differ from `n0`
      have hne : ∀ n r, (n, r) ∈ rest → n ≠ n0 := by
        intro n r hm e
        subst e
        exact hnot (List.mem_map_of_mem Prod.fst hm)
      refine ⟨?_, ?_, ?_⟩
      · intro n r hm
        rcases List.mem_cons.1 hm with hm | hm
        · cases hm
          refine ⟨node0, hnode0, ?_⟩
          rw [ih3 n0 (fun n r hmr => ⟨(hne n r hmr).symm,
            consumes_false_of_markerfree n n0 r (PivotsWF_mem hwf' hmr) hn0⟩), hfind]
          simp
        · obtain ⟨node, hnode, hf⟩ := ih1 n r hm
          refine ⟨node, ?_, hf⟩
          rw [← hnode]
          have hn := PivotsWF_mem hwf' hm
          have hagree : ∀ rest' : Str, StdMap.find c (n ++ (marker ++ rest'))
              = StdMap.find c1 (n ++ (marker ++ rest')) := by
            intro rest'
            rw [hfind, if_neg (fun e => markerfree_ne_synthetic n0 n rest' hn0 hn e.symm),
              consumes_false_of_ne n0 n r0 rest' hn0 hn (hne n r hm).symm]
            simp
          exact reconciledNode_congr ops n r c c1 (hagree _) (hagree _) (hagree _)
      · intro n r k hm hk
        rcases List.mem_cons.1 hm with hm | hm
        · cases hm
          obtain ⟨rest', hrest⟩ := consumes_shape n0 r0 k hk
          rw [ih3 k (fun n r hmr => ?_), hfind, hk]
          · have : k ≠ n0 := by
              rw [hrest]; intro e
              exact markerfree_ne_synthetic n0 n0 rest' hn0 hn0 e.symm
            simp [this]
          · have hn := PivotsWF_mem hwf' hmr
            rw [hrest]
            exact ⟨fun e => markerfree_ne_synthetic n n0 rest' hn hn0 e.symm,
              consumes_false_of_ne n n0 r rest' hn hn0 (hne n r hmr)⟩
        · exact ih2 n r k hm hk
      · intro k hk
        have h0 := hk n0 r0 (List.mem_cons_self _ _)
        rw [ih3 k (fun n r hm => hk n r (List.mem_cons_of_mem _ hm)), hfind, if_neg h0.1, h0.2]
        simp

theorem RemoveDummyNodeFBX_channels {F : Type} (ops : FloatOps F) (pivots : PivotMap F)
    (animation result : Animation F) (h : RemoveDummyNodeFBX ops pivots animation = some result) :
    reconcileAll ops pivots animation.channels = some result.channels ∧
      result.name = animation.name ∧ result.duration = animation.duration ∧
      result.ticksPerSecond = animation.ticksPerSecond := by
  unfold RemoveDummyNodeFBX at h
  cases hc : reconcileAll ops pivots animation.channels with
  | none => rw [hc] at h; exact Option.noConfusion h
  | some c =>
    rw [hc] at h
    simp only [Option.some.injEq] at h
    subst h
    exact ⟨rfl, rfl, rfl, rfl⟩

theorem reconciledNode_tracks {F : Type} (ops : FloatOps F) (n : Str)
    (r : StdMap Str (Matrix4x4 F)) (c : Channels F) (node : AnimationNode F)
    (h : reconciledNode ops n r c = some node) :
    ∃ pk c1 rk c2 sk c3, reconcilePosition ops n r c = some (pk, c1) ∧
      reconcileRotation ops n r c = some (rk, c2) ∧ reconcileScale ops n r c = some (sk, c3) ∧
      node = ⟨n, pk, rk, sk⟩ := by
  unfold reconciledNode at h
  cases hp : reconcilePosition ops n r c with
  | none => rw [hp] at h; exact Option.noConfusion h
  | some p1 =>
    obtain ⟨pk, c1⟩ := p1
    rw [hp] at h
    cases hq : reconcileRotation ops n r c with
    | none => rw [hq] at h; exact Option.noConfusion h
    | some p2 =>
      obtain ⟨rk, c2⟩ := p2
      rw [hq] at h
      cases hs : reconcileScale ops n r c with
      | none => rw [hs] at h; exact Option.noConfusion h
      | some p3 =>
        obtain ⟨sk, c3⟩ := p3
        rw [hs] at h
        simp only [Option.some.injEq] at h
        exact ⟨pk, c1, rk, c2, sk, c3, rfl, rfl, rfl, h.symm⟩

/-- What the loop leaves under a pending node's name, and that it removes the
channels it consumed. -/
theorem RemoveDummyNodeFBX_node {F : Type} (ops : FloatOps F) (pivots : PivotMap F)
    (animation result : Animation F) (hwf : PivotsWF pivots)
    (hrun : RemoveDummyNodeFBX ops pivots animation = some result)
    (name : Str) (roles : StdMap Str (Matrix4x4 F)) (hmem : (name, roles) ∈ pivots) :
    (∃ pk c1 rk c2 sk c3, reconcilePosition ops name roles animation.channels = some (pk, c1) ∧
      reconcileRotation ops name roles animation.channels = some (rk, c2) ∧
      reconcileScale ops name roles animation.channels = some (sk, c3) ∧
      StdMap.find result.channels name = some ⟨name, pk, rk, sk⟩) ∧
    ∀ k, consumes name roles k = true → StdMap.find result.channels k = none := by
  obtain ⟨hall, -⟩ := RemoveDummyNodeFBX_channels ops pivots animation result hrun
  obtain ⟨h1, h2, -⟩ := reconcileAll_spec ops pivots hwf _ _ hall
  obtain ⟨node, hnode, hfind⟩ := h1 name roles hmem
  obtain ⟨pk, c1, rk, c2, sk, c3, hp, hq, hs, he⟩ := reconciledNode_tracks ops _ _ _ _ hnode
  subst he
  exact ⟨⟨pk, c1, rk, c2, sk, c3, hp, hq, hs, hfind⟩, fun k hk => h2 name roles k hmem hk⟩

theorem staticRotation_eq {F : Type} (ops : FloatOps F) (M : Matrix4x4 F) (q : Quaternion F)
    (h : staticRotation ops M = some q) : q = (ops.decompose M).2.1 := by
  unfold staticRotation at h
  simp only at h
  split at h
  · exact (Option.some.inj h).symm
  · exact Option.noConfusion h

theorem consumes_translation {F : Type} (n : Str) (r : StdMap Str (Matrix4x4 F))
    (m : Matrix4x4 F) (h : StdMap.find r roleTranslation = some m) :
    consumes n r (n ++ suffixTranslation) = true := by
  simp [consumes, h]

theorem consumes_rotation {F : Type} (n : Str) (r : StdMap Str (Matrix4x4 F))
    (m : Matrix4x4 F) (h : StdMap.find r roleRotation = some m) :
    consumes n r (n ++ suffixRotation) = true := by
  simp [consumes, h]

theorem consumes_scaling {F : Type} (n : Str) (r : StdMap Str (Matrix4x4 F))
    (m : Matrix4x4 F) (h : StdMap.find r roleScaling = some m) :
    consumes n r (n ++ suffixScaling) = true := by
  simp [consumes, h]

/-- One iteration in terms of the node it builds. -/
theorem reconcileNode_eq {F : Type} (ops : FloatOps F) (n : Str)
    (r : StdMap Str (Matrix4x4 F)) (c : Channels F) :
    reconcileNode ops n r c =
      (reconciledNode ops n r c).map
        (fun node => (node, StdMap.assign (eraseConsumed n r c) n node)) := by
  cases h : reconcileNode ops n r c with
  | some res =>
    obtain ⟨node, c'⟩ := res
    obtain ⟨h1, h2⟩ := reconcileNode_spec ops n r c c' node h
    rw [h1, h2]; rfl
  | none =>
    cases hn : reconciledNode ops n r c with
    | none => rfl
    | some node =>
      exfalso
      obtain ⟨pk, c1, rk, c2, sk, c3, hp, hq, hs, -⟩ := reconciledNode_tracks ops n r c node hn
      have hc1 := reconcilePosition_channels ops n r c c1 pk hp
      have e1 : StdMap.find c1 (n ++ suffixRotation) = StdMap.find c (n ++ suffixRotation) := by
        rw [hc1]; split
        · exact StdMap.find_erase_ne c (suffix_ne_RT n)
        · rfl
      have hq' := reconcileRotation_congr ops n r c1 c e1
      rw [hq] at hq'
      cases hq1 : reconcileRotation ops n r c1 with
      | none => rw [hq1] at hq'; exact Option.noConfusion hq'
      | some p2 =>
        obtain ⟨rk1, c2'⟩ := p2
        have hc2 := reconcileRotation_channels ops n r c1 c2' rk1 hq1
        have e2 : StdMap.find c2' (n ++ suffixScaling) = StdMap.find c (n ++ suffixScaling) := by
          have e21 : StdMap.find c2' (n ++ suffixScaling)
              = StdMap.find c1 (n ++ suffixScaling) := by
            rw [hc2]; split
            · exact StdMap.find_erase_ne c1 (suffix_ne_SR n)
            · rfl
          rw [e21, hc1]; split
          · exact StdMap.find_erase_ne c (suffix_ne_ST n)
          · rfl
        have hs' := reconcileScale_congr ops n r c2' c e2
        rw [hs] at hs'
        cases hs1 : reconcileScale ops n r c2' with
        | none => rw [hs1] at hs'; exact Option.noConfusion hs'
        | some p3 =>
          obtain ⟨sk1, c3'⟩ := p3
          unfold reconcileNode at h
          rw [hp] at h
          simp only at h
          rw [hq1] at h
          simp only at h
          rw [hs1] at h
          exact Option.noConfusion h

theorem eraseConsumed_of_none {F : Type} (n : Str) (r : StdMap Str (Matrix4x4 F))
    (c : Channels F)
    (hT : StdMap.find r roleTranslation ≠ none → StdMap.find c (n ++ suffixTranslation) = none)
    (hR : StdMap.find r roleRotation ≠ none → StdMap.find c (n ++ suffixRotation) = none)
    (hS : StdMap.find r roleScaling ≠ none → StdMap.find c (n ++ suffixScaling) = none) :
    eraseConsumed n r c = c := by
  have key : ∀ (o : Option (Matrix4x4 F)) (m : Channels F) (x : Str),
      (o ≠ none → StdMap.find m x = none) →
      (if o.isSome = true then StdMap.erase m x else m) = m := by
    intro o m x hx
    cases o with
    | none => rfl
    | some v => simp only [Option.isSome_some, if_true]
                exact StdMap.erase_of_find_none m x (hx (Option.some_ne_none v))
  unfold eraseConsumed
  simp only
  rw [key _ c _ hT, key _ c _ hR, key _ c _ hS]

theorem reconcileAll_fixed {F : Type} (ops : FloatOps F) (ps : PivotMap F) (c : Channels F)
    (h : ∀ n r, (n, r) ∈ ps → ∃ node, reconcileNode ops n r c = some (node, c)) :
    reconcileAll ops ps c = some c := by
  induction ps with
  | nil => rfl
  | cons p rest ih =>
    obtain ⟨n, r⟩ := p
    obtain ⟨node, hnode⟩ := h n r (List.mem_cons_self _ _)
    rw [reconcileAll, hnode]
    exact ih (fun n r hm => h n r (List.mem_cons_of_mem _ hm))

theorem pivots_roles_unique {F : Type} {ps : PivotMap F} (hwf : PivotsWF ps) {n : Str}
    {r r' : StdMap Str (Matrix4x4 F)} (h : (n, r) ∈ ps) (h' : (n, r') ∈ ps) : r = r' := by
  have a := StdMap.find_of_mem_nodup hwf.1 h
  have b := StdMap.find_of_mem_nodup hwf.1 h'
  rw [a] at b
  exact Option.some.inj b

/-- A synthetic channel of a pending node is after the loop what it was
before it, unless the node consumed it, in which case it is gone. -/
theorem reconcileAll_synthetic {F : Type} (ops : FloatOps F) (ps : PivotMap F)
    (hwf : PivotsWF ps) (c cf : Channels F) (h : reconcileAll ops ps c = some cf)
    (n : Str) (r : StdMap Str (Matrix4x4 F)) (hm : (n, r) ∈ ps) (rest : Str) :
    StdMap.find cf (n ++ (marker ++ rest)) =
      if consumes n r (n ++ (marker ++ rest)) then none
      else StdMap.find c (n ++ (marker ++ rest)) := by
  obtain ⟨-, h2, h3⟩ := reconcileAll_spec ops ps hwf c cf h
  have hn := PivotsWF_mem hwf hm
  cases hc : consumes n r (n ++ (marker ++ rest)) with
  | true => simpa using h2 n r _ hm hc
  | false =>
    simp only [Bool.false_eq_true, if_false]
    apply h3
    intro n' r' hm'
    have hn' := PivotsWF_mem hwf hm'
    refine ⟨fun e => markerfree_ne_synthetic n' n rest hn' hn e.symm, ?_⟩
    by_cases e : n' = n
    · subst e
      rw [pivots_roles_unique hwf hm' hm]; exact hc
    · exact consumes_false_of_ne n' n r' rest hn' hn e

theorem consumes_iff {F : Type} (n : Str) (r : StdMap Str (Matrix4x4 F)) :
    (consumes n r (n ++ suffixTranslation) = true ↔ StdMap.find r roleTranslation ≠ none) ∧
    (consumes n r (n ++ suffixRotation) = true ↔ StdMap.find r roleRotation ≠ none) ∧
    (consumes n r (n ++ suffixScaling) = true ↔ StdMap.find r roleScaling ≠ none) := by
  have a := suffix_ne_RT n
  have b := suffix_ne_SR n
  have d := suffix_ne_ST n
  refine ⟨?_, ?_, ?_⟩ <;>
    simp [consumes, a, b, d, a.symm, b.symm, d.symm, Option.isSome_iff_ne_none]

/-- A successful run on an animation without consumable channels returns a
fixed point of the loop. -/
theorem reconcileAll_idempotent {F : Type} (ops : FloatOps F) (ps : PivotMap F)
    (hwf : PivotsWF ps) (c cf : Channels F) (h : reconcileAll ops ps c = some cf)
    (hstatic : NoConsumableChannel ps c) : reconcileAll ops ps cf = some cf := by
  obtain ⟨h1, -, -⟩ := reconcileAll_spec ops ps hwf c cf h
  apply reconcileAll_fixed
  intro n r hm
  obtain ⟨node, hnode, hfind⟩ := h1 n r hm
  obtain ⟨cT, cR, cS⟩ := consumes_iff n r
  obtain ⟨sT, sR, sS⟩ := hstatic (n, r) hm
  have fT := reconcileAll_synthetic ops ps hwf c cf h n r hm ('_' :: roleTranslation)
  have fR := reconcileAll_synthetic ops ps hwf c cf h n r hm ('_' :: roleRotation)
  have fS := reconcileAll_synthetic ops ps hwf c cf h n r hm ('_' :: roleScaling)
  have gT : StdMap.find cf (n ++ suffixTranslation) = StdMap.find c (n ++ suffixTranslation) := by
    show StdMap.find cf (n ++ (marker ++ '_' :: roleTranslation)) = _
    rw [fT]; split
    · rename_i hc; exact (sT (cT.1 hc)).symm
    · rfl
  have gR : StdMap.find cf (n ++ suffixRotation) = StdMap.find c (n ++ suffixRotation) := by
    show StdMap.find cf (n ++ (marker ++ '_' :: roleRotation)) = _
    rw [fR]; split
    · rename_i hc; exact (sR (cR.1 hc)).symm
    · rfl
  have gS : StdMap.find cf (n ++ suffixScaling) = StdMap.find c (n ++ suffixScaling) := by
    show StdMap.find cf (n ++ (marker ++ '_' :: roleScaling)) = _
    rw [fS]; split
    · rename_i hc; exact (sS (cS.1 hc)).symm
    · rfl
  refine ⟨node, ?_⟩
  rw [reconcileNode_eq, reconciledNode_congr ops n r cf c gT gR gS, hnode]
  have he : eraseConsumed n r cf = cf :=
    eraseConsumed_of_none n r cf (fun hx => gT.trans (sT hx)) (fun hx => gR.trans (sR hx))
      (fun hx => gS.trans (sS hx))
  simp only [Option.map_some', he, StdMap.assign_of_find cf n node hfind]

/-! ## The invariant of the pending pivot map -/

theorem strFind_take {pat : Str} (hpat : pat ≠ []) :
    ∀ (s : Str) (pos : Nat), strFind pat s = some pos → strFind pat (s.take pos) = none := by
  have hnil : strFind pat [] = none := by
    cases pat with
    | nil => exact absurd rfl hpat
    | cons a t => simp [strFind, List.isPrefixOf]
  intro s
  induction s with
  | nil => intro pos _; simpa using hnil
  | cons c t ih =>
    intro pos h
    rw [strFind] at h
    cases hp : pat.isPrefixOf (c :: t) with
    | true =>
      rw [hp] at h
      simp only [if_true, Option.some.injEq] at h
      subst h
      simpa using hnil
    | false =>
      rw [hp] at h
      simp only [Bool.false_eq_true, if_false] at h
      obtain ⟨p, hp1, hp2⟩ := Option.map_eq_some'.1 h
      subst hp2
      rw [List.take_succ_cons, strFind]
      have hnp : pat.isPrefixOf (c :: List.take p t) = false := by
        cases hq : pat.isPrefixOf (c :: List.take p t) with
        | false => rfl
        | true =>
          rw [List.isPrefixOf_iff_prefix] at hq
          have : pat <+: c :: t :=
            hq.trans ((List.prefix_cons_inj c).2 (List.take_prefix p t))
          rw [← List.isPrefixOf_iff_prefix, hp] at this
          exact Bool.noConfusion this
      rw [hnp, ih p hp1]
      rfl

theorem recordPivot_wf {F : Type} (m : PivotMap F) (trueName typeName : Str) (t : Matrix4x4 F)
    (hwf : PivotsWF m) (hfree : strFind marker trueName = none) :
    PivotsWF (recordPivot m trueName typeName t) := by
  unfold recordPivot
  cases hf : StdMap.find m trueName with
  | some roles =>
    simp only
    unfold PivotsWF
    rw [StdMap.keys_replace]
    exact hwf
  | none =>
    simp only
    refine ⟨StdMap.keys_nodup_assign m _ _ hwf.1, ?_⟩
    intro k hk
    by_cases e : k = trueName
    · rw [e]; exact hfree
    · apply hwf.2
      have : StdMap.find (StdMap.assign m trueName [(typeName, t)]) k ≠ none := by
        intro hc
        exact ((StdMap.find_eq_none_iff _ _).1 hc) hk
      rw [StdMap.find_assign_ne m _ e] at this
      by_contra hc
      exact this ((StdMap.find_eq_none_iff _ _).2 hc)

mutual

theorem buildModelTree_wf {F : Type} (ops : FloatOps F) (fileScale : F) :
    ∀ (node : aiNode F) (st : ImporterState F) (r : ModelNode F) (st' : ImporterState F),
      PivotsWF st.m_nodeTransformations → buildModelTree ops fileScale node st = some (r, st') →
      PivotsWF st'.m_nodeTransformations
  | .mk name t ms children, st, r, st', hwf, h => by
    rw [buildModelTree] at h
    cases hpos : strFind marker name with
    | some pos =>
      rw [hpos] at h
      simp only at h
      split at h
      · exact Option.noConfusion h
      · split at h
        · exact Option.noConfusion h
        · have hwf1 : PivotsWF (st.withPivot (List.take pos name) (List.drop (pos + 13) name)
              (scaleTranslation ops fileScale (ConvertMatrix t))).m_nodeTransformations :=
            recordPivot_wf _ _ _ _ hwf (strFind_take (by decide) name pos hpos)
          match children, h with
          | [child], h =>
            simp only at h
            split at h
            · exact Option.noConfusion h
            · cases hc : buildModelTree ops fileScale child
                (st.withPivot (List.take pos name) (List.drop (pos + 13) name)
                  (scaleTranslation ops fileScale (ConvertMatrix t))) with
              | none => rw [hc] at h; exact Option.noConfusion h
              | some res =>
                obtain ⟨c, st2⟩ := res
                rw [hc] at h
                simp only [Option.some.injEq, Prod.mk.injEq] at h
                rw [← h.2]
                exact buildModelTree_wf ops fileScale child _ c st2 hwf1 hc
          | [], h => exact Option.noConfusion h
          | _ :: _ :: _, h => exact Option.noConfusion h
    | none =>
      rw [hpos] at h
      simp only at h
      cases hc : buildChildren ops fileScale children (st.withBone name) with
      | none => rw [hc] at h; exact Option.noConfusion h
      | some res =>
        obtain ⟨cs, st2⟩ := res
        rw [hc] at h
        simp only [Option.some.injEq, Prod.mk.injEq] at h
        rw [← h.2]
        exact buildChildren_wf ops fileScale children (st.withBone name) cs st2 hwf hc

theorem buildChildren_wf {F : Type} (ops : FloatOps F) (fileScale : F) :
    ∀ (l : List (aiNode F)) (st : ImporterState F) (rs : List (ModelNode F))
      (st' : ImporterState F),
      PivotsWF st.m_nodeTransformations → buildChildren ops fileScale l st = some (rs, st') →
      PivotsWF st'.m_nodeTransformations
  | [], st, rs, st', hwf, h => by
    rw [buildChildren] at h
    simp only [Option.some.injEq, Prod.mk.injEq] at h
    rw [← h.2]; exact hwf
  | child :: rest, st, rs, st', hwf, h => by
    rw [buildChildren] at h
    cases hc : buildModelTree ops fileScale child st with
    | none => rw [hc] at h; exact Option.noConfusion h
    | some res =>
      obtain ⟨c, st1⟩ := res
      rw [hc] at h
      simp only at h
      cases hr : buildChildren ops fileScale rest st1 with
      | none => rw [hr] at h; exact Option.noConfusion h
      | some res2 =>
        obtain ⟨cs, st2⟩ := res2
        rw [hr] at h
        simp only [Option.some.injEq, Prod.mk.injEq] at h
        rw [← h.2]
        exact buildChildren_wf ops fileScale rest st1 cs st2
          (buildModelTree_wf ops fileScale child st c st1 hwf hc) hr

end

/-! ## Keys of the channel map -/

theorem parseChannel_nodup {F D : Type} (ops : FloatOps F) (toFloat : D → F) (fileScale : F)
    (c : Channels F) (an : aiNodeAnim F D) (h : (StdMap.keys c).Nodup) :
    (StdMap.keys (parseChannel ops toFloat fileScale c an)).Nodup := by
  unfold parseChannel
  exact StdMap.keys_nodup_assign c _ _ h

theorem parseChannels_nodup {F D : Type} (ops : FloatOps F) (toFloat : D → F) (fileScale : F)
    (l : List (aiNodeAnim F D)) (c : Channels F) (h : (StdMap.keys c).Nodup) :
    (StdMap.keys (l.foldl (parseChannel ops toFloat fileScale) c)).Nodup := by
  induction l generalizing c with
  | nil => exact h
  | cons an rest ih =>
    exact ih _ (parseChannel_nodup ops toFloat fileScale c an h)

theorem ParseAnimation_nodup {F D : Type} (ops : FloatOps F) (toFloat : D → F)
    (a : aiAnimation F D) (fileScale : F) (animation : Animation F)
    (h : ParseAnimation ops toFloat a fileScale = some animation) :
    (StdMap.keys animation.channels).Nodup := by
  unfold ParseAnimation at h
  simp only at h
  split at h
  · simp only [Option.some.injEq] at h
    rw [← h]
    exact parseChannels_nodup ops toFloat fileScale a.mChannels [] List.nodup_nil
  · exact Option.noConfusion h

theorem eraseConsumed_nodup {F : Type} (n : Str) (r : StdMap Str (Matrix4x4 F)) (c : Channels F)
    (h : (StdMap.keys c).Nodup) : (StdMap.keys (eraseConsumed n r c)).Nodup := by
  unfold eraseConsumed
  simp only
  have key : ∀ (b : Bool) (m : Channels F) (x : Str), (StdMap.keys m).Nodup →
      (StdMap.keys (if b = true then StdMap.erase m x else m)).Nodup := by
    intro b m x hm
    cases b
    · simpa using hm
    · simpa using StdMap.keys_nodup_erase m x hm
  exact key _ _ _ (key _ _ _ (key _ _ _ h))

theorem reconcileAll_nodup {F : Type} (ops : FloatOps F) (ps : PivotMap F) :
    ∀ c cf : Channels F, reconcileAll ops ps c = some cf → (StdMap.keys c).Nodup →
      (StdMap.keys cf).Nodup := by
  induction ps with
  | nil =>
    intro c cf h hn
    simp only [reconcileAll, Option.some.injEq] at h
    rw [← h]; exact hn
  | cons p rest ih =>
    obtain ⟨n, r⟩ := p
    intro c cf h hn
    rw [reconcileAll] at h
    cases hstep : reconcileNode ops n r c with
    | none => rw [hstep] at h; exact Option.noConfusion h
    | some res =>
      obtain ⟨node, c1⟩ := res
      rw [hstep] at h
      simp only at h
      obtain ⟨-, hc1⟩ := reconcileNode_spec ops n r c c1 node hstep
      apply ih c1 cf h
      rw [hc1]
      exact StdMap.keys_nodup_assign _ _ _ (eraseConsumed_nodup n r c hn)

/-- A channel whose name contains the marker is after the loop what it was
before it, unless a pending node consumed it. -/
theorem reconcileAll_marked_key {F : Type} (ops : FloatOps F) (ps : PivotMap F)
    (hwf : PivotsWF ps) (c cf : Channels F) (h : reconcileAll ops ps c = some cf)
    (k : Str) (hk : strFind marker k ≠ none) (hin : k ∈ StdMap.keys cf) :
    k ∈ StdMap.keys c ∧ ∀ n r, (n, r) ∈ ps → consumes n r k = false := by
  obtain ⟨-, h2, h3⟩ := reconcileAll_spec ops ps hwf c cf h
  have hsome : StdMap.find cf k ≠ none := fun e => (StdMap.find_eq_none_iff cf k).1 e hin
  have hnot : ∀ n r, (n, r) ∈ ps → consumes n r k = false := by
    intro n r hm
    cases hc : consumes n r k with
    | false => rfl
    | true => exact absurd (h2 n r k hm hc) hsome
  refine ⟨?_, hnot⟩
  have e := h3 k (fun n r hm => ⟨fun e => hk (e ▸ PivotsWF_mem hwf hm), hnot n r hm⟩)
  rw [e] at hsome
  by_contra hc
  exact hsome ((StdMap.find_eq_none_iff c k).2 hc)

theorem StdMap.count_eq_one {K V : Type} [DecidableEq K] (m : StdMap K V) (k : K)
    (hn : (StdMap.keys m).Nodup) (hk : k ∈ StdMap.keys m) : StdMap.count m k = 1 := by
  induction m with
  | nil => simp [StdMap.keys] at hk
  | cons e t ih =>
    obtain ⟨k0, v⟩ := e
    simp only [StdMap.keys, List.map_cons, List.nodup_cons, List.mem_cons] at hn hk
    by_cases h0 : k0 = k
    · subst h0
      have hz : List.countP (fun e : K × V => decide (e.1 = k0)) t = 0 := by
        rw [List.countP_eq_zero]
        intro e he
        simp only [decide_eq_true_eq]
        intro hek
        exact hn.1 (hek ▸ List.mem_map_of_mem Prod.fst he)
      simp [StdMap.count, List.countP_cons, hz]
    · have hk2 : k ∈ StdMap.keys t := by
        rcases hk with hk | hk
        · exact absurd hk.symm h0
        · exact hk
      have := ih hn.2 hk2
      simp only [StdMap.count] at this
      simp [StdMap.count, List.countP_cons, h0, this]

/-! ## When the loop completes -/

/-- The loop completes exactly when, for every pending node, the three blocks
pass their checks on the channel map the loop starts from. -/
theorem reconcileAll_isSome_iff {F : Type} (ops : FloatOps F) (ps : PivotMap F)
    (hwf : PivotsWF ps) (c : Channels F) :
    (reconcileAll ops ps c).isSome = true ↔
      ∀ n r, (n, r) ∈ ps → (reconciledNode ops n r c).isSome = true := by
  constructor
  · intro h n r hm
    obtain ⟨cf, hcf⟩ := Option.isSome_iff_exists.1 h
    obtain ⟨h1, -, -⟩ := reconcileAll_spec ops ps hwf c cf hcf
    obtain ⟨node, hnode, -⟩ := h1 n r hm
    rw [hnode]; rfl
  · induction ps generalizing c with
    | nil => intro _; rfl
    | cons p rest ih =>
      obtain ⟨n0, r0⟩ := p
      obtain ⟨hn0, hnot, hwf'⟩ := PivotsWF_cons n0 r0 rest hwf
      intro h
      obtain ⟨node0, hnode0⟩ := Option.isSome_iff_exists.1 (h n0 r0 (List.mem_cons_self _ _))
      have hstep : reconcileNode ops n0 r0 c
          = some (node0, StdMap.assign (eraseConsumed n0 r0 c) n0 node0) := by
        rw [reconcileNode_eq, hnode0]; rfl
      rw [reconcileAll, hstep]
      apply ih hwf'
      intro n r hm
      have hn := PivotsWF_mem hwf' hm
      have hne : n ≠ n0 := by
        intro e; subst e
        exact hnot (List.mem_map_of_mem Prod.fst hm)
      have hfind := reconcileNode_find ops n0 r0 c _ node0 hstep
      have hagree : ∀ rest' : Str,
          StdMap.find (StdMap.assign (eraseConsumed n0 r0 c) n0 node0) (n ++ (marker ++ rest'))
            = StdMap.find c (n ++ (marker ++ rest')) := by
        intro rest'
        rw [hfind, if_neg (fun e => markerfree_ne_synthetic n0 n rest' hn0 hn e.symm),
          consumes_false_of_ne n0 n r0 rest' hn0 hn hne.symm]
        simp
      rw [reconciledNode_congr ops n r _ c (hagree _) (hagree _) (hagree _)]
      exact h n r (List.mem_cons_of_mem _ hm)

/-- The run of `RemoveDummyNodeFBX` completes exactly when, for every pending
node, the three blocks pass their checks on the animation's channel map. -/
theorem RemoveDummyNodeFBX_isSome_iff {F : Type} (ops : FloatOps F) (pivots : PivotMap F)
    (hwf : PivotsWF pivots) (animation : Animation F) :
    (RemoveDummyNodeFBX ops pivots animation).isSome = true ↔
      ∀ n r, (n, r) ∈ pivots → (reconciledNode ops n r animation.channels).isSome = true := by
  rw [← reconcileAll_isSome_iff ops pivots hwf]
  unfold RemoveDummyNodeFBX
  cases reconcileAll ops pivots animation.channels <;> simp

/-! ## Claims about `buildModelTree` -/

/-- C1, counterexample.  The pivot chain of `chainWithHomonym` ends in a node
`X` that has a child named `X` as well; the tree that `buildModelTree`
returns for it contains two nodes named `X`, not one. -/
theorem buildModelTree_chain_homonym_counterexample :
    (buildModelTree intOps 1 chainWithHomonym (emptyState Int)).map
      (fun r => r.1.countName ['X']) = some 2 := by
  decide

/-- C1, as amended.  For an importer chain `X_$AssimpFbx$_PreRotation` →
`X_$AssimpFbx$_Rotation` → `X_$AssimpFbx$_PostRotation` → `X` in which each
synthetic node has exactly one child, and on whose last node's children
`buildModelTree` succeeds with the trees `cs`, `buildModelTree` succeeds and
returns one node for the four importer nodes: it is named `X`, its children
are `cs`, and its transform is `Pre * (Rot * (Post * transform(X)))`, each
factor being the importer node's matrix with the translation column
multiplied by `fileScale`.  The number of nodes named `X` in the returned
tree is one more than the number of such nodes in `cs`, hence exactly one
when no node built below `X` is named `X`. -/
theorem buildModelTree_collapses_pivot_chain {F : Type} (ops : FloatOps F) (fileScale : F)
    (X : Str) (tPre tRot tPost tX : aiMatrix4x4 F) (msPre msRot msPost ms : List Nat)
    (children : List (aiNode F)) (st : ImporterState F)
    (cs : List (ModelNode F)) (st' : ImporterState F)
    (hX : strFind marker X = none)
    (hchildren : buildChildren ops fileScale children
      ((((st.withPivot X rolePreRotation (scaleTranslation ops fileScale (ConvertMatrix tPre))).withPivot
        X roleRotation (scaleTranslation ops fileScale (ConvertMatrix tRot))).withPivot
        X rolePostRotation (scaleTranslation ops fileScale (ConvertMatrix tPost))).withBone X)
      = some (cs, st')) :
    ∃ root, buildModelTree ops fileScale
        (.mk (X ++ suffixPreRotation) tPre msPre
          [.mk (X ++ suffixRotation) tRot msRot
            [.mk (X ++ suffixPostRotation) tPost msPost [.mk X tX ms children]]]) st
        = some (root, st') ∧
      root.name = X ∧
      root.transform =
        ops.matMul (scaleTranslation ops fileScale (ConvertMatrix tPre))
          (ops.matMul (scaleTranslation ops fileScale (ConvertMatrix tRot))
            (ops.matMul (scaleTranslation ops fileScale (ConvertMatrix tPost))
              (scaleTranslation ops fileScale (ConvertMatrix tX)))) ∧
      root.children = cs ∧
      root.countName X = 1 + countNameList X cs ∧
      (countNameList X cs = 0 → root.countName X = 1) := by
  refine ⟨_, buildModelTree_chain_eq ops fileScale X tPre tRot tPost tX msPre msRot msPost ms
    children st cs st' hX hchildren, rfl, rfl, rfl, ?_, ?_⟩
  · simp [ModelNode.countName]
  · intro h0
    simp [ModelNode.countName, h0]

/-- C1, witness: the chain for `X` with translations as local matrices, file
scale 2 and no children below `X`. -/
theorem buildModelTree_collapses_pivot_chain_witness :
    strFind marker ['X'] = none ∧
    buildChildren intOps 2 [] chainState = some ([], chainState) ∧
    ∃ root, buildModelTree intOps 2
        (.mk (['X'] ++ suffixPreRotation) (aiTranslation 1 0 0) []
          [.mk (['X'] ++ suffixRotation) (aiTranslation 0 1 0) []
            [.mk (['X'] ++ suffixPostRotation) (aiTranslation 0 0 1) []
              [.mk ['X'] (aiTranslation 1 1 1) [7] []]]]) (emptyState Int)
        = some (root, chainState) ∧
      root.name = ['X'] ∧
      root.transform =
        intOps.matMul (scaleTranslation intOps 2 (ConvertMatrix (aiTranslation 1 0 0)))
          (intOps.matMul (scaleTranslation intOps 2 (ConvertMatrix (aiTranslation 0 1 0)))
            (intOps.matMul (scaleTranslation intOps 2 (ConvertMatrix (aiTranslation 0 0 1)))
              (scaleTranslation intOps 2 (ConvertMatrix (aiTranslation 1 1 1))))) ∧
      root.children = [] ∧
      root.countName ['X'] = 1 + countNameList ['X'] ([] : List (ModelNode Int)) ∧
      (countNameList ['X'] ([] : List (ModelNode Int)) = 0 → root.countName ['X'] = 1) :=
  ⟨by decide, rfl,
    buildModelTree_collapses_pivot_chain intOps 2 ['X'] (aiTranslation 1 0 0)
      (aiTranslation 0 1 0) (aiTranslation 0 0 1) (aiTranslation 1 1 1) [] [] [] [7] []
      (emptyState Int) [] chainState (by decide) rfl⟩

/-! ## The two rotations around the `Rotation` component -/

/-- The value of `preRotation` is the recorded `PreRotation` matrix, and a
default-constructed matrix when none is recorded. -/
theorem preRotationOf_eq {F : Type} (ops : FloatOps F) (roles : StdMap Str (Matrix4x4 F)) :
    preRotationOf ops roles = (StdMap.find roles rolePreRotation).getD ops.matDefault := by
  unfold preRotationOf
  cases StdMap.find roles rolePreRotation <;> rfl

/-- The value of `postRotation` is the recorded `PostRotation` matrix, and a
default-constructed matrix when none is recorded. -/
theorem postRotationOf_eq {F : Type} (ops : FloatOps F) (roles : StdMap Str (Matrix4x4 F)) :
    postRotationOf ops roles = (StdMap.find roles rolePostRotation).getD ops.matDefault := by
  unfold postRotationOf
  cases StdMap.find roles rolePostRotation <;> rfl

/-! ## Claims about `RemoveDummyNodeFBX` -/

/-- C2.  After a run of `RemoveDummyNodeFBX` that completes, for every node
`name` of the pending pivot map the channel stored under `name` has as its
position keys (a) the single key `(0, zero)` when no `Translation` transform
is recorded; (b) the single key `(0, (m[0][3], m[1][3], m[2][3]))` of the
recorded matrix `m` when the animation has no channel
`name_$AssimpFbx$_Translation`; (c) the position keys of that channel when it
exists, and the channel is then absent from the result.  Here the pending pivot map is
well formed (`PivotsWF`: distinct true names as keys, which `buildModelTree`
maintains) and the run completes, no assertion failing. -/
theorem RemoveDummyNodeFBX_position_track {F : Type} (ops : FloatOps F) (pivots : PivotMap F)
    (animation result : Animation F) (hwf : PivotsWF pivots)
    (hrun : RemoveDummyNodeFBX ops pivots animation = some result)
    (name : Str) (roles : StdMap Str (Matrix4x4 F)) (hmem : (name, roles) ∈ pivots) :
    ∃ node, StdMap.find result.channels name = some node ∧
      (StdMap.find roles roleTranslation = none →
        node.positionKeys = [⟨ops.zero, ops.vecZero⟩]) ∧
      (∀ m, StdMap.find roles roleTranslation = some m →
        StdMap.find animation.channels (name ++ suffixTranslation) = none →
        node.positionKeys = [⟨ops.zero, ⟨m.m03, m.m13, m.m23⟩⟩]) ∧
      (∀ m ch, StdMap.find roles roleTranslation = some m →
        StdMap.find animation.channels (name ++ suffixTranslation) = some ch →
        node.positionKeys = ch.positionKeys ∧
          StdMap.find result.channels (name ++ suffixTranslation) = none) := by
  obtain ⟨⟨pk, c1, rk, c2, sk, c3, hp, -, -, hfind⟩, hcons⟩ :=
    RemoveDummyNodeFBX_node ops pivots animation result hwf hrun name roles hmem
  refine ⟨_, hfind, ?_, ?_, ?_⟩
  · intro hr
    rw [reconcilePosition_none ops name roles _ hr] at hp
    simp only [Option.some.injEq, Prod.mk.injEq] at hp
    exact hp.1.symm
  · intro m hr hc
    rw [reconcilePosition_static ops name roles _ m hr hc] at hp
    simp only [Option.some.injEq, Prod.mk.injEq] at hp
    exact hp.1.symm
  · intro m ch hr hc
    rw [reconcilePosition_animated ops name roles _ m ch hr hc] at hp
    refine ⟨?_, hcons _ (consumes_translation name roles m hr)⟩
    split at hp
    · simp only [Option.some.injEq, Prod.mk.injEq] at hp
      exact hp.1.symm
    · exact Option.noConfusion hp

/-- C2, witness: the node `A` of `samplePivots`, whose `Translation` sub-node
is animated in `sampleAnimation`. -/
theorem RemoveDummyNodeFBX_position_track_witness :
    PivotsWF samplePivots ∧
    RemoveDummyNodeFBX intOps samplePivots sampleAnimation = some sampleResult ∧
    ∃ node, StdMap.find sampleResult.channels ['A'] = some node ∧
      (StdMap.find [(roleRotation, intIdentity), (roleTranslation, sampleTranslation)]
          roleTranslation = none →
        node.positionKeys = [⟨intOps.zero, intOps.vecZero⟩]) ∧
      (∀ m, StdMap.find [(roleRotation, intIdentity), (roleTranslation, sampleTranslation)]
          roleTranslation = some m →
        StdMap.find sampleAnimation.channels (['A'] ++ suffixTranslation) = none →
        node.positionKeys = [⟨intOps.zero, ⟨m.m03, m.m13, m.m23⟩⟩]) ∧
      (∀ m ch, StdMap.find [(roleRotation, intIdentity), (roleTranslation, sampleTranslation)]
          roleTranslation = some m →
        StdMap.find sampleAnimation.channels (['A'] ++ suffixTranslation) = some ch →
        node.positionKeys = ch.positionKeys ∧
          StdMap.find sampleResult.channels (['A'] ++ suffixTranslation) = none) :=
  ⟨by decide, by decide,
    RemoveDummyNodeFBX_position_track intOps samplePivots sampleAnimation sampleResult
      (by decide) (by decide) ['A'] _ (by decide)⟩

/-- C3.  When a `Rotation` transform is recorded for `name` and the animation
has the channel `name_$AssimpFbx$_Rotation` with rotation keys `k_1 .. k_N`,
the rotation track stored under `name` has `N` keys, the `i`-th with the time
of `k_i` and the rotation part of
`Decompose(PreRotation * FromRotation(k_i.value) * PostRotation)` as its
value, where `PreRotation` is the matrix recorded for `name` under the role
`PreRotation`, or a default-constructed matrix when none is recorded, and
likewise `PostRotation`; the synthetic channel is absent from the result.
Here the pending pivot map is well formed (`PivotsWF`: distinct true names as
keys, which `buildModelTree` maintains) and the run completes, no assertion
failing. -/
theorem RemoveDummyNodeFBX_animated_rotation {F : Type} (ops : FloatOps F)
    (pivots : PivotMap F) (animation result : Animation F) (hwf : PivotsWF pivots)
    (hrun : RemoveDummyNodeFBX ops pivots animation = some result)
    (name : Str) (roles : StdMap Str (Matrix4x4 F)) (hmem : (name, roles) ∈ pivots)
    (m : Matrix4x4 F) (ch : AnimationNode F)
    (hrec : StdMap.find roles roleRotation = some m)
    (hch : StdMap.find animation.channels (name ++ suffixRotation) = some ch) :
    ∃ node, StdMap.find result.channels name = some node ∧
      node.rotationKeys.length = ch.rotationKeys.length ∧
      node.rotationKeys = ch.rotationKeys.map (fun k =>
        ⟨k.time, (ops.decompose (ops.matMul
          (ops.matMul ((StdMap.find roles rolePreRotation).getD ops.matDefault)
            (ops.fromRotation k.value))
          ((StdMap.find roles rolePostRotation).getD ops.matDefault))).2.1⟩) ∧
      StdMap.find result.channels (name ++ suffixRotation) = none := by
  obtain ⟨⟨pk, c1, rk, c2, sk, c3, -, hq, -, hfind⟩, hcons⟩ :=
    RemoveDummyNodeFBX_node ops pivots animation result hwf hrun name roles hmem
  rw [reconcileRotation_animated ops name roles _ m ch hrec hch] at hq
  have hrk : rk = ch.rotationKeys.map (animatedRotationKey ops (preRotationOf ops roles)
      (postRotationOf ops roles)) := by
    split at hq
    · simp only [Option.some.injEq, Prod.mk.injEq] at hq
      exact hq.1.symm
    · exact Option.noConfusion hq
  rw [preRotationOf_eq, postRotationOf_eq] at hrk
  refine ⟨_, hfind, ?_, ?_, hcons _ (consumes_rotation name roles m hrec)⟩
  · simp [hrk]
  · rw [hrk]; rfl

/-- C3, witness: the node `P` of `rolePivots`, which records the matrices
`samplePre` and `samplePost`, neither of which is the identity, and whose
`Rotation` sub-node has two keys in `roleAnimation`; the two keys of the
result are computed with the exact matrix product. -/
theorem RemoveDummyNodeFBX_animated_rotation_witness :
    PivotsWF rolePivots ∧
    RemoveDummyNodeFBX intOps rolePivots roleAnimation = some roleResult ∧
    ∃ node, StdMap.find roleResult.channels ['P'] = some node ∧
      node.rotationKeys = [⟨0, ⟨7, -10, 2, 1⟩⟩, ⟨5, ⟨-3, 10, -2, 1⟩⟩] ∧
      node.rotationKeys.length = pivotRotationChannel.rotationKeys.length ∧
      node.rotationKeys = pivotRotationChannel.rotationKeys.map (fun k =>
        ⟨k.time, (intOps.decompose (intOps.matMul
          (intOps.matMul samplePre (intOps.fromRotation k.value)) samplePost)).2.1⟩) ∧
      StdMap.find roleResult.channels (['P'] ++ suffixRotation) = none := by
  refine ⟨by decide, by decide, ?_⟩
  obtain ⟨node, h1, h2, h3, h4⟩ :=
    RemoveDummyNodeFBX_animated_rotation intOps rolePivots roleAnimation roleResult
      (by decide) (by decide) ['P']
      [(rolePostRotation, samplePost), (rolePreRotation, samplePre), (roleRotation, sampleMid)]
      (by decide) sampleMid pivotRotationChannel (by decide) (by decide)
  exact ⟨node, h1, h3, h2, h3, h4⟩

/-- C4.  For a node `name` of the pending pivot map, the rotation track
stored under `name` is the single key at time 0 whose value is the rotation
part of `Decompose(PreRotation * PostRotation)` when no `Rotation` transform
is recorded, and of `Decompose(PreRotation * m * PostRotation)` when the
`Rotation` transform `m` is recorded and the animation has no channel
`name_$AssimpFbx$_Rotation`, where `PreRotation` is the matrix recorded for
`name` under the role `PreRotation`, or a default-constructed matrix when none
is recorded, and likewise `PostRotation`.  Here the pending pivot map is well
formed (`PivotsWF`: distinct true names as keys, which `buildModelTree`
maintains) and the run completes, no assertion failing. -/
theorem RemoveDummyNodeFBX_static_rotation {F : Type} (ops : FloatOps F)
    (pivots : PivotMap F) (animation result : Animation F) (hwf : PivotsWF pivots)
    (hrun : RemoveDummyNodeFBX ops pivots animation = some result)
    (name : Str) (roles : StdMap Str (Matrix4x4 F)) (hmem : (name, roles) ∈ pivots) :
    ∃ node, StdMap.find result.channels name = some node ∧
      (StdMap.find roles roleRotation = none →
        node.rotationKeys = [⟨ops.zero, (ops.decompose
          (ops.matMul ((StdMap.find roles rolePreRotation).getD ops.matDefault)
            ((StdMap.find roles rolePostRotation).getD ops.matDefault))).2.1⟩]) ∧
      (∀ m, StdMap.find roles roleRotation = some m →
        StdMap.find animation.channels (name ++ suffixRotation) = none →
        node.rotationKeys = [⟨ops.zero, (ops.decompose (ops.matMul
          (ops.matMul ((StdMap.find roles rolePreRotation).getD ops.matDefault) m)
          ((StdMap.find roles rolePostRotation).getD ops.matDefault))).2.1⟩]) := by
  obtain ⟨⟨pk, c1, rk, c2, sk, c3, -, hq, -, hfind⟩, -⟩ :=
    RemoveDummyNodeFBX_node ops pivots animation result hwf hrun name roles hmem
  refine ⟨_, hfind, ?_, ?_⟩
  · intro hr
    rw [reconcileRotation_none ops name roles _ hr] at hq
    obtain ⟨q, hq1, hq2⟩ := Option.map_eq_some'.1 hq
    simp only [Prod.mk.injEq] at hq2
    rw [← hq2.1, staticRotation_eq ops _ q hq1, preRotationOf_eq, postRotationOf_eq]
  · intro m hr hc
    rw [reconcileRotation_static ops name roles _ m hr hc] at hq
    obtain ⟨q, hq1, hq2⟩ := Option.map_eq_some'.1 hq
    simp only [Prod.mk.injEq] at hq2
    rw [← hq2.1, staticRotation_eq ops _ q hq1, preRotationOf_eq, postRotationOf_eq]

/-- C4, witness: three nodes of `rolePivots`.  `Q` records `samplePre` and
`samplePost` and no `Rotation`: its key is the rotation part of
`samplePre * samplePost`.  `R` records the `Rotation` matrix `sampleMid` as
well and is not animated: its key is the rotation part of
`samplePre * sampleMid * samplePost`.  `S` records none of the three: its key
is the rotation part of the product of two default-constructed matrices. -/
theorem RemoveDummyNodeFBX_static_rotation_witness :
    PivotsWF rolePivots ∧
    RemoveDummyNodeFBX intOps rolePivots roleAnimation = some roleResult ∧
    intMatMul samplePre samplePost = ⟨1, 2, 6, 0, 0, 1, 3, 0, 0, 0, 1, 0, 0, 0, 0, 1⟩ ∧
    intMatMul (intMatMul samplePre sampleMid) samplePost
      = ⟨1, 2, 11, 0, 0, 1, 3, 0, 0, 0, 1, 0, 0, 0, 0, 1⟩ ∧
    (∃ node, StdMap.find roleResult.channels ['Q'] = some node ∧
      node.rotationKeys = [⟨0, ⟨-3, 6, -2, 1⟩⟩] ∧
      node.rotationKeys = [⟨0, (intOps.decompose (intMatMul samplePre samplePost)).2.1⟩]) ∧
    (∃ node, StdMap.find roleResult.channels ['R'] = some node ∧
      node.rotationKeys = [⟨0, ⟨-3, 11, -2, 1⟩⟩] ∧
      node.rotationKeys
        = [⟨0, (intOps.decompose (intMatMul (intMatMul samplePre sampleMid) samplePost)).2.1⟩]) ∧
    (∃ node, StdMap.find roleResult.channels ['S'] = some node ∧
      node.rotationKeys = [⟨0, ⟨0, 0, 0, 1⟩⟩] ∧
      node.rotationKeys
        = [⟨0, (intOps.decompose (intMatMul intOps.matDefault intOps.matDefault)).2.1⟩]) := by
  refine ⟨by decide, by decide, by decide, by decide, ?_, ?_, ?_⟩
  · obtain ⟨node, h1, h2, -⟩ :=
      RemoveDummyNodeFBX_static_rotation intOps rolePivots roleAnimation roleResult
        (by decide) (by decide) ['Q']
        [(rolePostRotation, samplePost), (rolePreRotation, samplePre)] (by decide)
    exact ⟨node, h1, h2 (by decide), h2 (by decide)⟩
  · obtain ⟨node, h1, -, h3⟩ :=
      RemoveDummyNodeFBX_static_rotation intOps rolePivots roleAnimation roleResult
        (by decide) (by decide) ['R']
        [(rolePostRotation, samplePost), (rolePreRotation, samplePre),
          (roleRotation, sampleMid)] (by decide)
    exact ⟨node, h1, h3 sampleMid (by decide) (by decide),
      h3 sampleMid (by decide) (by decide)⟩
  · obtain ⟨node, h1, h2, -⟩ :=
      RemoveDummyNodeFBX_static_rotation intOps rolePivots roleAnimation roleResult
        (by decide) (by decide) ['S'] [(roleScaling, sampleScaling)] (by decide)
    exact ⟨node, h1, h2 (by decide), h2 (by decide)⟩

/-- C5.  The scaling track stored under a pending node `name` is the single
key `(0, one)` when no `Scaling` transform is recorded; the single key
`(0, scale part of Decompose(m))` for the recorded matrix `m` when the
animation has no channel `name_$AssimpFbx$_Scaling`; and the scaling keys of
that channel when it exists, the channel then being absent from the
result.  Here the pending pivot map is
well formed (`PivotsWF`: distinct true names as keys, which `buildModelTree`
maintains) and the run completes, no assertion failing. -/
theorem RemoveDummyNodeFBX_scale_track {F : Type} (ops : FloatOps F) (pivots : PivotMap F)
    (animation result : Animation F) (hwf : PivotsWF pivots)
    (hrun : RemoveDummyNodeFBX ops pivots animation = some result)
    (name : Str) (roles : StdMap Str (Matrix4x4 F)) (hmem : (name, roles) ∈ pivots) :
    ∃ node, StdMap.find result.channels name = some node ∧
      (StdMap.find roles roleScaling = none → node.scalingKeys = [⟨ops.zero, ops.vecOne⟩]) ∧
      (∀ m, StdMap.find roles roleScaling = some m →
        StdMap.find animation.channels (name ++ suffixScaling) = none →
        node.scalingKeys = [⟨ops.zero, (ops.decompose m).2.2⟩]) ∧
      (∀ m ch, StdMap.find roles roleScaling = some m →
        StdMap.find animation.channels (name ++ suffixScaling) = some ch →
        node.scalingKeys = ch.scalingKeys ∧
          StdMap.find result.channels (name ++ suffixScaling) = none) := by
  obtain ⟨⟨pk, c1, rk, c2, sk, c3, -, -, hs, hfind⟩, hcons⟩ :=
    RemoveDummyNodeFBX_node ops pivots animation result hwf hrun name roles hmem
  refine ⟨_, hfind, ?_, ?_, ?_⟩
  · intro hr
    rw [reconcileScale_none ops name roles _ hr] at hs
    simp only [Option.some.injEq, Prod.mk.injEq] at hs
    exact hs.1.symm
  · intro m hr hc
    rw [reconcileScale_static ops name roles _ m hr hc] at hs
    split at hs
    · simp only [Option.some.injEq, Prod.mk.injEq] at hs
      exact hs.1.symm
    · exact Option.noConfusion hs
  · intro m ch hr hc
    rw [reconcileScale_animated ops name roles _ m ch hr hc] at hs
    refine ⟨?_, hcons _ (consumes_scaling name roles m hr)⟩
    split at hs
    · simp only [Option.some.injEq, Prod.mk.injEq] at hs
      exact hs.1.symm
    · exact Option.noConfusion hs

/-- C5, witness: three nodes of `rolePivots`.  `P` records no `Scaling`: its
scaling track is the single key `(0, (1, 1, 1))`.  `S` records the matrix
`sampleScaling` and has no channel for it: its track is the single key
`(0, (2, 3, 4))`, the scale part of the matrix.  `T` records `sampleScaling`
and has the channel `T_$AssimpFbx$_Scaling` with two scaling keys: its track
is these two keys, and the channel is absent from the result. -/
theorem RemoveDummyNodeFBX_scale_track_witness :
    PivotsWF rolePivots ∧
    RemoveDummyNodeFBX intOps rolePivots roleAnimation = some roleResult ∧
    (intOps.decompose sampleScaling).2.2 = ⟨2, 3, 4⟩ ∧
    StdMap.find roleAnimation.channels (['T'] ++ suffixScaling)
      = some pivotScalingChannel ∧
    (∃ node, StdMap.find roleResult.channels ['P'] = some node ∧
      node.scalingKeys = [⟨0, ⟨1, 1, 1⟩⟩]) ∧
    (∃ node, StdMap.find roleResult.channels ['S'] = some node ∧
      node.scalingKeys = [⟨0, ⟨2, 3, 4⟩⟩]) ∧
    (∃ node, StdMap.find roleResult.channels ['T'] = some node ∧
      node.scalingKeys = [⟨0, ⟨1, 1, 1⟩⟩, ⟨5, ⟨2, 2, 2⟩⟩] ∧
      StdMap.find roleResult.channels (['T'] ++ suffixScaling) = none) := by
  refine ⟨by decide, by decide, by decide, by decide, ?_, ?_, ?_⟩
  · obtain ⟨node, h1, h2, -, -⟩ :=
      RemoveDummyNodeFBX_scale_track intOps rolePivots roleAnimation roleResult
        (by decide) (by decide) ['P']
        [(rolePostRotation, samplePost), (rolePreRotation, samplePre),
          (roleRotation, sampleMid)] (by decide)
    exact ⟨node, h1, h2 (by decide)⟩
  · obtain ⟨node, h1, -, h3, -⟩ :=
      RemoveDummyNodeFBX_scale_track intOps rolePivots roleAnimation roleResult
        (by decide) (by decide) ['S'] [(roleScaling, sampleScaling)] (by decide)
    exact ⟨node, h1, h3 sampleScaling (by decide) (by decide)⟩
  · obtain ⟨node, h1, -, -, h4⟩ :=
      RemoveDummyNodeFBX_scale_track intOps rolePivots roleAnimation roleResult
        (by decide) (by decide) ['T'] [(roleScaling, sampleScaling)] (by decide)
    exact ⟨node, h1, h4 sampleScaling pivotScalingChannel (by decide) (by decide)⟩

/-- C6, counterexample.  On `sampleAnimation` the first run adopts the two
position keys of the animated `Translation` channel of `A` and erases the
channel; the result has no synthetic channel left, the second run succeeds
as well, and yet it returns a different channel map (the position track of
`A` is now the single static key). -/
theorem RemoveDummyNodeFBX_second_run_counterexample :
    (RemoveDummyNodeFBX intOps samplePivots sampleAnimation).bind (fun r1 =>
      (RemoveDummyNodeFBX intOps samplePivots r1).map (fun r2 =>
        (decide (r2.channels = r1.channels),
          (StdMap.keys r1.channels).all (fun k => (strFind marker k).isNone))))
      = some (false, true) := by
  decide

/-- C6, as amended.  When the animation has no synthetic channel that the run
consumes (no channel `name_$AssimpFbx$_Translation`, `_Rotation` or `_Scaling`
for a pending node `name` with that role recorded), a run of
`RemoveDummyNodeFBX` that completes returns an animation on which a second
run completes and returns it unchanged. -/
theorem RemoveDummyNodeFBX_idempotent_without_consumed_channels {F : Type} (ops : FloatOps F)
    (pivots : PivotMap F) (animation result : Animation F) (hwf : PivotsWF pivots)
    (hstatic : NoConsumableChannel pivots animation.channels)
    (hrun : RemoveDummyNodeFBX ops pivots animation = some result) :
    RemoveDummyNodeFBX ops pivots result = some result := by
  obtain ⟨hall, -⟩ := RemoveDummyNodeFBX_channels ops pivots animation result hrun
  have := reconcileAll_idempotent ops pivots hwf _ _ hall hstatic
  unfold RemoveDummyNodeFBX
  rw [this]

/-- C6, witness: `staticAnimation` has no synthetic channel. -/
theorem RemoveDummyNodeFBX_idempotent_without_consumed_channels_witness :
    PivotsWF samplePivots ∧ NoConsumableChannel samplePivots staticAnimation.channels ∧
    RemoveDummyNodeFBX intOps samplePivots staticAnimation = some staticResult ∧
    RemoveDummyNodeFBX intOps samplePivots staticResult = some staticResult :=
  ⟨by decide, by decide, by decide,
    RemoveDummyNodeFBX_idempotent_without_consumed_channels intOps samplePivots staticAnimation
      staticResult (by decide) (by decide) (by decide)⟩

/-- C7, counterexample.  The tree `preRotationTree` has the synthetic node
`X_$AssimpFbx$_PreRotation` and the animation `preRotationSource` has a
channel for it.  After `buildModelTree`, `ParseAnimation` and
`RemoveDummyNodeFBX` the channel map has two keys, `X` and
`X_$AssimpFbx$_PreRotation`; the second contains the marker. -/
theorem RemoveDummyNodeFBX_synthetic_channel_counterexample :
    ((buildModelTree intOps 1 preRotationTree (emptyState Int)).bind (fun b =>
      (ParseAnimation intOps id preRotationSource 1).bind (fun a =>
        RemoveDummyNodeFBX intOps b.2.m_nodeTransformations a))).map
      (fun r => (StdMap.keys r.channels).map (fun k => (k, (strFind marker k).isSome)))
      = some [(['X'], false), (['X'] ++ suffixPreRotation, true)] := by
  decide

/-- C7, as amended.  Let the pending pivot map be the one that
`buildModelTree` leaves (from a state whose pivot map is well formed, such as
the empty one) and the animation one that `ParseAnimation` returns.  After a
run of `RemoveDummyNodeFBX` that completes, every node name of the pivot map
is a true name (it does not contain the marker) and has exactly one channel,
and no channel key is `name_$AssimpFbx$_Translation`, `_Rotation` or
`_Scaling` for a pending node `name` with that role recorded.  A channel key
that contains the marker is one that the animation had before the run. -/
theorem RemoveDummyNodeFBX_channel_keys {F D : Type} (ops : FloatOps F) (toFloat : D → F)
    (fileScale : F) (tree : aiNode F) (st st' : ImporterState F) (root : ModelNode F)
    (source : aiAnimation F D) (animation result : Animation F)
    (hst : PivotsWF st.m_nodeTransformations)
    (hbuild : buildModelTree ops fileScale tree st = some (root, st'))
    (hparse : ParseAnimation ops toFloat source fileScale = some animation)
    (hrun : RemoveDummyNodeFBX ops st'.m_nodeTransformations animation = some result) :
    (∀ name roles, (name, roles) ∈ st'.m_nodeTransformations →
      strFind marker name = none ∧
      StdMap.count result.channels name = 1 ∧
      (StdMap.find roles roleTranslation ≠ none →
        name ++ suffixTranslation ∉ StdMap.keys result.channels) ∧
      (StdMap.find roles roleRotation ≠ none →
        name ++ suffixRotation ∉ StdMap.keys result.channels) ∧
      (StdMap.find roles roleScaling ≠ none →
        name ++ suffixScaling ∉ StdMap.keys result.channels)) ∧
    (∀ k ∈ StdMap.keys result.channels, strFind marker k ≠ none →
      k ∈ StdMap.keys animation.channels) := by
  have hwf := buildModelTree_wf ops fileScale tree st root st' hst hbuild
  obtain ⟨hall, -⟩ := RemoveDummyNodeFBX_channels ops _ animation result hrun
  have hnd := reconcileAll_nodup ops _ _ _ hall (ParseAnimation_nodup ops toFloat source fileScale
    animation hparse)
  obtain ⟨h1, h2, -⟩ := reconcileAll_spec ops _ hwf _ _ hall
  refine ⟨?_, fun k hk hm => (reconcileAll_marked_key ops _ hwf _ _ hall k hm hk).1⟩
  intro name roles hmem
  obtain ⟨node, -, hfind⟩ := h1 name roles hmem
  obtain ⟨cT, cR, cS⟩ := consumes_iff name roles
  refine ⟨PivotsWF_mem hwf hmem, StdMap.count_eq_one _ _ hnd (StdMap.mem_keys_of_find hfind),
    ?_, ?_, ?_⟩
  · intro hr
    exact (StdMap.find_eq_none_iff _ _).1 (h2 name roles _ hmem (cT.2 hr))
  · intro hr
    exact (StdMap.find_eq_none_iff _ _).1 (h2 name roles _ hmem (cR.2 hr))
  · intro hr
    exact (StdMap.find_eq_none_iff _ _).1 (h2 name roles _ hmem (cS.2 hr))

/-- C7, witness: `sampleTree` and `sampleSource` with file scale 2. -/
theorem RemoveDummyNodeFBX_channel_keys_witness :
    PivotsWF (emptyState Int).m_nodeTransformations ∧
    buildModelTree intOps 2 sampleTree (emptyState Int) = some (sampleRoot, sampleState) ∧
    ParseAnimation intOps id sampleSource 2 = some sampleParsed ∧
    RemoveDummyNodeFBX intOps sampleState.m_nodeTransformations sampleParsed
      = some sampleFinal ∧
    (∀ name roles, (name, roles) ∈ sampleState.m_nodeTransformations →
      strFind marker name = none ∧
      StdMap.count sampleFinal.channels name = 1 ∧
      (StdMap.find roles roleTranslation ≠ none →
        name ++ suffixTranslation ∉ StdMap.keys sampleFinal.channels) ∧
      (StdMap.find roles roleRotation ≠ none →
        name ++ suffixRotation ∉ StdMap.keys sampleFinal.channels) ∧
      (StdMap.find roles roleScaling ≠ none →
        name ++ suffixScaling ∉ StdMap.keys sampleFinal.channels)) ∧
    (∀ k ∈ StdMap.keys sampleFinal.channels, strFind marker k ≠ none →
      k ∈ StdMap.keys sampleParsed.channels) :=
  ⟨by decide, rfl, by decide, by decide,
    RemoveDummyNodeFBX_channel_keys intOps id 2 sampleTree (emptyState Int) sampleState
      sampleRoot sampleSource sampleParsed sampleFinal (by decide) rfl (by decide) (by decide)⟩

/-- C8.  For a pending node `name` whose only recorded transform is the
`Rotation` matrix `R` and whose `Rotation` sub-node has no channel, the
channel stored under `name` is the node named `name` with the single position
key `(0, zero)`, the single rotation key `(0, rotation part of Decompose(R))`
and the single scaling key `(0, one)`.  The default-constructed matrices that
stand for the absent `PreRotation` and `PostRotation` are taken to be neutral
for the product with `R`.  Here the pending pivot map is
well formed (`PivotsWF`: distinct true names as keys, which `buildModelTree`
maintains) and the run completes, no assertion failing. -/
theorem RemoveDummyNodeFBX_rotation_only_node {F : Type} (ops : FloatOps F)
    (pivots : PivotMap F) (animation result : Animation F) (hwf : PivotsWF pivots)
    (hrun : RemoveDummyNodeFBX ops pivots animation = some result)
    (name : Str) (roles : StdMap Str (Matrix4x4 F)) (hmem : (name, roles) ∈ pivots)
    (R : Matrix4x4 F)
    (hR : StdMap.find roles roleRotation = some R)
    (hPre : StdMap.find roles rolePreRotation = none)
    (hPost : StdMap.find roles rolePostRotation = none)
    (hT : StdMap.find roles roleTranslation = none)
    (hS : StdMap.find roles roleScaling = none)
    (hch : StdMap.find animation.channels (name ++ suffixRotation) = none)
    (hid : ops.matMul (ops.matMul ops.matDefault R) ops.matDefault = R) :
    StdMap.find result.channels name = some
      ⟨name, [⟨ops.zero, ops.vecZero⟩], [⟨ops.zero, (ops.decompose R).2.1⟩],
        [⟨ops.zero, ops.vecOne⟩]⟩ := by
  obtain ⟨⟨pk, c1, rk, c2, sk, c3, hp, hq, hs, hfind⟩, -⟩ :=
    RemoveDummyNodeFBX_node ops pivots animation result hwf hrun name roles hmem
  rw [reconcilePosition_none ops name roles _ hT] at hp
  rw [reconcileScale_none ops name roles _ hS] at hs
  rw [reconcileRotation_static ops name roles _ R hR hch] at hq
  have e1 : preRotationOf ops roles = ops.matDefault := by simp only [preRotationOf, hPre]
  have e2 : postRotationOf ops roles = ops.matDefault := by simp only [postRotationOf, hPost]
  rw [e1, e2, hid] at hq
  obtain ⟨q, hq1, hq2⟩ := Option.map_eq_some'.1 hq
  simp only [Prod.mk.injEq] at hq2
  simp only [Option.some.injEq, Prod.mk.injEq] at hp hs
  rw [hfind, ← hp.1, ← hs.1, ← hq2.1, staticRotation_eq ops _ q hq1]

/-- C8, witness: the node `B` of `samplePivots`, whose only transform is
`sampleRotation`. -/
theorem RemoveDummyNodeFBX_rotation_only_node_witness :
    PivotsWF samplePivots ∧
    RemoveDummyNodeFBX intOps samplePivots sampleAnimation = some sampleResult ∧
    intOps.matMul (intOps.matMul intOps.matDefault sampleRotation) intOps.matDefault
      = sampleRotation ∧
    StdMap.find sampleResult.channels ['B'] = some
      ⟨['B'], [⟨intOps.zero, intOps.vecZero⟩],
        [⟨intOps.zero, (intOps.decompose sampleRotation).2.1⟩],
        [⟨intOps.zero, intOps.vecOne⟩]⟩ :=
  ⟨by decide, by decide, by decide,
    RemoveDummyNodeFBX_rotation_only_node intOps samplePivots sampleAnimation sampleResult
      (by decide) (by decide) ['B'] [(roleRotation, sampleRotation)] (by decide) sampleRotation
      (by decide) (by decide) (by decide) (by decide) (by decide) (by decide) (by decide)⟩

/-- C9, counterexample.  The node `U` of `rolePivots` records the identity
matrix as `PreRotation` and no `PostRotation`, and its `Rotation` sub-node has
three rotation keys in `roleAnimation`.  The run completes and the rotation
track of `U` has three keys with the times of the source keys, but its third
value is `(0, 0, 0, 1)` where the source key has `(0, 0, 0, -1)`: a quaternion
and its negation have the same rotation matrix, so the value read back from
the matrix cannot be the source value for both. -/
theorem RemoveDummyNodeFBX_negated_key_counterexample :
    PivotsWF rolePivots ∧
    RemoveDummyNodeFBX intOps rolePivots roleAnimation = some roleResult ∧
    StdMap.find [(rolePreRotation, intIdentity), (roleRotation, sampleMid)] rolePreRotation
      = some intIdentity ∧
    intOps.matDefault = intIdentity ∧
    (∀ M, intOps.matMul intIdentity M = M) ∧ (∀ M, intOps.matMul M intIdentity = M) ∧
    intOps.fromRotation ⟨0, 0, 0, -1⟩ = intOps.fromRotation ⟨0, 0, 0, 1⟩ ∧
    (StdMap.find roleAnimation.channels (['U'] ++ suffixRotation)).map
      (fun ch => ch.rotationKeys)
      = some [⟨0, ⟨0, 0, 0, 1⟩⟩, ⟨5, ⟨1, 0, 0, 1⟩⟩, ⟨7, ⟨0, 0, 0, -1⟩⟩] ∧
    (StdMap.find roleResult.channels ['U']).map (fun node => node.rotationKeys)
      = some [⟨0, ⟨0, 0, 0, 1⟩⟩, ⟨5, ⟨4, 0, 0, 1⟩⟩, ⟨7, ⟨0, 0, 0, 1⟩⟩] ∧
    (StdMap.find roleResult.channels ['U']).map (fun node => node.rotationKeys)
      ≠ (StdMap.find roleAnimation.channels (['U'] ++ suffixRotation)).map
          (fun ch => ch.rotationKeys) := by
  refine ⟨by decide, by decide, by decide, rfl, ?_, ?_, by decide, by decide, by decide,
    by decide⟩
  · intro M
    cases M
    simp [intOps, intMatMul, intIdentity]
  · intro M
    cases M
    simp [intOps, intMatMul, intIdentity]

/-- C9, as amended.  When the `Rotation` sub-node of `name` is animated with
the rotation keys `k_1 .. k_N`, and `PreRotation` and `PostRotation` (the
matrices recorded for `name` under these roles, or a default-constructed
matrix when none is recorded) are identities of the matrix product, the
rotation track stored under `name` has `N` keys, the `i`-th with the time of
`k_i` and with the rotation part of `Decompose(FromRotation(k_i.value))` as
its value, in the same order; the value is the one of `k_i` for every key on
which `Decompose` returns the quaternion that `FromRotation` was given; and
the synthetic channel is absent from the result.  Here the pending pivot map
is well formed (`PivotsWF`: distinct true names as keys, which
`buildModelTree` maintains) and the run completes, no assertion failing. -/
theorem RemoveDummyNodeFBX_identity_pivots_recompute_rotation {F : Type} (ops : FloatOps F)
    (pivots : PivotMap F) (animation result : Animation F) (hwf : PivotsWF pivots)
    (hrun : RemoveDummyNodeFBX ops pivots animation = some result)
    (name : Str) (roles : StdMap Str (Matrix4x4 F)) (hmem : (name, roles) ∈ pivots)
    (m : Matrix4x4 F) (ch : AnimationNode F)
    (hrec : StdMap.find roles roleRotation = some m)
    (hch : StdMap.find animation.channels (name ++ suffixRotation) = some ch)
    (hpre : ∀ M, ops.matMul ((StdMap.find roles rolePreRotation).getD ops.matDefault) M = M)
    (hpost : ∀ M, ops.matMul M ((StdMap.find roles rolePostRotation).getD ops.matDefault) = M) :
    ∃ node, StdMap.find result.channels name = some node ∧
      node.rotationKeys.length = ch.rotationKeys.length ∧
      node.rotationKeys.map (fun k => k.time) = ch.rotationKeys.map (fun k => k.time) ∧
      node.rotationKeys = ch.rotationKeys.map (fun k =>
        ⟨k.time, (ops.decompose (ops.fromRotation k.value)).2.1⟩) ∧
      (∀ i k, ch.rotationKeys.get? i = some k →
        (ops.decompose (ops.fromRotation k.value)).2.1 = k.value →
        node.rotationKeys.get? i = some k) ∧
      StdMap.find result.channels (name ++ suffixRotation) = none := by
  obtain ⟨⟨pk, c1, rk, c2, sk, c3, -, hq, -, hfind⟩, hcons⟩ :=
    RemoveDummyNodeFBX_node ops pivots animation result hwf hrun name roles hmem
  rw [reconcileRotation_animated ops name roles _ m ch hrec hch] at hq
  have hrk : rk = ch.rotationKeys.map (animatedRotationKey ops (preRotationOf ops roles)
      (postRotationOf ops roles)) := by
    split at hq
    · simp only [Option.some.injEq, Prod.mk.injEq] at hq
      exact hq.1.symm
    · exact Option.noConfusion hq
  rw [preRotationOf_eq, postRotationOf_eq] at hrk
  have hmap : rk = ch.rotationKeys.map (fun k =>
      (⟨k.time, (ops.decompose (ops.fromRotation k.value)).2.1⟩ : QuaternionKey F)) := by
    rw [hrk]
    apply List.map_congr_left
    intro k _
    simp only [animatedRotationKey, hpre, hpost]
  refine ⟨_, hfind, ?_, ?_, hmap, ?_, hcons _ (consumes_rotation name roles m hrec)⟩
  · show rk.length = _
    rw [hmap, List.length_map]
  · show rk.map (fun k => k.time) = _
    rw [hmap, List.map_map]
    rfl
  · intro i k hi hk
    show rk.get? i = some k
    rw [hmap, List.get?_eq_getElem?, List.getElem?_map, ← List.get?_eq_getElem?, hi,
      Option.map_some', hk]

/-- C9, witness: the node `U` of `rolePivots`, with the identity recorded as
`PreRotation`, no `PostRotation`, and three rotation keys.  The values of the
result are read back from the rotation matrices of the source keys: the first
key is returned as it is, and the other two are not. -/
theorem RemoveDummyNodeFBX_identity_pivots_recompute_rotation_witness :
    PivotsWF rolePivots ∧
    RemoveDummyNodeFBX intOps rolePivots roleAnimation = some roleResult ∧
    ∃ node, StdMap.find roleResult.channels ['U'] = some node ∧
      node.rotationKeys = [⟨0, ⟨0, 0, 0, 1⟩⟩, ⟨5, ⟨4, 0, 0, 1⟩⟩, ⟨7, ⟨0, 0, 0, 1⟩⟩] ∧
      node.rotationKeys.length = signedRotationChannel.rotationKeys.length ∧
      node.rotationKeys.map (fun k => k.time)
        = signedRotationChannel.rotationKeys.map (fun k => k.time) ∧
      node.rotationKeys = signedRotationChannel.rotationKeys.map (fun k =>
        ⟨k.time, (intOps.decompose (intOps.fromRotation k.value)).2.1⟩) ∧
      node.rotationKeys.get? 0 = some ⟨0, ⟨0, 0, 0, 1⟩⟩ ∧
      StdMap.find roleResult.channels (['U'] ++ suffixRotation) = none := by
  refine ⟨by decide, by decide, ?_⟩
  obtain ⟨node, h1, h2, h3, h4, h5, h6⟩ :=
    RemoveDummyNodeFBX_identity_pivots_recompute_rotation intOps rolePivots roleAnimation
      roleResult (by decide) (by decide) ['U']
      [(rolePreRotation, intIdentity), (roleRotation, sampleMid)] (by decide)
      sampleMid signedRotationChannel (by decide) (by decide)
      (by intro M; cases M; simp [StdMap.find, intOps, intMatMul, intIdentity,
        rolePreRotation, roleRotation])
      (by intro M; cases M; simp [StdMap.find, intOps, intMatMul, intIdentity,
        rolePostRotation, rolePreRotation, roleRotation])
  exact ⟨node, h1, h4, h2, h3, h4, h5 0 ⟨0, ⟨0, 0, 0, 1⟩⟩ (by decide) (by decide), h6⟩

/-- C10.  For every node `name` of the pending pivot map, the channel stored
under `name` after the run is the reconciled node: its name field is `name`
and its three tracks are the ones that the position, rotation and scale
blocks compute from the animation, whatever was stored under `name`
before.  Here the pending pivot map is
well formed (`PivotsWF`: distinct true names as keys, which `buildModelTree`
maintains) and the run completes, no assertion failing. -/
theorem RemoveDummyNodeFBX_stores_reconciled_node {F : Type} (ops : FloatOps F)
    (pivots : PivotMap F) (animation result : Animation F) (hwf : PivotsWF pivots)
    (hrun : RemoveDummyNodeFBX ops pivots animation = some result)
    (name : Str) (roles : StdMap Str (Matrix4x4 F)) (hmem : (name, roles) ∈ pivots) :
    ∃ positionKeys c1 rotationKeys c2 scalingKeys c3,
      reconcilePosition ops name roles animation.channels = some (positionKeys, c1) ∧
      reconcileRotation ops name roles animation.channels = some (rotationKeys, c2) ∧
      reconcileScale ops name roles animation.channels = some (scalingKeys, c3) ∧
      StdMap.find result.channels name = some ⟨name, positionKeys, rotationKeys, scalingKeys⟩ :=
  (RemoveDummyNodeFBX_node ops pivots animation result hwf hrun name roles hmem).1

/-- C10, witness: the node `A` of `samplePivots`. -/
theorem RemoveDummyNodeFBX_stores_reconciled_node_witness :
    PivotsWF samplePivots ∧
    RemoveDummyNodeFBX intOps samplePivots sampleAnimation = some sampleResult ∧
    ∃ positionKeys c1 rotationKeys c2 scalingKeys c3,
      reconcilePosition intOps ['A']
          [(roleRotation, intIdentity), (roleTranslation, sampleTranslation)]
          sampleAnimation.channels = some (positionKeys, c1) ∧
      reconcileRotation intOps ['A']
          [(roleRotation, intIdentity), (roleTranslation, sampleTranslation)]
          sampleAnimation.channels = some (rotationKeys, c2) ∧
      reconcileScale intOps ['A']
          [(roleRotation, intIdentity), (roleTranslation, sampleTranslation)]
          sampleAnimation.channels = some (scalingKeys, c3) ∧
      StdMap.find sampleResult.channels ['A']
        = some ⟨['A'], positionKeys, rotationKeys, scalingKeys⟩ :=
  ⟨by decide, by decide,
    RemoveDummyNodeFBX_stores_reconciled_node intOps samplePivots sampleAnimation sampleResult
      (by decide) (by decide) ['A'] _ (by decide)⟩

/-! ## Induction over importer trees and inversion of `buildModelTree` -/

/-- Induction over importer trees: a property holds for every node when it
holds for a node whose children all have it. -/
theorem aiNode.induction {F : Type} (P : aiNode F → Prop)
    (h : ∀ name t ms children, (∀ c ∈ children, P c) → P (.mk name t ms children)) :
    ∀ n, P n := by
  intro n
  refine aiNode.rec (motive_1 := P) (motive_2 := fun l => ∀ c ∈ l, P c) ?_ ?_ ?_ n
  · intro name t ms children ih
    exact h name t ms children ih
  · intro c hc
    exact absurd hc (List.not_mem_nil _)
  · intro head tail ih1 ih2 c hc
    rcases List.mem_cons.1 hc with e | e
    · rw [e]; exact ih1
    · exact ih2 c e

theorem buildModelTree_inv_synthetic {F : Type} (ops : FloatOps F) (fileScale : F)
    (name : Str) (t : aiMatrix4x4 F) (ms : List Nat) (children : List (aiNode F))
    (st st' : ImporterState F) (r : ModelNode F) (pos : Nat)
    (hpos : strFind marker name = some pos)
    (h : buildModelTree ops fileScale (.mk name t ms children) st = some (r, st')) :
    ¬ name.length < pos + 13 ∧ name.drop (pos + 13) ∈ DummyNodeNames ∧
    ∃ child c, children = [child] ∧ (name.take pos).isPrefixOf child.mName = true ∧
      buildModelTree ops fileScale child
        (st.withPivot (name.take pos) (name.drop (pos + 13))
          (scaleTranslation ops fileScale (ConvertMatrix t))) = some (c, st') ∧
      r = c.setTransform
        (ops.matMul (scaleTranslation ops fileScale (ConvertMatrix t)) c.transform) := by
  rw [buildModelTree] at h
  rw [hpos] at h
  simp only at h
  split at h
  · exact Option.noConfusion h
  · rename_i hlen
    split at h
    · exact Option.noConfusion h
    · rename_i hrole
      refine ⟨hlen, by simpa using hrole, ?_⟩
      match children, h with
      | [child], h =>
        simp only at h
        split at h
        · exact Option.noConfusion h
        · rename_i hpre
          cases hc : buildModelTree ops fileScale child
              (st.withPivot (List.take pos name) (List.drop (pos + 13) name)
                (scaleTranslation ops fileScale (ConvertMatrix t))) with
          | none => rw [hc] at h; exact Option.noConfusion h
          | some res =>
            obtain ⟨c, st2⟩ := res
            rw [hc] at h
            simp only [Option.some.injEq, Prod.mk.injEq] at h
            refine ⟨child, c, rfl, by simpa using hpre, ?_, h.1.symm⟩
            rw [← h.2]
            exact hc
      | [], h => exact Option.noConfusion h
      | _ :: _ :: _, h => exact Option.noConfusion h

theorem buildModelTree_inv_plain {F : Type} (ops : FloatOps F) (fileScale : F)
    (name : Str) (t : aiMatrix4x4 F) (ms : List Nat) (children : List (aiNode F))
    (st st' : ImporterState F) (r : ModelNode F)
    (hpos : strFind marker name = none)
    (h : buildModelTree ops fileScale (.mk name t ms children) st = some (r, st')) :
    ∃ cs, buildChildren ops fileScale children (st.withBone name) = some (cs, st') ∧
      r = .mk name (scaleTranslation ops fileScale (ConvertMatrix t)) false
        st.m_boneToIndex.size ms cs := by
  rw [buildModelTree] at h
  rw [hpos] at h
  simp only at h
  cases hc : buildChildren ops fileScale children (st.withBone name) with
  | none => rw [hc] at h; exact Option.noConfusion h
  | some res =>
    obtain ⟨cs, st2⟩ := res
    rw [hc] at h
    simp only [Option.some.injEq, Prod.mk.injEq] at h
    exact ⟨cs, by rw [← h.2], h.1.symm⟩

theorem buildChildren_inv_cons {F : Type} (ops : FloatOps F) (fileScale : F)
    (child : aiNode F) (rest : List (aiNode F)) (st st' : ImporterState F)
    (rs : List (ModelNode F))
    (h : buildChildren ops fileScale (child :: rest) st = some (rs, st')) :
    ∃ c st1 cs, buildModelTree ops fileScale child st = some (c, st1) ∧
      buildChildren ops fileScale rest st1 = some (cs, st') ∧ rs = c :: cs := by
  rw [buildChildren] at h
  cases hc : buildModelTree ops fileScale child st with
  | none => rw [hc] at h; exact Option.noConfusion h
  | some res =>
    obtain ⟨c, st1⟩ := res
    rw [hc] at h
    simp only at h
    cases hr : buildChildren ops fileScale rest st1 with
    | none => rw [hr] at h; exact Option.noConfusion h
    | some res2 =>
      obtain ⟨cs, st2⟩ := res2
      rw [hr] at h
      simp only [Option.some.injEq, Prod.mk.injEq] at h
      exact ⟨c, st1, cs, rfl, by rw [← h.2]; exact hr, h.1.symm⟩

theorem buildChildren_inv_nil {F : Type} (ops : FloatOps F) (fileScale : F)
    (st st' : ImporterState F) (rs : List (ModelNode F))
    (h : buildChildren ops fileScale [] st = some (rs, st')) : rs = [] ∧ st' = st := by
  rw [buildChildren] at h
  simp only [Option.some.injEq, Prod.mk.injEq] at h
  exact ⟨h.1.symm, h.2.symm⟩

theorem ModelNode.nodes_setTransform {F : Type} (t : Matrix4x4 F) (c : ModelNode F) :
    (c.setTransform t).nodes = c.setTransform t :: nodesList c.children := by
  cases c; rfl

theorem ModelNode.nodes_eq {F : Type} (c : ModelNode F) :
    c.nodes = c :: nodesList c.children := by
  cases c; rfl

theorem ModelNode.name_setTransform {F : Type} (t : Matrix4x4 F) (c : ModelNode F) :
    (c.setTransform t).name = c.name := by
  cases c; rfl

theorem ModelNode.index_setTransform {F : Type} (t : Matrix4x4 F) (c : ModelNode F) :
    (c.setTransform t).index = c.index := by
  cases c; rfl

theorem ModelNode.children_setTransform {F : Type} (t : Matrix4x4 F) (c : ModelNode F) :
    (c.setTransform t).children = c.children := by
  cases c; rfl

theorem ModelNode.transform_setTransform {F : Type} (t : Matrix4x4 F) (c : ModelNode F) :
    (c.setTransform t).transform = t := by
  cases c; rfl

theorem ModelNode.shape_setTransform {F : Type} (t : Matrix4x4 F) (c : ModelNode F) :
    (c.setTransform t).shape = c.shape := by
  cases c; rfl

theorem ModelNode.names_setTransform {F : Type} (t : Matrix4x4 F) (c : ModelNode F) :
    (c.setTransform t).names = c.names := by
  cases c; rfl

theorem ModelNode.indices_setTransform {F : Type} (t : Matrix4x4 F) (c : ModelNode F) :
    (c.setTransform t).indices = c.indices := by
  cases c; rfl

/-! ## Names and shape of the tree that `buildModelTree` returns -/

theorem buildChildren_names_of {F : Type} (ops : FloatOps F) (fileScale : F)
    (l : List (aiNode F))
    (ih : ∀ c ∈ l, ∀ st r st', buildModelTree ops fileScale c st = some (r, st') →
      r.names = c.plainNames ∧ some r.shape = c.collapsedShape) :
    ∀ st rs st', buildChildren ops fileScale l st = some (rs, st') →
      (nodesList rs).map ModelNode.name = plainNamesList l ∧
      some (shapeList rs) = collapsedShapeList l := by
  induction l with
  | nil =>
    intro st rs st' h
    obtain ⟨e, -⟩ := buildChildren_inv_nil ops fileScale st st' rs h
    subst e
    exact ⟨rfl, rfl⟩
  | cons child rest ihl =>
    intro st rs st' h
    obtain ⟨c, st1, cs, hc, hr, e⟩ := buildChildren_inv_cons ops fileScale child rest st st' rs h
    subst e
    obtain ⟨n1, s1⟩ := ih child (List.mem_cons_self _ _) st c st1 hc
    obtain ⟨n2, s2⟩ := ihl (fun c hc => ih c (List.mem_cons_of_mem _ hc)) st1 cs st' hr
    constructor
    · simp only [nodesList, plainNamesList, List.map_append]
      rw [n2]
      exact congrArg (· ++ plainNamesList rest) n1
    · simp only [shapeList, collapsedShapeList]
      rw [← s1, ← s2]
      rfl

/-- The names of the returned tree are, in pre-order, the names of the
non-synthetic importer nodes, and its shape is the collapsed shape of the
importer tree. -/
theorem buildModelTree_names_shape {F : Type} (ops : FloatOps F) (fileScale : F) :
    ∀ (node : aiNode F) (st : ImporterState F) (r : ModelNode F) (st' : ImporterState F),
      buildModelTree ops fileScale node st = some (r, st') →
      r.names = node.plainNames ∧ some r.shape = node.collapsedShape := by
  intro node
  induction node using aiNode.induction with
  | h name t ms children ih =>
    intro st r st' h
    cases hpos : strFind marker name with
    | some pos =>
      obtain ⟨-, -, child, c, hch, -, hc, hr⟩ :=
        buildModelTree_inv_synthetic ops fileScale name t ms children st st' r pos hpos h
      subst hch
      obtain ⟨n1, s1⟩ := ih child (List.mem_singleton_self _) _ c st' hc
      rw [hr, ModelNode.names_setTransform, ModelNode.shape_setTransform]
      constructor
      · simp only [aiNode.plainNames, hpos, Option.isSome_some, if_true, plainNamesList,
          List.nil_append, List.append_nil]
        exact n1
      · simp only [aiNode.collapsedShape, hpos, Option.isSome_some, if_true]
        exact s1
    | none =>
      obtain ⟨cs, hc, hr⟩ :=
        buildModelTree_inv_plain ops fileScale name t ms children st st' r hpos h
      obtain ⟨n1, s1⟩ := buildChildren_names_of ops fileScale children ih _ cs st' hc
      rw [hr]
      constructor
      · simp only [ModelNode.names, ModelNode.nodes, List.map_cons, ModelNode.name,
          aiNode.plainNames, hpos, Option.isSome_none, Bool.false_eq_true, if_false,
          List.singleton_append, n1]
      · unfold aiNode.collapsedShape
        simp only [ModelNode.shape, hpos, Option.isSome_none, Bool.false_eq_true, if_false,
          ← s1, Option.map_some']

theorem buildChildren_names_shape {F : Type} (ops : FloatOps F) (fileScale : F)
    (l : List (aiNode F)) (st : ImporterState F) (rs : List (ModelNode F))
    (st' : ImporterState F) (h : buildChildren ops fileScale l st = some (rs, st')) :
    (nodesList rs).map ModelNode.name = plainNamesList l ∧
      some (shapeList rs) = collapsedShapeList l :=
  buildChildren_names_of ops fileScale l
    (fun c _ => buildModelTree_names_shape ops fileScale c) st rs st' h

theorem plainNames_markerfree {F : Type} :
    ∀ (node : aiNode F), ∀ x ∈ node.plainNames, strFind marker x = none := by
  intro node
  induction node using aiNode.induction with
  | h name t ms children ih =>
    have hl : ∀ l : List (aiNode F), (∀ c ∈ l, ∀ x ∈ c.plainNames, strFind marker x = none) →
        ∀ x ∈ plainNamesList l, strFind marker x = none := by
      intro l
      induction l with
      | nil => intro _ x hx; simp [plainNamesList] at hx
      | cons c cs ihl =>
        intro hall x hx
        simp only [plainNamesList, List.mem_append] at hx
        rcases hx with hx | hx
        · exact hall c (List.mem_cons_self _ _) x hx
        · exact ihl (fun c hc => hall c (List.mem_cons_of_mem _ hc)) x hx
    intro x hx
    simp only [aiNode.plainNames, List.mem_append] at hx
    rcases hx with hx | hx
    · cases hpos : strFind marker name with
      | some pos => simp [hpos] at hx
      | none =>
        simp only [hpos, Option.isSome_none, Bool.false_eq_true, if_false,
          List.mem_singleton] at hx
        rw [hx]; exact hpos
    · exact hl children ih x hx

/-! ## Transforms of the nodes that are not below a synthetic node -/

theorem buildChildren_direct_of {F : Type} (ops : FloatOps F) (fileScale : F)
    (l : List (aiNode F))
    (ih : ∀ c ∈ l, ∀ st r st', buildModelTree ops fileScale c st = some (r, st') →
      (∀ e ∈ c.directEntries ops fileScale true, HasEntry (nodesList r.children) e) ∧
      (∀ e ∈ c.directEntries ops fileScale false, HasEntry r.nodes e)) :
    ∀ st rs st', buildChildren ops fileScale l st = some (rs, st') →
      ∀ flag, ∀ e ∈ directEntriesList ops fileScale flag l, HasEntry (nodesList rs) e := by
  induction l with
  | nil =>
    intro st rs st' _ flag e he
    simp [directEntriesList] at he
  | cons child rest ihl =>
    intro st rs st' h flag e he
    obtain ⟨c, st1, cs, hc, hr, er⟩ := buildChildren_inv_cons ops fileScale child rest st st' rs h
    subst er
    obtain ⟨p1, p2⟩ := ih child (List.mem_cons_self _ _) st c st1 hc
    simp only [directEntriesList, List.mem_append] at he
    rcases he with he | he
    · have : HasEntry c.nodes e := by
        cases flag with
        | false => exact p2 e he
        | true =>
          obtain ⟨n, hn, hne⟩ := p1 e he
          refine ⟨n, ?_, hne⟩
          rw [ModelNode.nodes_eq]
          exact List.mem_cons_of_mem _ hn
      obtain ⟨n, hn, hne⟩ := this
      exact ⟨n, by simp only [nodesList, List.mem_append]; exact Or.inl hn, hne⟩
    · obtain ⟨n, hn, hne⟩ :=
        ihl (fun c hc => ih c (List.mem_cons_of_mem _ hc)) st1 cs st' hr flag e he
      exact ⟨n, by simp only [nodesList, List.mem_append]; exact Or.inr hn, hne⟩

/-- Every non-synthetic importer node that is not the child of a synthetic
node has an output node with its name and its scaled local matrix. -/
theorem buildModelTree_direct {F : Type} (ops : FloatOps F) (fileScale : F) :
    ∀ (node : aiNode F) (st : ImporterState F) (r : ModelNode F) (st' : ImporterState F),
      buildModelTree ops fileScale node st = some (r, st') →
      (∀ e ∈ node.directEntries ops fileScale true, HasEntry (nodesList r.children) e) ∧
      (∀ e ∈ node.directEntries ops fileScale false, HasEntry r.nodes e) := by
  intro node
  induction node using aiNode.induction with
  | h name t ms children ih =>
    intro st r st' h
    cases hpos : strFind marker name with
    | some pos =>
      obtain ⟨-, -, child, c, hch, -, hc, hr⟩ :=
        buildModelTree_inv_synthetic ops fileScale name t ms children st st' r pos hpos h
      subst hch
      obtain ⟨p1, -⟩ := ih child (List.mem_singleton_self _) _ c st' hc
      have key : ∀ flag, ∀ e ∈ (aiNode.mk name t ms [child]).directEntries ops fileScale flag,
          HasEntry (nodesList r.children) e := by
        intro flag e he
        simp only [aiNode.directEntries, hpos, Option.isSome_some, if_true, directEntriesList,
          List.append_nil] at he
        rw [hr, ModelNode.children_setTransform]
        exact p1 e he
      refine ⟨key true, fun e he => ?_⟩
      obtain ⟨n, hn, hne⟩ := key false e he
      exact ⟨n, by rw [ModelNode.nodes_eq]; exact List.mem_cons_of_mem _ hn, hne⟩
    | none =>
      obtain ⟨cs, hc, hr⟩ :=
        buildModelTree_inv_plain ops fileScale name t ms children st st' r hpos h
      have hl := buildChildren_direct_of ops fileScale children ih _ cs st' hc false
      subst hr
      constructor
      · intro e he
        simp only [aiNode.directEntries, hpos, Option.isSome_none, Bool.false_eq_true,
          if_false, if_true, List.nil_append] at he
        exact hl e he
      · intro e he
        simp only [aiNode.directEntries, hpos, Option.isSome_none, Bool.false_eq_true,
          if_false, List.singleton_append, List.mem_cons] at he
        rcases he with he | he
        · refine ⟨_, List.mem_cons_self _ _, ?_⟩
          rw [he]
          exact ⟨rfl, rfl⟩
        · obtain ⟨n, hn, hne⟩ := hl e he
          exact ⟨n, List.mem_cons_of_mem _ hn, hne⟩

/-! ## The pivot map that `buildModelTree` leaves -/

theorem recordAll_append {F : Type} (m : PivotMap F) (a b : List (Str × Str × Matrix4x4 F)) :
    recordAll m (a ++ b) = recordAll (recordAll m a) b := by
  simp [recordAll, List.foldl_append]

theorem buildChildren_pivots_of {F : Type} (ops : FloatOps F) (fileScale : F)
    (l : List (aiNode F))
    (ih : ∀ c ∈ l, ∀ st r st', buildModelTree ops fileScale c st = some (r, st') →
      st'.m_nodeTransformations
        = recordAll st.m_nodeTransformations (c.syntheticEntries ops fileScale)) :
    ∀ st rs st', buildChildren ops fileScale l st = some (rs, st') →
      st'.m_nodeTransformations
        = recordAll st.m_nodeTransformations (syntheticEntriesList ops fileScale l) := by
  induction l with
  | nil =>
    intro st rs st' h
    obtain ⟨-, e⟩ := buildChildren_inv_nil ops fileScale st st' rs h
    subst e
    rfl
  | cons child rest ihl =>
    intro st rs st' h
    obtain ⟨c, st1, cs, hc, hr, -⟩ := buildChildren_inv_cons ops fileScale child rest st st' rs h
    rw [syntheticEntriesList, recordAll_append,
      ← ih child (List.mem_cons_self _ _) st c st1 hc]
    exact ihl (fun c hc => ih c (List.mem_cons_of_mem _ hc)) st1 cs st' hr

/-- The pivot map after `buildModelTree` is the one before it with the
synthetic nodes of the tree recorded in pre-order. -/
theorem buildModelTree_pivots {F : Type} (ops : FloatOps F) (fileScale : F) :
    ∀ (node : aiNode F) (st : ImporterState F) (r : ModelNode F) (st' : ImporterState F),
      buildModelTree ops fileScale node st = some (r, st') →
      st'.m_nodeTransformations
        = recordAll st.m_nodeTransformations (node.syntheticEntries ops fileScale) := by
  intro node
  induction node using aiNode.induction with
  | h name t ms children ih =>
    intro st r st' h
    cases hpos : strFind marker name with
    | some pos =>
      obtain ⟨-, -, child, c, hch, -, hc, -⟩ :=
        buildModelTree_inv_synthetic ops fileScale name t ms children st st' r pos hpos h
      subst hch
      rw [ih child (List.mem_singleton_self _) _ c st' hc]
      simp only [aiNode.syntheticEntries, hpos, syntheticEntriesList, List.append_nil,
        List.singleton_append, recordAll, List.foldl_cons]
      rfl
    | none =>
      obtain ⟨cs, hc, -⟩ :=
        buildModelTree_inv_plain ops fileScale name t ms children st st' r hpos h
      rw [buildChildren_pivots_of ops fileScale children ih _ cs st' hc]
      simp only [aiNode.syntheticEntries, hpos, List.nil_append]
      rfl

theorem buildChildren_roles_of {F : Type} (ops : FloatOps F) (fileScale : F)
    (l : List (aiNode F))
    (ih : ∀ c ∈ l, ∀ st r st', buildModelTree ops fileScale c st = some (r, st') →
      ∀ e ∈ c.syntheticEntries ops fileScale, e.2.1 ∈ DummyNodeNames) :
    ∀ st rs st', buildChildren ops fileScale l st = some (rs, st') →
      ∀ e ∈ syntheticEntriesList ops fileScale l, e.2.1 ∈ DummyNodeNames := by
  induction l with
  | nil =>
    intro st rs st' _ e he
    simp [syntheticEntriesList] at he
  | cons child rest ihl =>
    intro st rs st' h e he
    obtain ⟨c, st1, cs, hc, hr, -⟩ := buildChildren_inv_cons ops fileScale child rest st st' rs h
    simp only [syntheticEntriesList, List.mem_append] at he
    rcases he with he | he
    · exact ih child (List.mem_cons_self _ _) st c st1 hc e he
    · exact ihl (fun c hc => ih c (List.mem_cons_of_mem _ hc)) st1 cs st' hr e he

/-- On a tree on which `buildModelTree` succeeds every synthetic node has a
role of the vocabulary. -/
theorem buildModelTree_roles {F : Type} (ops : FloatOps F) (fileScale : F) :
    ∀ (node : aiNode F) (st : ImporterState F) (r : ModelNode F) (st' : ImporterState F),
      buildModelTree ops fileScale node st = some (r, st') →
      ∀ e ∈ node.syntheticEntries ops fileScale, e.2.1 ∈ DummyNodeNames := by
  intro node
  induction node using aiNode.induction with
  | h name t ms children ih =>
    intro st r st' h e he
    cases hpos : strFind marker name with
    | some pos =>
      obtain ⟨-, hrole, child, c, hch, -, hc, -⟩ :=
        buildModelTree_inv_synthetic ops fileScale name t ms children st st' r pos hpos h
      subst hch
      simp only [aiNode.syntheticEntries, hpos, syntheticEntriesList, List.append_nil,
        List.singleton_append, List.mem_cons] at he
      rcases he with he | he
      · rw [he]; exact hrole
      · exact ih child (List.mem_singleton_self _) _ c st' hc e he
    | none =>
      obtain ⟨cs, hc, -⟩ :=
        buildModelTree_inv_plain ops fileScale name t ms children st st' r hpos h
      simp only [aiNode.syntheticEntries, hpos, List.nil_append] at he
      exact buildChildren_roles_of ops fileScale children ih _ cs st' hc e he

theorem lookup_recordPivot {F : Type} (m : PivotMap F) (t r : Str) (x : Matrix4x4 F)
    (t' r' : Str) :
    PivotMap.lookup (recordPivot m t r x) t' r'
      = if t = t' ∧ r = r' then some x else PivotMap.lookup m t' r' := by
  unfold recordPivot PivotMap.lookup
  cases hf : StdMap.find m t with
  | some roles =>
    simp only
    by_cases ht : t' = t
    · subst ht
      rw [StdMap.find_replace_self m t' _ (by rw [hf]; exact Option.some_ne_none _), hf]
      simp only
      by_cases hr : r' = r
      · subst hr; simp [StdMap.find_assign_self]
      · rw [StdMap.find_assign_ne roles x hr]
        rw [if_neg (fun h => hr h.2.symm)]
    · rw [StdMap.find_replace_ne m _ ht, if_neg (fun h => ht h.1.symm)]
  | none =>
    simp only
    by_cases ht : t' = t
    · subst ht
      rw [StdMap.find_assign_self, hf]
      simp only [StdMap.find, true_and]
    · rw [StdMap.find_assign_ne m _ ht, if_neg (fun h => ht h.1.symm)]

theorem lookup_recordAll {F : Type} (es : List (Str × Str × Matrix4x4 F)) :
    ∀ (m : PivotMap F) (t r : Str),
      PivotMap.lookup (recordAll m es) t r = lastRecorded es t r (PivotMap.lookup m t r) := by
  induction es with
  | nil => intro m t r; rfl
  | cons e rest ih =>
    intro m t r
    have h1 : recordAll m (e :: rest) = recordAll (recordPivot m e.1 e.2.1 e.2.2) rest := rfl
    have h2 : lastRecorded (e :: rest) t r (PivotMap.lookup m t r)
        = lastRecorded rest t r
          (if e.1 = t ∧ e.2.1 = r then some e.2.2 else PivotMap.lookup m t r) := rfl
    rw [h1, h2, ih, lookup_recordPivot]

theorem lastRecorded_of_last {F : Type} (pre post : List (Str × Str × Matrix4x4 F))
    (t r : Str) (x : Matrix4x4 F) (init : Option (Matrix4x4 F))
    (hpost : ∀ e ∈ post, ¬ (e.1 = t ∧ e.2.1 = r)) :
    lastRecorded (pre ++ (t, r, x) :: post) t r init = some x := by
  have hskip : ∀ (l : List (Str × Str × Matrix4x4 F)) (a : Option (Matrix4x4 F)),
      (∀ e ∈ l, ¬ (e.1 = t ∧ e.2.1 = r)) → lastRecorded l t r a = a := by
    intro l
    induction l with
    | nil => intro a _; rfl
    | cons e rest ih =>
      intro a hl
      have : lastRecorded (e :: rest) t r a
          = lastRecorded rest t r (if e.1 = t ∧ e.2.1 = r then some e.2.2 else a) := rfl
      rw [this, if_neg (hl e (List.mem_cons_self _ _))]
      exact ih a (fun e he => hl e (List.mem_cons_of_mem _ he))
  unfold lastRecorded
  rw [List.foldl_append, List.foldl_cons]
  simp only [and_self, if_true]
  exact hskip post (some x) hpost

theorem lastRecorded_some {F : Type} (es : List (Str × Str × Matrix4x4 F)) (t r : Str) :
    ∀ (init : Option (Matrix4x4 F)) (x : Matrix4x4 F), lastRecorded es t r init = some x →
      init = some x ∨ ∃ e ∈ es, e.1 = t ∧ e.2.1 = r ∧ e.2.2 = x := by
  induction es with
  | nil => intro init x h; exact Or.inl h
  | cons e rest ih =>
    intro init x h
    have h2 : lastRecorded (e :: rest) t r init
        = lastRecorded rest t r (if e.1 = t ∧ e.2.1 = r then some e.2.2 else init) := rfl
    rw [h2] at h
    rcases ih _ x h with h3 | ⟨e', he', h4⟩
    · by_cases hc : e.1 = t ∧ e.2.1 = r
      · rw [if_pos hc] at h3
        exact Or.inr ⟨e, List.mem_cons_self _ _, hc.1, hc.2, Option.some.inj h3⟩
      · rw [if_neg hc] at h3
        exact Or.inl h3
    · exact Or.inr ⟨e', List.mem_cons_of_mem _ he', h4⟩

theorem find_recordPivot_ne_none {F : Type} (m : PivotMap F) (t r : Str) (x : Matrix4x4 F)
    (k : Str) (h : StdMap.find (recordPivot m t r x) k ≠ none) :
    k = t ∨ StdMap.find m k ≠ none := by
  by_cases hk : k = t
  · exact Or.inl hk
  · right
    unfold recordPivot at h
    cases hf : StdMap.find m t with
    | some roles =>
      rw [hf] at h
      simp only at h
      rwa [StdMap.find_replace_ne m _ hk] at h
    | none =>
      rw [hf] at h
      simp only at h
      rwa [StdMap.find_assign_ne m _ hk] at h

theorem find_recordAll_ne_none {F : Type} (es : List (Str × Str × Matrix4x4 F)) :
    ∀ (m : PivotMap F) (k : Str), StdMap.find (recordAll m es) k ≠ none →
      StdMap.find m k ≠ none ∨ ∃ e ∈ es, e.1 = k := by
  induction es with
  | nil => intro m k h; exact Or.inl h
  | cons e rest ih =>
    intro m k h
    have h1 : recordAll m (e :: rest) = recordAll (recordPivot m e.1 e.2.1 e.2.2) rest := rfl
    rw [h1] at h
    rcases ih _ k h with h2 | ⟨e', he', h3⟩
    · rcases find_recordPivot_ne_none m _ _ _ k h2 with h4 | h4
      · exact Or.inr ⟨e, List.mem_cons_self _ _, h4.symm⟩
      · exact Or.inl h4
    · exact Or.inr ⟨e', List.mem_cons_of_mem _ he', h3⟩

/-! ## When `buildModelTree` succeeds -/

theorem aiNode.mName_mk {F : Type} (n : Str) (t : aiMatrix4x4 F) (ms : List Nat)
    (c : List (aiNode F)) : (aiNode.mk n t ms c).mName = n := rfl

theorem aiNode.mChildren_mk {F : Type} (n : Str) (t : aiMatrix4x4 F) (ms : List Nat)
    (c : List (aiNode F)) : (aiNode.mk n t ms c).mChildren = c := rfl

theorem buildChildren_isSome_of {F : Type} (ops : FloatOps F) (fileScale : F)
    (l : List (aiNode F))
    (ih : ∀ c ∈ l, ∀ st, (buildModelTree ops fileScale c st).isSome = c.allRegular) :
    ∀ st, (buildChildren ops fileScale l st).isSome = allRegularList l := by
  induction l with
  | nil => intro st; rfl
  | cons child rest ihl =>
    intro st
    have h1 := ih child (List.mem_cons_self _ _) st
    rw [buildChildren, allRegularList]
    cases hc : buildModelTree ops fileScale child st with
    | none =>
      rw [hc] at h1
      rw [← h1]; rfl
    | some res =>
      obtain ⟨c, st1⟩ := res
      rw [hc] at h1
      have h2 := ihl (fun c hc => ih c (List.mem_cons_of_mem _ hc)) st1
      rw [← h1, ← h2]
      simp only [Option.isSome_some, Bool.true_and]
      cases buildChildren ops fileScale rest st1 <;> rfl

/-- The method succeeds exactly on the trees all of whose nodes are regular. -/
theorem buildModelTree_isSome {F : Type} (ops : FloatOps F) (fileScale : F) :
    ∀ (node : aiNode F) (st : ImporterState F),
      (buildModelTree ops fileScale node st).isSome = node.allRegular := by
  intro node
  induction node using aiNode.induction with
  | h name t ms children ih =>
    intro st
    rw [buildModelTree]
    unfold aiNode.allRegular aiNode.regular
    simp only [aiNode.mName_mk, aiNode.mChildren_mk]
    cases hpos : strFind marker name with
    | none =>
      simp only [Bool.true_and]
      rw [← buildChildren_isSome_of ops fileScale children ih (st.withBone name)]
      cases buildChildren ops fileScale children (st.withBone name) <;> rfl
    | some pos =>
      simp only
      by_cases hlen : name.length < pos + 13
      · simp [hlen]
      · by_cases hrole : name.drop (pos + 13) ∈ DummyNodeNames
        · simp only [hlen, hrole, not_false_eq_true, not_true_eq_false, if_false,
            decide_True, Bool.true_and]
          match children, ih with
          | [], _ => rfl
          | _ :: _ :: _, _ => rfl
          | [child], ih =>
            simp only [allRegularList, Bool.and_true]
            have h1 := ih child (List.mem_singleton_self _)
              (st.withPivot (List.take pos name) (List.drop (pos + 13) name)
                (scaleTranslation ops fileScale (ConvertMatrix t)))
            rw [← h1]
            cases hp : (List.take pos name).isPrefixOf child.mName
            · rfl
            · simp only [Bool.not_true, Bool.false_eq_true, if_false, Bool.true_and]
              cases buildModelTree ops fileScale child
                (st.withPivot (List.take pos name) (List.drop (pos + 13) name)
                  (scaleTranslation ops fileScale (ConvertMatrix t))) <;> rfl
        · simp [hlen, hrole]

theorem anyBrokenList_of {F : Type} (l : List (aiNode F))
    (ih : ∀ c ∈ l, c.anyBroken = true → c.allRegular = false) :
    anyBrokenList l = true → allRegularList l = false := by
  induction l with
  | nil => intro h; exact Bool.noConfusion h
  | cons c cs ihl =>
    intro h
    simp only [anyBrokenList, Bool.or_eq_true] at h
    simp only [allRegularList, Bool.and_eq_false_iff]
    rcases h with h | h
    · exact Or.inl (ih c (List.mem_cons_self _ _) h)
    · exact Or.inr (ihl (fun c hc => ih c (List.mem_cons_of_mem _ hc)) h)

theorem brokenSynthetic_not_regular {F : Type} (n : aiNode F) (h : n.brokenSynthetic = true) :
    n.regular = false := by
  unfold aiNode.brokenSynthetic at h
  unfold aiNode.regular
  cases hpos : strFind marker n.mName with
  | none => rw [hpos] at h; exact Bool.noConfusion h
  | some pos =>
    rw [hpos] at h
    simp only at h ⊢
    match hc : n.mChildren with
    | [] => simp
    | _ :: _ :: _ => simp
    | [child] =>
      rw [hc] at h
      simp only at h
      simp only [Bool.and_eq_false_iff]
      right
      simpa using h

/-- A tree with a broken synthetic node is not regular. -/
theorem anyBroken_not_allRegular {F : Type} :
    ∀ (node : aiNode F), node.anyBroken = true → node.allRegular = false := by
  intro node
  induction node using aiNode.induction with
  | h name t ms children ih =>
    intro h
    unfold aiNode.anyBroken at h
    unfold aiNode.allRegular
    simp only [Bool.or_eq_true] at h
    simp only [Bool.and_eq_false_iff]
    rcases h with h | h
    · exact Or.inl (brokenSynthetic_not_regular _ h)
    · exact Or.inr (anyBrokenList_of children ih h)

/-! ## Bone indices -/

theorem StdMap.size_assign_of_none {K V : Type} [DecidableEq K] [KeyOrder K] (m : StdMap K V)
    (k : K) (v : V) (h : StdMap.find m k = none) :
    StdMap.size (StdMap.assign m k v) = StdMap.size m + 1 := by
  unfold StdMap.assign StdMap.size
  rw [h]
  simpa using (StdMap.perm_insertOrdered m k v).length_eq

theorem StdMap.mem_keys_assign {K V : Type} [DecidableEq K] [KeyOrder K] (m : StdMap K V)
    (k : K) (v : V) (x : K) (h : x ∈ StdMap.keys (StdMap.assign m k v)) :
    x = k ∨ x ∈ StdMap.keys m := by
  by_cases hx : x = k
  · exact Or.inl hx
  · right
    by_contra hc
    have h1 := (StdMap.find_eq_none_iff m x).2 hc
    rw [← StdMap.find_assign_ne m v hx] at h1
    exact (StdMap.find_eq_none_iff _ x).1 h1 h

theorem BoneTables_withBone {F : Type} (L : List Str) (st : ImporterState F) (x : Str)
    (h : BoneTables L st) (hx : x ∉ L) :
    BoneTables (L ++ [x]) (st.withBone x) ∧ st.m_boneToIndex.size = L.length := by
  obtain ⟨h1, h2, h3⟩ := h
  have hnone : StdMap.find st.m_boneToIndex x = none := by
    rw [StdMap.find_eq_none_iff]
    exact fun hk => hx (h2 x hk)
  refine ⟨⟨?_, ?_, ?_⟩, h1⟩
  · show StdMap.size (StdMap.assign st.m_boneToIndex x st.m_boneToIndex.size) = _
    rw [StdMap.size_assign_of_none _ _ _ hnone, h1]
    simp
  · intro k hk
    rcases StdMap.mem_keys_assign _ _ _ k hk with e | e
    · simp [e]
    · simp [h2 k e]
  · intro i y hy
    show StdMap.find (StdMap.assign st.m_boneToIndex x st.m_boneToIndex.size) y = some i ∧
      StdMap.find (StdMap.assign st.m_indexToBone st.m_boneToIndex.size x) i = some y
    rw [List.get?_eq_getElem?] at hy
    by_cases hi : i < L.length
    · rw [List.getElem?_append_left hi] at hy
      have hyL : y ∈ L := List.getElem?_mem hy
      have hne : y ≠ x := fun e => hx (e ▸ hyL)
      have hine : i ≠ st.m_boneToIndex.size := by rw [h1]; omega
      rw [StdMap.find_assign_ne _ _ hne, StdMap.find_assign_ne _ _ hine]
      exact h3 i y (by rw [List.get?_eq_getElem?]; exact hy)
    · rw [List.getElem?_append_right (by omega)] at hy
      have hi0 : i - L.length = 0 := by
        by_contra hc
        have : i - L.length ≥ 1 := by omega
        rw [List.getElem?_eq_none (by simp; omega)] at hy
        exact Option.noConfusion hy
      rw [hi0] at hy
      simp only [List.getElem?_cons_zero, Option.some.injEq] at hy
      have hie : i = st.m_boneToIndex.size := by rw [h1]; omega
      subst hy
      rw [hie]
      exact ⟨StdMap.find_assign_self _ _ _, StdMap.find_assign_self _ _ _⟩

theorem buildChildren_bones_of {F : Type} (ops : FloatOps F) (fileScale : F)
    (l : List (aiNode F))
    (ih : ∀ c ∈ l, ∀ st r st' L, buildModelTree ops fileScale c st = some (r, st') →
      BoneTables L st → (L ++ r.names).Nodup →
      BoneTables (L ++ r.names) st' ∧ r.indices = List.range' L.length r.nodes.length) :
    ∀ st rs st' L, buildChildren ops fileScale l st = some (rs, st') →
      BoneTables L st → (L ++ (nodesList rs).map ModelNode.name).Nodup →
      BoneTables (L ++ (nodesList rs).map ModelNode.name) st' ∧
        (nodesList rs).map ModelNode.index = List.range' L.length (nodesList rs).length := by
  induction l with
  | nil =>
    intro st rs st' L h hb _
    obtain ⟨e1, e2⟩ := buildChildren_inv_nil ops fileScale st st' rs h
    subst e1 e2
    simpa [nodesList] using hb
  | cons child rest ihl =>
    intro st rs st' L h hb hnd
    obtain ⟨c, st1, cs, hc, hr, e⟩ := buildChildren_inv_cons ops fileScale child rest st st' rs h
    subst e
    simp only [nodesList, List.map_append] at hnd ⊢
    rw [← List.append_assoc] at hnd ⊢
    obtain ⟨b1, i1⟩ := ih child (List.mem_cons_self _ _) st c st1 L hc hb
      (List.Nodup.of_append_left hnd)
    obtain ⟨b2, i2⟩ := ihl (fun c hc => ih c (List.mem_cons_of_mem _ hc)) st1 cs st'
      (L ++ c.names) hr b1 hnd
    refine ⟨b2, ?_⟩
    have i1' : List.map ModelNode.index c.nodes = List.range' L.length c.nodes.length := i1
    rw [i1', i2, List.length_append, List.length_append, ModelNode.names, List.length_map,
      ← List.range'_append]
    simp [Nat.add_comm]

/-- Bone indices continue the numbering of the names created so far. -/
theorem buildModelTree_bones {F : Type} (ops : FloatOps F) (fileScale : F) :
    ∀ (node : aiNode F) (st : ImporterState F) (r : ModelNode F) (st' : ImporterState F)
      (L : List Str),
      buildModelTree ops fileScale node st = some (r, st') →
      BoneTables L st → (L ++ r.names).Nodup →
      BoneTables (L ++ r.names) st' ∧ r.indices = List.range' L.length r.nodes.length := by
  intro node
  induction node using aiNode.induction with
  | h name t ms children ih =>
    intro st r st' L h hb hnd
    cases hpos : strFind marker name with
    | some pos =>
      obtain ⟨-, -, child, c, hch, -, hc, hr⟩ :=
        buildModelTree_inv_synthetic ops fileScale name t ms children st st' r pos hpos h
      subst hch
      rw [hr, ModelNode.names_setTransform] at hnd
      rw [hr, ModelNode.names_setTransform, ModelNode.indices_setTransform]
      have := ih child (List.mem_singleton_self _) _ c st' L hc hb hnd
      rw [ModelNode.nodes_setTransform]
      rw [ModelNode.nodes_eq c] at this
      exact this
    | none =>
      obtain ⟨cs, hc, hr⟩ :=
        buildModelTree_inv_plain ops fileScale name t ms children st st' r hpos h
      subst hr
      have hnames : (ModelNode.mk name (scaleTranslation ops fileScale (ConvertMatrix t)) false
          st.m_boneToIndex.size ms cs).names = name :: (nodesList cs).map ModelNode.name := rfl
      rw [hnames] at hnd ⊢
      have hx : name ∉ L := by
        intro hin
        rw [List.nodup_append] at hnd
        exact hnd.2.2 hin (List.mem_cons_self _ _)
      obtain ⟨hb1, hsize⟩ := BoneTables_withBone L st name hb hx
      have e : L ++ name :: (nodesList cs).map ModelNode.name
          = (L ++ [name]) ++ (nodesList cs).map ModelNode.name := by simp
      rw [e] at hnd ⊢
      obtain ⟨b2, i2⟩ := buildChildren_bones_of ops fileScale children ih _ cs st' (L ++ [name])
        hc hb1 hnd
      refine ⟨b2, ?_⟩
      show st.m_boneToIndex.size :: (nodesList cs).map ModelNode.index = _
      rw [i2, hsize]
      simp [ModelNode.nodes, List.range'_succ]

/-! ## Further claims about `buildModelTree` -/

/-- C11, counterexample.  In `sampleTree` the importer node `A` has the
identity as its local matrix and no marker in its name, but it is the end of
a pivot chain: the output node named `A` carries the product with the
matrices of the chain, a translation by `(2, 4, 6)` for file scale 2, and no
output node carries the name `A` and the scaled local matrix of `A`. -/
theorem buildModelTree_chain_end_counterexample :
    (buildModelTree intOps 2 sampleTree (emptyState Int)).map (fun r =>
      r.1.nodes.map (fun n => (n.name, decide (n.transform
        = scaleTranslation intOps 2 (ConvertMatrix (aiTranslation 0 0 0))))))
      = some [("Root".toList, true), (['A'], false)] := by
  decide

/-- C11, as amended.  For every importer node whose name does not contain the
marker and which is not the child of a synthetic node (the root of the tree,
or a child of a non-synthetic node), the tree that `buildModelTree` returns
contains a node with that name whose transform is the importer node's matrix
with the entries `m[0][3]`, `m[1][3]`, `m[2][3]` multiplied by `fileScale` and
every other entry unchanged. -/
theorem buildModelTree_keeps_direct_transform {F : Type} (ops : FloatOps F) (fileScale : F)
    (tree : aiNode F) (st st' : ImporterState F) (root : ModelNode F)
    (hbuild : buildModelTree ops fileScale tree st = some (root, st')) :
    (∀ e ∈ tree.directEntries ops fileScale false,
      ∃ n ∈ root.nodes, n.name = e.1 ∧ n.transform = e.2) ∧
    (∀ name t ms children under,
      (aiNode.mk name t ms children).directEntries ops fileScale under
        = if (strFind marker name).isSome then directEntriesList ops fileScale true children
          else (if under then [] else
              [(name, ⟨t.a1, t.a2, t.a3, ops.mul t.a4 fileScale, t.b1, t.b2, t.b3,
                ops.mul t.b4 fileScale, t.c1, t.c2, t.c3, ops.mul t.c4 fileScale,
                t.d1, t.d2, t.d3, t.d4⟩)])
            ++ directEntriesList ops fileScale false children) :=
  ⟨(buildModelTree_direct ops fileScale tree st root st' hbuild).2,
    fun name t ms children under => by rw [aiNode.directEntries]; rfl⟩

/-- C11, witness: `sampleTree` with file scale 2; its root is the one node
that is neither synthetic nor the child of a synthetic node. -/
theorem buildModelTree_keeps_direct_transform_witness :
    buildModelTree intOps 2 sampleTree (emptyState Int) = some (sampleRoot, sampleState) ∧
    sampleTree.directEntries intOps 2 false
      = [("Root".toList, ⟨1, 0, 0, 0, 0, 1, 0, 0, 0, 0, 1, 0, 0, 0, 0, 1⟩)] ∧
    ∀ e ∈ sampleTree.directEntries intOps 2 false,
      ∃ n ∈ sampleRoot.nodes, n.name = e.1 ∧ n.transform = e.2 :=
  ⟨rfl, by decide,
    (buildModelTree_keeps_direct_transform intOps 2 sampleTree (emptyState Int) sampleState
      sampleRoot rfl).1⟩

/-- C12.  For every importer tree on which `buildModelTree` succeeds, no node
of the output tree has a name that contains the marker; the names of the
output nodes are, in pre-order, the names of the non-synthetic importer nodes,
so that the output has exactly one node per non-synthetic importer node; and
the shape of the output tree is the one of the importer tree in which every
synthetic node is replaced by the result for its single child, the children
of every node being kept in importer order. -/
theorem buildModelTree_drops_synthetic_nodes {F : Type} (ops : FloatOps F) (fileScale : F)
    (tree : aiNode F) (st st' : ImporterState F) (root : ModelNode F)
    (hbuild : buildModelTree ops fileScale tree st = some (root, st')) :
    (∀ n ∈ root.nodes, strFind marker n.name = none) ∧
    root.names = tree.plainNames ∧
    root.nodes.length = tree.plainNames.length ∧
    tree.collapsedShape = some root.shape := by
  obtain ⟨h1, h2⟩ := buildModelTree_names_shape ops fileScale tree st root st' hbuild
  refine ⟨?_, h1, ?_, h2.symm⟩
  · intro n hn
    apply plainNames_markerfree tree
    rw [← h1]
    exact List.mem_map_of_mem ModelNode.name hn
  · rw [← h1, ModelNode.names, List.length_map]

/-- C12, witness: `sampleTree` with file scale 2. -/
theorem buildModelTree_drops_synthetic_nodes_witness :
    buildModelTree intOps 2 sampleTree (emptyState Int) = some (sampleRoot, sampleState) ∧
    (∀ n ∈ sampleRoot.nodes, strFind marker n.name = none) ∧
    sampleRoot.names = sampleTree.plainNames ∧
    sampleRoot.nodes.length = sampleTree.plainNames.length ∧
    sampleTree.collapsedShape = some sampleRoot.shape :=
  ⟨rfl, buildModelTree_drops_synthetic_nodes intOps 2 sampleTree (emptyState Int) sampleState
    sampleRoot rfl⟩

/-- C13, counterexample.  The two synthetic nodes of `twinPivotTree` are both
named `X_$AssimpFbx$_Rotation`.  After `buildModelTree` the pivot map holds
under `X` and `Rotation` the matrix of the second one, not the matrix of the
first. -/
theorem buildModelTree_twin_pivot_counterexample :
    (buildModelTree intOps 1 twinPivotTree (emptyState Int)).map (fun r =>
      (decide (PivotMap.lookup r.2.m_nodeTransformations ['X'] roleRotation
          = some (scaleTranslation intOps 1 (ConvertMatrix (aiTranslation 1 0 0)))),
        decide (PivotMap.lookup r.2.m_nodeTransformations ['X'] roleRotation
          = some (scaleTranslation intOps 1 (ConvertMatrix (aiTranslation 2 0 0))))))
      = some (false, true) := by
  decide

/-- C13, as amended.  After `buildModelTree` on a tree, from an empty pivot
map, the pivot map is the result of recording the synthetic nodes in
pre-order, each with the true name and role read off its name and its own
local matrix with the translation column multiplied by `fileScale`.  For a
synthetic node that no synthetic node visited later shares true name and
role with, the map holds that node's matrix under its true name and role;
every inner key of the map is one of `Translation`, `PreRotation`,
`Rotation`, `PostRotation`, `Scaling`; and every key of the map is the true
name of a synthetic node of the tree. -/
theorem buildModelTree_records_pivots {F : Type} (ops : FloatOps F) (fileScale : F)
    (tree : aiNode F) (st st' : ImporterState F) (root : ModelNode F)
    (hempty : st.m_nodeTransformations = [])
    (hbuild : buildModelTree ops fileScale tree st = some (root, st')) :
    st'.m_nodeTransformations = recordAll [] (tree.syntheticEntries ops fileScale) ∧
    (∀ pre t r x post, tree.syntheticEntries ops fileScale = pre ++ (t, r, x) :: post →
      (∀ e ∈ post, ¬ (e.1 = t ∧ e.2.1 = r)) →
      PivotMap.lookup st'.m_nodeTransformations t r = some x) ∧
    (∀ p ∈ st'.m_nodeTransformations, ∀ k ∈ StdMap.keys p.2, k ∈ DummyNodeNames) ∧
    (∀ k ∈ StdMap.keys st'.m_nodeTransformations,
      ∃ e ∈ tree.syntheticEntries ops fileScale, e.1 = k) := by
  have hp := buildModelTree_pivots ops fileScale tree st root st' hbuild
  rw [hempty] at hp
  have hwf : PivotsWF st'.m_nodeTransformations := by
    apply buildModelTree_wf ops fileScale tree st root st' _ hbuild
    rw [hempty]
    exact ⟨List.nodup_nil, fun k hk => absurd hk (List.not_mem_nil _)⟩
  refine ⟨hp, ?_, ?_, ?_⟩
  · intro pre t r x post he hpost
    rw [hp, lookup_recordAll, he]
    exact lastRecorded_of_last pre post t r x _ hpost
  · intro p hp1 k hk
    have hfind : StdMap.find st'.m_nodeTransformations p.1 = some p.2 :=
      StdMap.find_of_mem_nodup hwf.1 hp1
    cases hk2 : StdMap.find p.2 k with
    | none => exact absurd hk ((StdMap.find_eq_none_iff p.2 k).1 hk2)
    | some x =>
      have hl : PivotMap.lookup st'.m_nodeTransformations p.1 k = some x := by
        unfold PivotMap.lookup
        rw [hfind]
        exact hk2
      rw [hp, lookup_recordAll] at hl
      rcases lastRecorded_some _ _ _ _ x hl with h0 | ⟨e, he, -, h2, -⟩
      · exact Option.noConfusion h0
      · rw [← h2]
        exact buildModelTree_roles ops fileScale tree st root st' hbuild e he
  · intro k hk
    have hne : StdMap.find (recordAll [] (tree.syntheticEntries ops fileScale)) k ≠ none := by
      rw [← hp]
      exact fun hc => (StdMap.find_eq_none_iff _ k).1 hc hk
    rcases find_recordAll_ne_none _ _ k hne with h0 | h1
    · exact absurd rfl h0
    · exact h1

/-- C13, witness: `sampleTree` with file scale 2, from the empty state. -/
theorem buildModelTree_records_pivots_witness :
    (emptyState Int).m_nodeTransformations = [] ∧
    buildModelTree intOps 2 sampleTree (emptyState Int) = some (sampleRoot, sampleState) ∧
    sampleState.m_nodeTransformations = recordAll [] (sampleTree.syntheticEntries intOps 2) ∧
    (∀ pre t r x post, sampleTree.syntheticEntries intOps 2 = pre ++ (t, r, x) :: post →
      (∀ e ∈ post, ¬ (e.1 = t ∧ e.2.1 = r)) →
      PivotMap.lookup sampleState.m_nodeTransformations t r = some x) ∧
    (∀ p ∈ sampleState.m_nodeTransformations, ∀ k ∈ StdMap.keys p.2, k ∈ DummyNodeNames) ∧
    (∀ k ∈ StdMap.keys sampleState.m_nodeTransformations,
      ∃ e ∈ sampleTree.syntheticEntries intOps 2, e.1 = k) :=
  ⟨rfl, rfl,
    buildModelTree_records_pivots intOps 2 sampleTree (emptyState Int) sampleState sampleRoot
      rfl rfl⟩

/-- C14.  The method `buildModelTree` fails on every tree that has a
synthetic node without exactly one child, or with a single child whose name
does not start with the synthetic node's true name; and it succeeds on every
tree in which all synthetic nodes have a role of the vocabulary, exactly one
child, and a child whose name starts with the true name.  It succeeds on no
other tree. -/
theorem buildModelTree_fails_iff_irregular {F : Type} (ops : FloatOps F) (fileScale : F)
    (tree : aiNode F) (st : ImporterState F) :
    (tree.anyBroken = true → buildModelTree ops fileScale tree st = none) ∧
    (tree.allRegular = true → ∃ r, buildModelTree ops fileScale tree st = some r) ∧
    ((buildModelTree ops fileScale tree st).isSome = tree.allRegular) := by
  have h := buildModelTree_isSome ops fileScale tree st
  refine ⟨?_, ?_, h⟩
  · intro hb
    rw [anyBroken_not_allRegular tree hb] at h
    cases hr : buildModelTree ops fileScale tree st with
    | none => rfl
    | some r => rw [hr] at h; exact Bool.noConfusion h
  · intro hr
    rw [hr] at h
    exact Option.isSome_iff_exists.1 h

/-- C14, witness: `forkedPivotTree` has a synthetic node with two children,
and all nodes of `sampleTree` are regular. -/
theorem buildModelTree_fails_iff_irregular_witness :
    forkedPivotTree.anyBroken = true ∧
    buildModelTree intOps 2 forkedPivotTree (emptyState Int) = none ∧
    sampleTree.allRegular = true ∧
    ∃ r, buildModelTree intOps 2 sampleTree (emptyState Int) = some r :=
  ⟨by decide,
    (buildModelTree_fails_iff_irregular intOps 2 forkedPivotTree (emptyState Int)).1 (by decide),
    by decide,
    (buildModelTree_fails_iff_irregular intOps 2 sampleTree (emptyState Int)).2.1 (by decide)⟩

/-- C15, counterexample.  The root of `homonymSiblings` has the children `X`,
`X` and `Y`.  The second `X` does not enlarge the name-to-index table, so
`Y` gets the index 2 that the second `X` already has: the indices are
`0, 1, 2, 2`. -/
theorem buildModelTree_homonym_index_counterexample :
    (buildModelTree intOps 1 homonymSiblings (emptyState Int)).map (fun r => r.1.indices)
      = some [0, 1, 2, 2] := by
  decide

/-- C15, as amended.  For every importer tree whose non-synthetic nodes have
pairwise distinct names, starting from an empty name-to-index table, the output
nodes have the indices `0, 1, ..., n-1` in pre-order, the order in which
`buildModelTree` creates them; so the index of a node is the number of nodes
created before it and all indices are distinct; and the name-to-index table
has `n` entries and the two tables map each node's name and index to each
other. -/
theorem buildModelTree_sequential_indices {F : Type} (ops : FloatOps F) (fileScale : F)
    (tree : aiNode F) (st st' : ImporterState F) (root : ModelNode F)
    (hb2i : st.m_boneToIndex = [])
    (hnames : tree.plainNames.Nodup)
    (hbuild : buildModelTree ops fileScale tree st = some (root, st')) :
    root.indices = List.range root.nodes.length ∧
    root.indices.Nodup ∧
    st'.m_boneToIndex.size = root.nodes.length ∧
    ∀ n ∈ root.nodes,
      StdMap.find st'.m_boneToIndex n.name = some n.index ∧
      StdMap.find st'.m_indexToBone n.index = some n.name := by
  obtain ⟨hn, -⟩ := buildModelTree_names_shape ops fileScale tree st root st' hbuild
  have hb0 : BoneTables [] st := by
    refine ⟨by rw [hb2i]; rfl, ?_, ?_⟩
    · intro k hk; rw [hb2i] at hk; exact absurd hk (List.not_mem_nil _)
    · intro i x hx; simp at hx
  have hnd : ([] ++ root.names).Nodup := by rw [List.nil_append, hn]; exact hnames
  obtain ⟨⟨s1, -, s3⟩, hidx⟩ := buildModelTree_bones ops fileScale tree st root st' [] hbuild hb0 hnd
  simp only [List.nil_append, List.length_nil] at s1 s3 hidx
  have hrange : root.indices = List.range root.nodes.length := by
    rw [hidx, List.range_eq_range']
  refine ⟨hrange, ?_, ?_, ?_⟩
  · rw [hrange]; exact List.nodup_range _
  · rw [s1, ModelNode.names, List.length_map]
  · intro n hnmem
    obtain ⟨i, hi⟩ := List.mem_iff_getElem?.1 hnmem
    have h1 : root.names.get? i = some n.name := by
      rw [List.get?_eq_getElem?, ModelNode.names, List.getElem?_map, hi]; rfl
    have h2 : root.indices[i]? = some n.index := by
      rw [ModelNode.indices, List.getElem?_map, hi]; rfl
    have hlt : i < root.nodes.length := by
      obtain ⟨h, -⟩ := List.getElem?_eq_some.1 hi
      exact h
    rw [hrange, List.getElem?_range hlt] at h2
    have hie : i = n.index := Option.some.inj h2
    rw [← hie]
    exact s3 i n.name h1

/-- C15, witness: `sampleTree` with file scale 2, from the empty state. -/
theorem buildModelTree_sequential_indices_witness :
    (emptyState Int).m_boneToIndex = [] ∧
    sampleTree.plainNames.Nodup ∧
    buildModelTree intOps 2 sampleTree (emptyState Int) = some (sampleRoot, sampleState) ∧
    sampleRoot.indices = List.range sampleRoot.nodes.length ∧
    sampleRoot.indices.Nodup ∧
    sampleState.m_boneToIndex.size = sampleRoot.nodes.length ∧
    ∀ n ∈ sampleRoot.nodes,
      StdMap.find sampleState.m_boneToIndex n.name = some n.index ∧
      StdMap.find sampleState.m_indexToBone n.index = some n.name :=
  ⟨rfl, by decide, rfl,
    buildModelTree_sequential_indices intOps 2 sampleTree (emptyState Int) sampleState sampleRoot
      rfl (by decide) rfl⟩

/-! ## The vertex loop of `ParseMesh` -/

theorem vertexStep_some {F : Type} (ops : FloatOps F) (ord : FloatOrder F) (fileScale : F)
    (m : aiMesh F) (has_uv load_tangent : Bool) (s s1 : VertexBuffers F) (j : Nat)
    (v : Vector3 F)
    (h : vertexStep ops ord fileScale m has_uv load_tangent s j v = some s1) :
    ∃ n uvs ts, readAt m.mNormals j = some n ∧ uvValues m has_uv j = some uvs ∧
      tangentValues m load_tangent j = some ts ∧
      s1 = { vmin := ⟨lowerTo ord s.vmin.x (ops.mul v.x fileScale),
                lowerTo ord s.vmin.y (ops.mul v.y fileScale),
                lowerTo ord s.vmin.z (ops.mul v.z fileScale)⟩
             vmax := ⟨raiseTo ord s.vmax.x (ops.mul v.x fileScale),
                raiseTo ord s.vmax.y (ops.mul v.y fileScale),
                raiseTo ord s.vmax.z (ops.mul v.z fileScale)⟩
             positionBuffer := s.positionBuffer ++
               [ops.mul v.x fileScale, ops.mul v.y fileScale, ops.mul v.z fileScale]
             normalBuffer := s.normalBuffer ++ [n.x, n.y, n.z]
             uvBuffer := s.uvBuffer ++ uvs
             tangentBuffer := s.tangentBuffer ++ ts } := by
  unfold vertexStep at h
  cases hn : readAt m.mNormals j with
  | none => rw [hn] at h; exact Option.noConfusion h
  | some n =>
    rw [hn] at h
    cases hu : uvValues m has_uv j with
    | none => rw [hu] at h; exact Option.noConfusion h
    | some uvs =>
      rw [hu] at h
      cases ht : tangentValues m load_tangent j with
      | none => rw [ht] at h; exact Option.noConfusion h
      | some ts =>
        rw [ht] at h
        simp only [Option.some.injEq] at h
        exact ⟨n, uvs, ts, rfl, rfl, rfl, h.symm⟩

theorem uvValues_length {F : Type} (m : aiMesh F) (has_uv : Bool) (j : Nat) (uvs : List F)
    (h : uvValues m has_uv j = some uvs) : uvs.length = if has_uv then 2 else 0 := by
  unfold uvValues at h
  cases has_uv with
  | false => simp at h; simp [← h]
  | true =>
    simp only [if_true] at h
    obtain ⟨uv, -, e⟩ := Option.map_eq_some'.1 h
    simp [← e]

theorem tangentValues_length {F : Type} (m : aiMesh F) (load_tangent : Bool) (j : Nat)
    (ts : List F) (h : tangentValues m load_tangent j = some ts) :
    ts.length = if load_tangent then 3 else 0 := by
  unfold tangentValues at h
  cases load_tangent with
  | false => simp at h; simp [← h]
  | true =>
    simp only [if_true] at h
    obtain ⟨t, -, e⟩ := Option.map_eq_some'.1 h
    simp [← e]

/-- What the vertex loop leaves in the buffers and in the two corners of the
bounding box. -/
theorem vertexLoop_spec {F : Type} (ops : FloatOps F) (ord : FloatOrder F) (fileScale : F)
    (m : aiMesh F) (has_uv load_tangent : Bool) (vs : List (Vector3 F)) :
    ∀ (j : Nat) (s s' : VertexBuffers F),
      vertexLoop ops ord fileScale m has_uv load_tangent vs j s = some s' →
      s'.positionBuffer = s.positionBuffer ++ vs.flatMap (fun v =>
        [ops.mul v.x fileScale, ops.mul v.y fileScale, ops.mul v.z fileScale]) ∧
      s'.normalBuffer.length = s.normalBuffer.length + 3 * vs.length ∧
      s'.uvBuffer.length = s.uvBuffer.length + (if has_uv then 2 else 0) * vs.length ∧
      s'.tangentBuffer.length
        = s.tangentBuffer.length + (if load_tangent then 3 else 0) * vs.length ∧
      s'.vmin.x = (vs.map (fun v => ops.mul v.x fileScale)).foldl (lowerTo ord) s.vmin.x ∧
      s'.vmin.y = (vs.map (fun v => ops.mul v.y fileScale)).foldl (lowerTo ord) s.vmin.y ∧
      s'.vmin.z = (vs.map (fun v => ops.mul v.z fileScale)).foldl (lowerTo ord) s.vmin.z ∧
      s'.vmax.x = (vs.map (fun v => ops.mul v.x fileScale)).foldl (raiseTo ord) s.vmax.x ∧
      s'.vmax.y = (vs.map (fun v => ops.mul v.y fileScale)).foldl (raiseTo ord) s.vmax.y ∧
      s'.vmax.z = (vs.map (fun v => ops.mul v.z fileScale)).foldl (raiseTo ord) s.vmax.z := by
  induction vs with
  | nil =>
    intro j s s' h
    simp only [vertexLoop, Option.some.injEq] at h
    subst h
    simp
  | cons v rest ih =>
    intro j s s' h
    rw [vertexLoop] at h
    cases hs : vertexStep ops ord fileScale m has_uv load_tangent s j v with
    | none => rw [hs] at h; exact Option.noConfusion h
    | some s1 =>
      rw [hs] at h
      simp only at h
      obtain ⟨n, uvs, ts, -, hu, ht, e⟩ :=
        vertexStep_some ops ord fileScale m has_uv load_tangent s s1 j v hs
      obtain ⟨p1, p2, p3, p4, a1, a2, a3, b1, b2, b3⟩ := ih (j + 1) s1 s' h
      have lu := uvValues_length m has_uv j uvs hu
      have lt := tangentValues_length m load_tangent j ts ht
      subst e
      simp only [List.length_append, List.length_cons, List.length_nil] at p2 p3 p4
      refine ⟨?_, ?_, ?_, ?_, ?_, ?_, ?_, ?_, ?_, ?_⟩
      · rw [p1]; simp [List.flatMap_cons]
      · rw [p2]; simp only [List.length_cons]; omega
      · rw [p3, lu, List.length_cons, Nat.mul_succ]; omega
      · rw [p4, lt, List.length_cons, Nat.mul_succ]; omega
      · rw [a1]; rfl
      · rw [a2]; rfl
      · rw [a3]; rfl
      · rw [b1]; rfl
      · rw [b2]; rfl
      · rw [b3]; rfl

/-- The vertex loop completes when all its reads are valid. -/
theorem vertexLoop_isSome {F : Type} (ops : FloatOps F) (ord : FloatOrder F) (fileScale : F)
    (m : aiMesh F) (has_uv load_tangent : Bool) (vs : List (Vector3 F)) :
    ∀ (j : Nat) (s : VertexBuffers F),
      (∀ i < vs.length, (readAt m.mNormals (j + i)).isSome = true) →
      (has_uv = true → ∀ i < vs.length, (readAt m.mTextureCoords0 (j + i)).isSome = true) →
      (load_tangent = true → ∀ i < vs.length, (readAt m.mTangents (j + i)).isSome = true) →
      (vertexLoop ops ord fileScale m has_uv load_tangent vs j s).isSome = true := by
  induction vs with
  | nil => intro j s _ _ _; rfl
  | cons v rest ih =>
    intro j s hn hu ht
    rw [vertexLoop]
    obtain ⟨n, hn0⟩ := Option.isSome_iff_exists.1 (hn 0 (by simp))
    have hu0 : ∃ uvs, uvValues m has_uv j = some uvs := by
      unfold uvValues
      cases hb : has_uv with
      | false => exact ⟨[], by simp⟩
      | true =>
        obtain ⟨uv, huv⟩ := Option.isSome_iff_exists.1 (hu hb 0 (by simp))
        simp only [Nat.add_zero] at huv
        exact ⟨[uv.x, uv.y], by simp [huv]⟩
    have ht0 : ∃ ts, tangentValues m load_tangent j = some ts := by
      unfold tangentValues
      cases hb : load_tangent with
      | false => exact ⟨[], by simp⟩
      | true =>
        obtain ⟨t, htv⟩ := Option.isSome_iff_exists.1 (ht hb 0 (by simp))
        simp only [Nat.add_zero] at htv
        exact ⟨[t.x, t.y, t.z], by simp [htv]⟩
    obtain ⟨uvs, hu1⟩ := hu0
    obtain ⟨ts, ht1⟩ := ht0
    simp only [Nat.add_zero] at hn0
    have hstep : ∃ s1, vertexStep ops ord fileScale m has_uv load_tangent s j v = some s1 := by
      unfold vertexStep
      rw [hn0, hu1, ht1]
      exact ⟨_, rfl⟩
    obtain ⟨s1, hs1⟩ := hstep
    rw [hs1]
    apply ih (j + 1) s1
    · intro i hi
      have := hn (i + 1) (by simp; omega)
      rwa [show j + (i + 1) = j + 1 + i by omega] at this
    · intro hb i hi
      have := hu hb (i + 1) (by simp; omega)
      rwa [show j + (i + 1) = j + 1 + i by omega] at this
    · intro hb i hi
      have := ht hb (i + 1) (by simp; omega)
      rwa [show j + (i + 1) = j + 1 + i by omega] at this

/-! ## The face loop and the bone loop of `ParseMesh` -/

/-- The face loop completes exactly when every face has 3 indices, and then
appends the indices of the faces, face after face. -/
theorem faceLoop_spec : ∀ (fs : List aiFace) (buffer : List Nat),
    (faceLoop fs buffer).isSome = true ↔ ∀ f ∈ fs, f.mIndices.length = 3 := by
  intro fs
  induction fs with
  | nil => intro buffer; simp [faceLoop]
  | cons f rest ih =>
    intro buffer
    rw [faceLoop]
    by_cases h3 : f.mIndices.length = 3
    · rw [if_pos h3, ih]
      simp [h3]
    · rw [if_neg h3]
      simp [h3]

theorem faceLoop_some : ∀ (fs : List aiFace) (buffer r : List Nat),
    faceLoop fs buffer = some r →
    r = buffer ++ fs.flatMap (fun f => f.mIndices) ∧ r.length = buffer.length + 3 * fs.length := by
  intro fs
  induction fs with
  | nil =>
    intro buffer r h
    simp only [faceLoop, Option.some.injEq] at h
    subst h
    simp
  | cons f rest ih =>
    intro buffer r h
    rw [faceLoop] at h
    by_cases h3 : f.mIndices.length = 3
    · rw [if_pos h3] at h
      obtain ⟨e, l⟩ := ih _ _ h
      refine ⟨?_, ?_⟩
      · rw [e]; simp [List.flatMap_cons]
      · rw [l, List.length_append, h3, List.length_cons]; omega
    · rw [if_neg h3] at h
      exact Option.noConfusion h

/-- The weight loop completes when every vertex index is in range; it keeps
the number of accumulators, and leaves alone every vertex that the bone does
not refer to. -/
theorem weightLoop_spec {F : Type} (boneIndex : Nat) :
    ∀ (ws : List (aiVertexWeight F)) (bw : List (BoneWeight F)),
      (∀ w ∈ ws, w.mVertexId < bw.length) →
      ∃ bw1, weightLoop boneIndex ws bw = some bw1 ∧ bw1.length = bw.length ∧
        ∀ i, i ∉ ws.map (fun w => w.mVertexId) → bw1.get? i = bw.get? i := by
  intro ws
  induction ws with
  | nil => intro bw _; exact ⟨bw, rfl, rfl, fun _ _ => rfl⟩
  | cons w rest ih =>
    intro bw hr
    have hw : w.mVertexId < bw.length := hr w (List.mem_cons_self _ _)
    rw [weightLoop]
    obtain ⟨b, hb⟩ : ∃ b, bw.get? w.mVertexId = some b :=
      ⟨bw.get ⟨w.mVertexId, hw⟩, List.get?_eq_get hw⟩
    rw [hb]
    obtain ⟨bw1, e, l, u⟩ := ih (bw.set w.mVertexId (b.AddBoneData boneIndex w.mWeight))
      (by intro w1 h1; rw [List.length_set]; exact hr w1 (List.mem_cons_of_mem _ h1))
    refine ⟨bw1, e, by rw [l, List.length_set], ?_⟩
    intro i hi
    rw [List.map_cons, List.mem_cons, not_or] at hi
    rw [u i hi.2]
    simp only [List.get?_eq_getElem?]
    rw [List.getElem?_set_ne (fun h => hi.1 h.symm)]

/-- The weight loop completes only when every vertex index is in range. -/
theorem weightLoop_range {F : Type} (boneIndex : Nat) :
    ∀ (ws : List (aiVertexWeight F)) (bw bw1 : List (BoneWeight F)),
      weightLoop boneIndex ws bw = some bw1 → ∀ w ∈ ws, w.mVertexId < bw.length := by
  intro ws
  induction ws with
  | nil => intro bw bw1 _ w hw; exact absurd hw (List.not_mem_nil _)
  | cons w0 rest ih =>
    intro bw bw1 h w hw
    rw [weightLoop] at h
    cases hb : bw.get? w0.mVertexId with
    | none => rw [hb] at h; exact Option.noConfusion h
    | some b =>
      rw [hb] at h
      simp only at h
      rcases List.mem_cons.1 hw with rfl | hin
      · rw [List.get?_eq_getElem?] at hb
        exact (List.getElem?_eq_some_iff.1 hb).1
      · have := ih _ _ h w hin
        rwa [List.length_set] at this

/-- Under distinct vertex indices, the weight loop adds one influence to the
accumulator of every vertex that the bone refers to. -/
theorem weightLoop_single {F : Type} (boneIndex : Nat) :
    ∀ (ws : List (aiVertexWeight F)) (bw bw1 : List (BoneWeight F)),
      weightLoop boneIndex ws bw = some bw1 →
      (ws.map (fun w => w.mVertexId)).Nodup →
      ∀ w ∈ ws, bw1.get? w.mVertexId
        = (bw.get? w.mVertexId).map (fun b => b.AddBoneData boneIndex w.mWeight) := by
  intro ws
  induction ws with
  | nil => intro bw bw1 _ _ w hw; exact absurd hw (List.not_mem_nil _)
  | cons w0 rest ih =>
    intro bw bw1 h hd w hw
    have hlt : w0.mVertexId < bw.length :=
      weightLoop_range boneIndex _ bw bw1 h w0 (List.mem_cons_self _ _)
    rw [weightLoop] at h
    cases hb : bw.get? w0.mVertexId with
    | none => rw [hb] at h; exact Option.noConfusion h
    | some b =>
      rw [hb] at h
      simp only at h
      rw [List.map_cons, List.nodup_cons] at hd
      rcases List.mem_cons.1 hw with rfl | hin
      · obtain ⟨bw2, e, -, u⟩ := weightLoop_spec boneIndex rest _
          (weightLoop_range boneIndex rest _ bw1 h)
        rw [e] at h
        simp only [Option.some.injEq] at h
        subst h
        rw [u _ hd.1, hb]
        simp only [List.get?_eq_getElem?, Option.map_some']
        rw [List.getElem?_set_self hlt]
      · have hne : w.mVertexId ≠ w0.mVertexId := by
          intro e
          exact hd.1 (e ▸ List.mem_map_of_mem (fun w => w.mVertexId) hin)
        rw [ih _ _ h hd.2 w hin]
        simp only [List.get?_eq_getElem?]
        rw [List.getElem?_set_ne (fun e => hne e.symm)]

/-! ### The bone loop -/

theorem StdMap.size_assign_le {K V : Type} [DecidableEq K] [KeyOrder K]
    (m : StdMap K V) (k : K) (v : V) :
    StdMap.size (StdMap.assign m k v) ≤ StdMap.size m + 1 := by
  cases h : StdMap.find m k with
  | none => exact Nat.le_of_eq (StdMap.size_assign_of_none m k v h)
  | some a =>
    have e : StdMap.size (StdMap.assign m k v) = StdMap.size m := by
      unfold StdMap.assign
      rw [h]
      have := congrArg List.length (StdMap.keys_replace m k v)
      simpa [StdMap.keys, StdMap.size] using this
    omega

/-- The bone loop completes when every vertex index is in range; it keeps the
number of accumulators and of bind poses, and adds at most one name per
bone. -/
theorem boneLoop_spec {F : Type} (ops : FloatOps F) (fileScale : F) :
    ∀ (bs : List (aiBone F)) (k0 : Nat) (s : SkinData F),
      (∀ b ∈ bs, ∀ w ∈ b.mWeights, w.mVertexId < s.boneWeights.length) →
      ∃ s1, boneLoop ops fileScale bs k0 s = some s1 ∧
        s1.boneWeights.length = s.boneWeights.length ∧
        s1.bindposes.length = s.bindposes.length ∧
        s1.boneNameToIndex.size ≤ s.boneNameToIndex.size + bs.length ∧
        ∀ i, i ∉ bs.flatMap (fun b => b.mWeights.map (fun w => w.mVertexId)) →
          s1.boneWeights.get? i = s.boneWeights.get? i := by
  intro bs
  induction bs with
  | nil => intro k0 s _; exact ⟨s, rfl, rfl, rfl, Nat.le_refl _, fun _ _ => rfl⟩
  | cons b rest ih =>
    intro k0 s hr
    rw [boneLoop]
    obtain ⟨bw1, e, l, u⟩ := weightLoop_spec k0 b.mWeights s.boneWeights
      (hr b (List.mem_cons_self _ _))
    rw [e]
    simp only
    obtain ⟨s1, e1, l1, l2, l3, u1⟩ := ih (k0 + 1)
      { boneNameToIndex := StdMap.assign s.boneNameToIndex b.mName k0
        bindposes := s.bindposes.set k0
          (scaleTranslation ops fileScale (ConvertMatrix b.mOffsetMatrix))
        boneWeights := bw1 }
      (by intro b1 h1 w hw; simp only; rw [l]; exact hr b1 (List.mem_cons_of_mem _ h1) w hw)
    refine ⟨s1, e1, by rw [l1, l], by rw [l2, List.length_set], ?_, ?_⟩
    · have := StdMap.size_assign_le s.boneNameToIndex b.mName k0
      simp only [List.length_cons] at l3 ⊢
      omega
    · intro i hi
      rw [List.flatMap_cons, List.mem_append, not_or] at hi
      rw [u1 i hi.2]
      exact u i hi.1

/-- The bone loop completes only when every vertex index is in range. -/
theorem boneLoop_range {F : Type} (ops : FloatOps F) (fileScale : F) :
    ∀ (bs : List (aiBone F)) (k0 : Nat) (s s1 : SkinData F),
      boneLoop ops fileScale bs k0 s = some s1 →
      ∀ b ∈ bs, ∀ w ∈ b.mWeights, w.mVertexId < s.boneWeights.length := by
  intro bs
  induction bs with
  | nil => intro k0 s s1 _ b hb; exact absurd hb (List.not_mem_nil _)
  | cons b0 rest ih =>
    intro k0 s s1 h b hb w hw
    rw [boneLoop] at h
    cases e : weightLoop k0 b0.mWeights s.boneWeights with
    | none => rw [e] at h; exact Option.noConfusion h
    | some bw1 =>
      rw [e] at h
      simp only at h
      rcases List.mem_cons.1 hb with rfl | hin
      · exact weightLoop_range k0 _ _ _ e w hw
      · have := ih _ _ _ h b hin w hw
        simp only at this
        obtain ⟨bw2, e2, l2, -⟩ := weightLoop_spec k0 b0.mWeights s.boneWeights
          (weightLoop_range k0 _ _ _ e)
        rw [e] at e2
        simp only [Option.some.injEq] at e2
        subst e2
        rwa [l2] at this

/-- Under distinct vertex indices, the bone loop adds to the accumulator of
every vertex that a bone refers to one influence: the index of that bone and
the weight. -/
theorem boneLoop_single {F : Type} (ops : FloatOps F) (fileScale : F) :
    ∀ (bs : List (aiBone F)) (k0 : Nat) (s s1 : SkinData F),
      boneLoop ops fileScale bs k0 s = some s1 →
      (bs.flatMap (fun b => b.mWeights.map (fun w => w.mVertexId))).Nodup →
      ∀ p b, bs.get? p = some b → ∀ w ∈ b.mWeights,
        s1.boneWeights.get? w.mVertexId
          = (s.boneWeights.get? w.mVertexId).map (fun a => a.AddBoneData (k0 + p) w.mWeight) := by
  intro bs
  induction bs with
  | nil => intro k0 s s1 _ _ p b hp; simp at hp
  | cons b0 rest ih =>
    intro k0 s s1 h hd p b hp w hw
    have hrange := boneLoop_range ops fileScale _ k0 s s1 h
    rw [boneLoop] at h
    cases e : weightLoop k0 b0.mWeights s.boneWeights with
    | none => rw [e] at h; exact Option.noConfusion h
    | some bw1 =>
      rw [e] at h
      simp only at h
      rw [List.flatMap_cons, List.nodup_append] at hd
      obtain ⟨hd0, hdr, hdis⟩ := hd
      obtain ⟨bw2, e2, l2, u2⟩ := weightLoop_spec k0 b0.mWeights s.boneWeights
        (hrange b0 (List.mem_cons_self _ _))
      rw [e] at e2
      simp only [Option.some.injEq] at e2
      subst e2
      cases p with
      | zero =>
        simp only [List.get?_cons_zero, Option.some.injEq] at hp
        subst hp
        obtain ⟨s2, e3, -, -, -, u3⟩ := boneLoop_spec ops fileScale rest (k0 + 1) _
          (boneLoop_range ops fileScale rest (k0 + 1) _ s1 h)
        rw [h] at e3
        simp only [Option.some.injEq] at e3
        subst e3
        have hnot : w.mVertexId
            ∉ rest.flatMap (fun b => b.mWeights.map (fun w => w.mVertexId)) :=
          fun hm => hdis (List.mem_map_of_mem (fun w => w.mVertexId) hw) hm
        rw [u3 _ hnot]
        exact weightLoop_single k0 _ _ _ e hd0 w hw
      | succ q =>
        simp only [List.get?_cons_succ] at hp
        rw [ih _ _ _ h hdr q b hp w hw]
        have hnot : w.mVertexId ∉ b0.mWeights.map (fun w => w.mVertexId) := by
          intro hm
          refine hdis hm ?_
          rw [List.mem_flatMap]
          exact ⟨b, List.get?_mem hp, List.mem_map_of_mem (fun w => w.mVertexId) hw⟩
        simp only
        rw [u2 _ hnot, show k0 + 1 + q = k0 + (q + 1) by omega]

/-! ## The parts of `ParseMesh` -/

/-- A mesh that `ParseMesh` returns is put together from the results of the
vertex loop, the face loop and, for a mesh with bones, the bone loop. -/
theorem ParseMesh_some {F : Type} (ops : FloatOps F) (ord : FloatOrder F) (fileScale : F)
    (m : aiMesh F) (load_uv load_tangent : Bool) (mesh : Mesh F)
    (h : ParseMesh ops ord fileScale m load_uv load_tangent = some mesh) :
    ∃ vb indexBuffer,
      vertexLoop ops ord fileScale m m.HasTextureCoords0 load_tangent m.mVertices 0
        ⟨⟨ord.infinity, ord.infinity, ord.infinity⟩,
          ⟨ord.negativeInfinity, ord.negativeInfinity, ord.negativeInfinity⟩, [], [], [], []⟩
        = some vb ∧
      faceLoop m.mFaces [] = some indexBuffer ∧
      mesh.m_positionBuffer = vb.positionBuffer ∧ mesh.m_normalBuffer = vb.normalBuffer ∧
      mesh.m_uvBuffer = vb.uvBuffer ∧ mesh.m_tangentBuffer = vb.tangentBuffer ∧
      mesh.m_boundsMin = vb.vmin ∧ mesh.m_boundsMax = vb.vmax ∧
      mesh.m_indexBuffer = indexBuffer ∧
      mesh.m_skinned = decide (0 < m.mBones.length) ∧
      (0 < m.mBones.length →
        m.mBones.length ≤ MAX_BONE_SIZE ∧
        ∃ skin, boneLoop ops fileScale m.mBones 0
            ⟨[], List.replicate m.mBones.length ops.matDefault,
              List.replicate m.mVertices.length ⟨[]⟩⟩ = some skin ∧
          mesh.m_boneNameToIndex = skin.boneNameToIndex ∧
          mesh.m_bindposes = skin.bindposes ∧
          mesh.m_boneIndexBuffer = skin.boneWeights.map packIndices ∧
          mesh.m_boneWeightBuffer = skin.boneWeights.map (packWeights ops)) ∧
      (m.mBones.length = 0 →
        mesh.m_boneNameToIndex = [] ∧ mesh.m_bindposes = [] ∧
        mesh.m_boneIndexBuffer = [] ∧ mesh.m_boneWeightBuffer = []) := by
  unfold ParseMesh at h
  simp only at h
  cases hv : vertexLoop ops ord fileScale m m.HasTextureCoords0 load_tangent m.mVertices 0
      ⟨⟨ord.infinity, ord.infinity, ord.infinity⟩,
        ⟨ord.negativeInfinity, ord.negativeInfinity, ord.negativeInfinity⟩, [], [], [], []⟩ with
  | none => rw [hv] at h; exact Option.noConfusion h
  | some vb =>
    rw [hv] at h
    simp only at h
    cases hf : faceLoop m.mFaces [] with
    | none => rw [hf] at h; exact Option.noConfusion h
    | some indexBuffer =>
      rw [hf] at h
      simp only at h
      refine ⟨vb, indexBuffer, rfl, rfl, ?_⟩
      by_cases hb : 0 < m.mBones.length
      · rw [if_pos hb] at h
        by_cases hc : m.mBones.length ≤ MAX_BONE_SIZE
        · rw [if_pos hc] at h
          cases hs : boneLoop ops fileScale m.mBones 0
              ⟨[], List.replicate m.mBones.length ops.matDefault,
                List.replicate m.mVertices.length ⟨[]⟩⟩ with
          | none => rw [hs] at h; exact Option.noConfusion h
          | some skin =>
            rw [hs] at h
            simp only [Option.some.injEq] at h
            subst h
            refine ⟨rfl, rfl, rfl, rfl, rfl, rfl, rfl, by simp [hb], ?_, ?_⟩
            · intro _
              exact ⟨hc, skin, rfl, rfl, rfl, rfl, rfl⟩
            · intro h0; omega
        · rw [if_neg hc] at h
          exact Option.noConfusion h
      · rw [if_neg hb] at h
        simp only [Option.some.injEq] at h
        subst h
        refine ⟨rfl, rfl, rfl, rfl, rfl, rfl, rfl, by simp [hb], ?_, ?_⟩
        · intro h0; exact absurd h0 hb
        · intro _; exact ⟨rfl, rfl, rfl, rfl⟩

/-- The three ways in which `ParseMesh` fails. -/
theorem ParseMesh_eq_none {F : Type} (ops : FloatOps F) (ord : FloatOrder F) (fileScale : F)
    (m : aiMesh F) (load_uv load_tangent : Bool) :
    ParseMesh ops ord fileScale m load_uv load_tangent = none ↔
      vertexLoop ops ord fileScale m m.HasTextureCoords0 load_tangent m.mVertices 0
        ⟨⟨ord.infinity, ord.infinity, ord.infinity⟩,
          ⟨ord.negativeInfinity, ord.negativeInfinity, ord.negativeInfinity⟩, [], [], [], []⟩
        = none ∨
      faceLoop m.mFaces [] = none ∨
      MAX_BONE_SIZE < m.mBones.length ∨
      boneLoop ops fileScale m.mBones 0
        ⟨[], List.replicate m.mBones.length ops.matDefault,
          List.replicate m.mVertices.length ⟨[]⟩⟩ = none := by
  unfold ParseMesh
  simp only
  cases hv : vertexLoop ops ord fileScale m m.HasTextureCoords0 load_tangent m.mVertices 0
      ⟨⟨ord.infinity, ord.infinity, ord.infinity⟩,
        ⟨ord.negativeInfinity, ord.negativeInfinity, ord.negativeInfinity⟩, [], [], [], []⟩ with
  | none => simp
  | some vb =>
    simp only
    cases hf : faceLoop m.mFaces [] with
    | none => simp
    | some indexBuffer =>
      simp only
      by_cases hb : 0 < m.mBones.length
      · rw [if_pos hb]
        by_cases hc : m.mBones.length ≤ MAX_BONE_SIZE
        · rw [if_pos hc]
          cases hs : boneLoop ops fileScale m.mBones 0
              ⟨[], List.replicate m.mBones.length ops.matDefault,
                List.replicate m.mVertices.length ⟨[]⟩⟩ with
          | none => simp
          | some skin => simp; omega
        · rw [if_neg hc]
          simp
          left; omega
      · rw [if_neg hb]
        have h0 : m.mBones = [] := List.length_eq_zero.1 (by omega)
        simp [h0, boneLoop, MAX_BONE_SIZE]

/-! ## Running minimum and maximum -/

theorem lowerTo_spec {F : Type} [LinearOrder F] (ord : FloatOrder F)
    (hlt : ∀ a b, ord.lt a b = decide (a < b)) (a c : F) :
    (lowerTo ord a c = a ∨ lowerTo ord a c = c) ∧ lowerTo ord a c ≤ a ∧ lowerTo ord a c ≤ c := by
  unfold lowerTo
  rw [hlt]
  by_cases h : c < a
  · simp only [h, decide_True, if_true]
    exact ⟨Or.inr trivial, le_of_lt h, le_refl _⟩
  · simp only [h, decide_False, Bool.false_eq_true, if_false]
    exact ⟨Or.inl trivial, le_refl _, not_lt.1 h⟩

theorem raiseTo_spec {F : Type} [LinearOrder F] (ord : FloatOrder F)
    (hlt : ∀ a b, ord.lt a b = decide (a < b)) (a c : F) :
    (raiseTo ord a c = a ∨ raiseTo ord a c = c) ∧ a ≤ raiseTo ord a c ∧ c ≤ raiseTo ord a c := by
  unfold raiseTo
  rw [hlt]
  by_cases h : a < c
  · simp only [h, decide_True, if_true]
    exact ⟨Or.inr trivial, le_of_lt h, le_refl _⟩
  · simp only [h, decide_False, Bool.false_eq_true, if_false]
    exact ⟨Or.inl trivial, le_refl _, not_lt.1 h⟩

theorem foldl_lowerTo_spec {F : Type} [LinearOrder F] (ord : FloatOrder F)
    (hlt : ∀ a b, ord.lt a b = decide (a < b)) :
    ∀ (l : List F) (a : F),
      (l.foldl (lowerTo ord) a = a ∨ l.foldl (lowerTo ord) a ∈ l) ∧
      l.foldl (lowerTo ord) a ≤ a ∧ ∀ c ∈ l, l.foldl (lowerTo ord) a ≤ c := by
  intro l
  induction l with
  | nil => intro a; exact ⟨Or.inl rfl, le_refl _, fun c hc => absurd hc (List.not_mem_nil _)⟩
  | cons c rest ih =>
    intro a
    rw [List.foldl_cons]
    obtain ⟨h1, h2, h3⟩ := ih (lowerTo ord a c)
    obtain ⟨g1, g2, g3⟩ := lowerTo_spec ord hlt a c
    refine ⟨?_, le_trans h2 g2, ?_⟩
    · rcases h1 with e | hm
      · rcases g1 with ea | ec
        · exact Or.inl (e.trans ea)
        · exact Or.inr (by rw [e, ec]; exact List.mem_cons_self _ _)
      · exact Or.inr (List.mem_cons_of_mem _ hm)
    · intro c1 hc1
      rcases List.mem_cons.1 hc1 with rfl | hr
      · exact le_trans h2 g3
      · exact h3 c1 hr

theorem foldl_raiseTo_spec {F : Type} [LinearOrder F] (ord : FloatOrder F)
    (hlt : ∀ a b, ord.lt a b = decide (a < b)) :
    ∀ (l : List F) (a : F),
      (l.foldl (raiseTo ord) a = a ∨ l.foldl (raiseTo ord) a ∈ l) ∧
      a ≤ l.foldl (raiseTo ord) a ∧ ∀ c ∈ l, c ≤ l.foldl (raiseTo ord) a := by
  intro l
  induction l with
  | nil => intro a; exact ⟨Or.inl rfl, le_refl _, fun c hc => absurd hc (List.not_mem_nil _)⟩
  | cons c rest ih =>
    intro a
    rw [List.foldl_cons]
    obtain ⟨h1, h2, h3⟩ := ih (raiseTo ord a c)
    obtain ⟨g1, g2, g3⟩ := raiseTo_spec ord hlt a c
    refine ⟨?_, le_trans g2 h2, ?_⟩
    · rcases h1 with e | hm
      · rcases g1 with ea | ec
        · exact Or.inl (e.trans ea)
        · exact Or.inr (by rw [e, ec]; exact List.mem_cons_self _ _)
      · exact Or.inr (List.mem_cons_of_mem _ hm)
    · intro c1 hc1
      rcases List.mem_cons.1 hc1 with rfl | hr
      · exact le_trans g3 h2
      · exact h3 c1 hr

/-- The running minimum that starts at a value above all elements of a
list that is not empty ends at the minimum of the list. -/
theorem IsListMin_foldl {F : Type} [LinearOrder F] (ord : FloatOrder F)
    (hlt : ∀ a b, ord.lt a b = decide (a < b)) (l : List F) (a : F) (hl : l ≠ [])
    (ha : ∀ c ∈ l, c ≤ a) : IsListMin l (l.foldl (lowerTo ord) a) := by
  obtain ⟨h1, -, h3⟩ := foldl_lowerTo_spec ord hlt l a
  refine ⟨?_, h3⟩
  rcases h1 with e | hm
  · obtain ⟨c, hc⟩ := List.exists_mem_of_ne_nil l hl
    have : c = a := le_antisymm (ha c hc) (e ▸ h3 c hc)
    rw [e, ← this]
    exact hc
  · exact hm

/-- The running maximum that starts at a value below all elements of a
list that is not empty ends at the maximum of the list. -/
theorem IsListMax_foldl {F : Type} [LinearOrder F] (ord : FloatOrder F)
    (hlt : ∀ a b, ord.lt a b = decide (a < b)) (l : List F) (a : F) (hl : l ≠ [])
    (ha : ∀ c ∈ l, a ≤ c) : IsListMax l (l.foldl (raiseTo ord) a) := by
  obtain ⟨h1, -, h3⟩ := foldl_raiseTo_spec ord hlt l a
  refine ⟨?_, h3⟩
  rcases h1 with e | hm
  · obtain ⟨c, hc⟩ := List.exists_mem_of_ne_nil l hl
    have : c = a := le_antisymm (e ▸ h3 c hc) (ha c hc)
    rw [e, ← this]
    exact hc
  · exact hm

theorem length_flatMap_const {α β : Type} (f : α → List β) (k : Nat)
    (hf : ∀ a, (f a).length = k) : ∀ l : List α, (l.flatMap f).length = k * l.length := by
  intro l
  induction l with
  | nil => simp
  | cons a rest ih => rw [List.flatMap_cons, List.length_append, hf, ih, List.length_cons]; ring

/-! ## Claims about ParseMesh -/

/-- Claim C16.  For a mesh with at least one vertex that `ParseMesh` accepts,
the position buffer holds, vertex after vertex, the three components of the
source position multiplied by `fileScale`, and each component of the minimum
and of the maximum of the bounds is the minimum and the maximum of that
component over the scaled positions.  The float comparison is taken to be the
strict order of a linear order (no value is unordered), and the two infinities
to bound the scaled components. -/
theorem ParseMesh_bounding_box {F : Type} [LinearOrder F] (ops : FloatOps F)
    (ord : FloatOrder F) (fileScale : F) (m : aiMesh F) (load_uv load_tangent : Bool)
    (mesh : Mesh F)
    (hlt : ∀ a b, ord.lt a b = decide (a < b))
    (hinf : ∀ v ∈ m.mVertices,
      ∀ c ∈ [(scaledPosition ops fileScale v).x, (scaledPosition ops fileScale v).y,
        (scaledPosition ops fileScale v).z],
        ord.negativeInfinity ≤ c ∧ c ≤ ord.infinity)
    (hv : m.mVertices ≠ [])
    (h : ParseMesh ops ord fileScale m load_uv load_tangent = some mesh) :
    mesh.m_positionBuffer = m.mVertices.flatMap (fun v =>
      [(scaledPosition ops fileScale v).x, (scaledPosition ops fileScale v).y,
        (scaledPosition ops fileScale v).z]) ∧
    IsListMin (m.mVertices.map (fun v => (scaledPosition ops fileScale v).x))
      mesh.m_boundsMin.x ∧
    IsListMin (m.mVertices.map (fun v => (scaledPosition ops fileScale v).y))
      mesh.m_boundsMin.y ∧
    IsListMin (m.mVertices.map (fun v => (scaledPosition ops fileScale v).z))
      mesh.m_boundsMin.z ∧
    IsListMax (m.mVertices.map (fun v => (scaledPosition ops fileScale v).x))
      mesh.m_boundsMax.x ∧
    IsListMax (m.mVertices.map (fun v => (scaledPosition ops fileScale v).y))
      mesh.m_boundsMax.y ∧
    IsListMax (m.mVertices.map (fun v => (scaledPosition ops fileScale v).z))
      mesh.m_boundsMax.z := by
  obtain ⟨vb, ib, hvl, -, e1, -, -, -, e5, e6, -⟩ :=
    ParseMesh_some ops ord fileScale m load_uv load_tangent mesh h
  obtain ⟨p1, -, -, -, a1, a2, a3, b1, b2, b3⟩ :=
    vertexLoop_spec ops ord fileScale m m.HasTextureCoords0 load_tangent m.mVertices 0 _ vb hvl
  have hne : ∀ f : Vector3 F → F, m.mVertices.map f ≠ [] := by
    intro f hm
    exact hv (List.map_eq_nil_iff.1 hm)
  have hx : ∀ v ∈ m.mVertices, ord.negativeInfinity ≤ ops.mul v.x fileScale ∧
      ops.mul v.x fileScale ≤ ord.infinity :=
    fun v hm => hinf v hm _ (List.mem_cons_self _ _)
  have hy : ∀ v ∈ m.mVertices, ord.negativeInfinity ≤ ops.mul v.y fileScale ∧
      ops.mul v.y fileScale ≤ ord.infinity :=
    fun v hm => hinf v hm _ (List.mem_cons_of_mem _ (List.mem_cons_self _ _))
  have hz : ∀ v ∈ m.mVertices, ord.negativeInfinity ≤ ops.mul v.z fileScale ∧
      ops.mul v.z fileScale ≤ ord.infinity :=
    fun v hm => hinf v hm _
      (List.mem_cons_of_mem _ (List.mem_cons_of_mem _ (List.mem_cons_self _ _)))
  have up : ∀ (f : Vector3 F → F),
      (∀ v ∈ m.mVertices, ord.negativeInfinity ≤ f v ∧ f v ≤ ord.infinity) →
      (∀ c ∈ m.mVertices.map f, c ≤ ord.infinity) ∧
      (∀ c ∈ m.mVertices.map f, ord.negativeInfinity ≤ c) := by
    intro f hf
    constructor
    · intro c hc
      obtain ⟨v, hm, rfl⟩ := List.mem_map.1 hc
      exact (hf v hm).2
    · intro c hc
      obtain ⟨v, hm, rfl⟩ := List.mem_map.1 hc
      exact (hf v hm).1
  refine ⟨?_, ?_, ?_, ?_, ?_, ?_, ?_⟩
  · rw [e1, p1]; rfl
  · rw [e5, a1]
    exact IsListMin_foldl ord hlt _ _ (hne _) (up _ hx).1
  · rw [e5, a2]
    exact IsListMin_foldl ord hlt _ _ (hne _) (up _ hy).1
  · rw [e5, a3]
    exact IsListMin_foldl ord hlt _ _ (hne _) (up _ hz).1
  · rw [e6, b1]
    exact IsListMax_foldl ord hlt _ _ (hne _) (up _ hx).2
  · rw [e6, b2]
    exact IsListMax_foldl ord hlt _ _ (hne _) (up _ hy).2
  · rw [e6, b3]
    exact IsListMax_foldl ord hlt _ _ (hne _) (up _ hz).2

/-- The example of claim C16: the vertices (0,0,0), (2,0,0), (0,3,0) with
`fileScale` 1 give the bounds min = (0,0,0) and max = (2,3,0). -/
theorem ParseMesh_bounding_box_witness :
    ParseMesh intOps (intOrder 1000) 1 triangleMesh false false = some triangleParsed ∧
    triangleParsed.m_boundsMin = ⟨0, 0, 0⟩ ∧ triangleParsed.m_boundsMax = ⟨2, 3, 0⟩ ∧
    triangleParsed.m_positionBuffer = triangleMesh.mVertices.flatMap (fun v =>
      [(scaledPosition intOps 1 v).x, (scaledPosition intOps 1 v).y,
        (scaledPosition intOps 1 v).z]) ∧
    IsListMin (triangleMesh.mVertices.map (fun v => (scaledPosition intOps 1 v).x))
      triangleParsed.m_boundsMin.x ∧
    IsListMin (triangleMesh.mVertices.map (fun v => (scaledPosition intOps 1 v).y))
      triangleParsed.m_boundsMin.y ∧
    IsListMin (triangleMesh.mVertices.map (fun v => (scaledPosition intOps 1 v).z))
      triangleParsed.m_boundsMin.z ∧
    IsListMax (triangleMesh.mVertices.map (fun v => (scaledPosition intOps 1 v).x))
      triangleParsed.m_boundsMax.x ∧
    IsListMax (triangleMesh.mVertices.map (fun v => (scaledPosition intOps 1 v).y))
      triangleParsed.m_boundsMax.y ∧
    IsListMax (triangleMesh.mVertices.map (fun v => (scaledPosition intOps 1 v).z))
      triangleParsed.m_boundsMax.z :=
  ⟨rfl, rfl, rfl,
    ParseMesh_bounding_box intOps (intOrder 1000) 1 triangleMesh false false triangleParsed
      (fun _ _ => rfl) (by decide) (by decide) rfl⟩

/-- Claim C18, the behaviour of the code: the result of `ParseMesh` does not
depend on `load_uv`; for a mesh with texture coordinates and `load_uv` false
the UV buffer is filled; and with `load_tangent` true the tangents of a mesh
without tangents are read, which is an invalid read. -/
theorem ParseMesh_ignores_load_uv :
    (∀ (F : Type) (ops : FloatOps F) (ord : FloatOrder F) (fileScale : F) (m : aiMesh F)
      (load_tangent : Bool),
      ParseMesh ops ord fileScale m false load_tangent
        = ParseMesh ops ord fileScale m true load_tangent) ∧
    texturedTriangle.HasTextureCoords0 = true ∧
    (ParseMesh intOps (intOrder 1000) 1 texturedTriangle false false).map
      (fun mesh => mesh.m_uvBuffer) = some [0, 0, 1, 0, 0, 1] ∧
    untangentedTriangle.mTangents = none ∧
    ParseMesh intOps (intOrder 1000) 1 untangentedTriangle true true = none :=
  ⟨fun _ _ _ _ _ _ => rfl, by decide, by decide, rfl, rfl⟩

/-- Claim C19.  In every mesh that `ParseMesh` returns, the position buffer
and the normal buffer have 3 entries per vertex, the UV buffer has 2 entries
per vertex when the source mesh has texture coordinates and is empty otherwise,
the tangent buffer has 3 entries per vertex when `load_tangent` is set and is
empty otherwise, the index buffer has 3 entries per face, and for a skinned
mesh, which is a mesh with a bone, the bone-index buffer and the bone-weight
buffer have one entry per vertex. -/
theorem ParseMesh_buffer_lengths {F : Type} (ops : FloatOps F) (ord : FloatOrder F)
    (fileScale : F) (m : aiMesh F) (load_uv load_tangent : Bool) (mesh : Mesh F)
    (h : ParseMesh ops ord fileScale m load_uv load_tangent = some mesh) :
    mesh.m_positionBuffer.length = 3 * m.mVertices.length ∧
    mesh.m_normalBuffer.length = 3 * m.mVertices.length ∧
    mesh.m_uvBuffer.length = (if m.HasTextureCoords0 then 2 * m.mVertices.length else 0) ∧
    mesh.m_tangentBuffer.length = (if load_tangent then 3 * m.mVertices.length else 0) ∧
    mesh.m_indexBuffer.length = 3 * m.mFaces.length ∧
    mesh.m_skinned = decide (0 < m.mBones.length) ∧
    (mesh.m_skinned = true →
      mesh.m_boneIndexBuffer.length = m.mVertices.length ∧
      mesh.m_boneWeightBuffer.length = m.mVertices.length) := by
  obtain ⟨vb, ib, hvl, hfl, e1, e2, e3, e4, -, -, e7, e8, hs, -⟩ :=
    ParseMesh_some ops ord fileScale m load_uv load_tangent mesh h
  obtain ⟨p1, p2, p3, p4, -⟩ :=
    vertexLoop_spec ops ord fileScale m m.HasTextureCoords0 load_tangent m.mVertices 0 _ vb hvl
  obtain ⟨-, fl⟩ := faceLoop_some m.mFaces [] ib hfl
  refine ⟨?_, ?_, ?_, ?_, ?_, e8, ?_⟩
  · rw [e1, p1, List.nil_append]
    exact length_flatMap_const (fun v : Vector3 F =>
      [ops.mul v.x fileScale, ops.mul v.y fileScale, ops.mul v.z fileScale]) 3 (fun _ => rfl) _
  · rw [e2, p2]; simp
  · rw [e3, p3]
    cases m.HasTextureCoords0 <;> simp
  · rw [e4, p4]
    cases load_tangent <;> simp
  · rw [e7, fl]; simp
  · intro hsk
    rw [e8, decide_eq_true_eq] at hsk
    obtain ⟨-, skin, hl, -, -, e9, e10⟩ := hs hsk
    obtain ⟨s1, e, l, -⟩ := boneLoop_spec ops fileScale m.mBones 0
      ⟨[], List.replicate m.mBones.length ops.matDefault,
        List.replicate m.mVertices.length ⟨[]⟩⟩
      (by
        have := boneLoop_range ops fileScale m.mBones 0 _ skin hl
        exact this)
    rw [hl] at e
    simp only [Option.some.injEq] at e
    subst e
    simp only [List.length_replicate] at l
    rw [e9, e10, List.length_map, List.length_map, l]
    exact ⟨rfl, rfl⟩

/-- A skinned mesh with texture coordinates and tangents for claim C19: 6
vertices and 2 faces give 18 positions, 18 normals, 12 UV values, 18 tangent
values, 6 indices and 6 packed bone entries. -/
theorem ParseMesh_buffer_lengths_witness :
    ParseMesh intOps (intOrder 1000) 1 fiveBoneMesh true true = some fiveBoneParsed ∧
    fiveBoneMesh.mVertices.length = 6 ∧ fiveBoneMesh.mFaces.length = 2 ∧
    fiveBoneParsed.m_positionBuffer.length = 3 * fiveBoneMesh.mVertices.length ∧
    fiveBoneParsed.m_normalBuffer.length = 3 * fiveBoneMesh.mVertices.length ∧
    fiveBoneParsed.m_uvBuffer.length
      = (if fiveBoneMesh.HasTextureCoords0 then 2 * fiveBoneMesh.mVertices.length else 0) ∧
    fiveBoneParsed.m_tangentBuffer.length
      = (if true then 3 * fiveBoneMesh.mVertices.length else 0) ∧
    fiveBoneParsed.m_indexBuffer.length = 3 * fiveBoneMesh.mFaces.length ∧
    fiveBoneParsed.m_skinned = decide (0 < fiveBoneMesh.mBones.length) ∧
    (fiveBoneParsed.m_skinned = true →
      fiveBoneParsed.m_boneIndexBuffer.length = fiveBoneMesh.mVertices.length ∧
      fiveBoneParsed.m_boneWeightBuffer.length = fiveBoneMesh.mVertices.length) :=
  ⟨rfl, rfl, rfl,
    ParseMesh_buffer_lengths intOps (intOrder 1000) 1 fiveBoneMesh true true fiveBoneParsed rfl⟩

theorem parseChannel_eq {F D : Type} (ops : FloatOps F) (toFloat : D → F) (fileScale : F)
    (c : Channels F) (an : aiNodeAnim F D) :
    parseChannel ops toFloat fileScale c an
      = StdMap.assign c an.mNodeName
          (appendChannels ops toFloat fileScale an.mNodeName
            ((StdMap.find c an.mNodeName).getD ⟨[], [], [], []⟩) [an]) := by
  cases h : StdMap.find c an.mNodeName <;>
    simp [parseChannel, appendChannels, h, List.flatMap_cons]

theorem appendChannels_appendChannels {F D : Type} (ops : FloatOps F) (toFloat : D → F)
    (fileScale : F) (name name' : Str) (base : AnimationNode F) (l l' : List (aiNodeAnim F D)) :
    appendChannels ops toFloat fileScale name
        (appendChannels ops toFloat fileScale name' base l) l'
      = appendChannels ops toFloat fileScale name base (l ++ l') := by
  simp [appendChannels, List.flatMap_append, List.append_assoc]

theorem appendChannels_nil {F D : Type} (ops : FloatOps F) (toFloat : D → F)
    (fileScale : F) (base : AnimationNode F) :
    appendChannels ops toFloat fileScale base.name base ([] : List (aiNodeAnim F D)) = base := by
  simp [appendChannels]

/-- The entry of the channel map after the channel loop: the entry under a
name that no source channel carries is left alone, and the entry under a name
that a source channel carries is the former entry, or an empty node, with the
keys of the source channels of that name appended in source order. -/
theorem parseChannels_find {F D : Type} (ops : FloatOps F) (toFloat : D → F) (fileScale : F)
    (name : Str) :
    ∀ (cs : List (aiNodeAnim F D)) (c : Channels F),
      StdMap.find (cs.foldl (parseChannel ops toFloat fileScale) c) name
        = if (cs.filter (fun an => decide (an.mNodeName = name))).isEmpty then StdMap.find c name
          else some (appendChannels ops toFloat fileScale name
            ((StdMap.find c name).getD ⟨[], [], [], []⟩)
            (cs.filter (fun an => decide (an.mNodeName = name)))) := by
  intro cs
  induction cs with
  | nil => intro c; simp
  | cons an rest ih =>
    intro c
    rw [List.foldl_cons, ih, parseChannel_eq]
    by_cases hn : an.mNodeName = name
    · subst hn
      rw [StdMap.find_assign_self]
      simp only [List.filter_cons, decide_True, if_true, Option.getD_some]
      rw [appendChannels_appendChannels]
      cases hr : rest.filter (fun a => decide (a.mNodeName = an.mNodeName)) with
      | nil => simp
      | cons b l => simp
    · rw [StdMap.find_assign_ne _ _ (fun e => hn e.symm)]
      simp only [List.filter_cons, hn, decide_False, Bool.false_eq_true, if_false]

theorem ParseAnimation_some {F D : Type} (ops : FloatOps F) (toFloat : D → F)
    (a : aiAnimation F D) (fileScale : F) (animation : Animation F)
    (h : ParseAnimation ops toFloat a fileScale = some animation) :
    animation.name = a.mName ∧ animation.duration = toFloat a.mDuration ∧
    animation.ticksPerSecond
      = (if ops.le (toFloat a.mTicksPerSecond) ops.zero then ops.twentyFive
          else toFloat a.mTicksPerSecond) ∧
    animation.channels = a.mChannels.foldl (parseChannel ops toFloat fileScale) [] := by
  unfold ParseAnimation at h
  simp only at h
  split at h
  · simp only [Option.some.injEq] at h
    rw [← h]
    exact ⟨rfl, rfl, rfl, rfl⟩
  · exact Option.noConfusion h

/-- The entries of the channel map that `ParseAnimation` returns. -/
theorem ParseAnimation_find {F D : Type} (ops : FloatOps F) (toFloat : D → F)
    (a : aiAnimation F D) (fileScale : F) (animation : Animation F)
    (h : ParseAnimation ops toFloat a fileScale = some animation) (name : Str) :
    StdMap.find animation.channels name
      = if (a.channelsNamed name).isEmpty then none
        else some (mergedNode ops toFloat fileScale name (a.channelsNamed name)) := by
  obtain ⟨-, -, -, hc⟩ := ParseAnimation_some ops toFloat a fileScale animation h
  rw [hc, parseChannels_find]
  rfl

theorem channelsNamed_eq_nil {F D : Type} (a : aiAnimation F D) (name : Str) :
    a.channelsNamed name = [] ↔ name ∉ a.mChannels.map (fun an => an.mNodeName) := by
  unfold aiAnimation.channelsNamed
  rw [List.filter_eq_nil_iff]
  simp only [decide_eq_true_eq, List.mem_map, not_exists, not_and]

/-! ## Claims about `ParseAnimation` -/

/-- Claim C21.  In an animation that `ParseAnimation` returns, the node stored
under the name of a source channel has as its position track the position keys
of the source channels of that name, in source order, each with its time (cast
to `float`) and its value multiplied componentwise by `fileScale`, and as its
rotation and scaling tracks the rotation and scaling keys of those channels
with their times and unchanged values; for a source channel whose name no
other channel carries, the three tracks are the converted tracks of that
channel, key by key.  The product of a vector and a float is taken to be
componentwise. -/
theorem ParseAnimation_scales_only_positions {F D : Type} (ops : FloatOps F)
    (toFloat : D → F) (a : aiAnimation F D) (fileScale : F) (animation : Animation F)
    (hscale : ∀ v s, ops.vecScale v s = ⟨ops.mul v.x s, ops.mul v.y s, ops.mul v.z s⟩)
    (h : ParseAnimation ops toFloat a fileScale = some animation) :
    ∀ an ∈ a.mChannels, ∃ n, StdMap.find animation.channels an.mNodeName = some n ∧
      an ∈ a.channelsNamed an.mNodeName ∧
      n.positionKeys = (a.channelsNamed an.mNodeName).flatMap (fun c =>
        c.mPositionKeys.map (fun k => ⟨toFloat k.mTime,
          ⟨ops.mul k.mValue.x fileScale, ops.mul k.mValue.y fileScale,
            ops.mul k.mValue.z fileScale⟩⟩)) ∧
      n.rotationKeys = (a.channelsNamed an.mNodeName).flatMap (fun c =>
        c.mRotationKeys.map (fun k => ⟨toFloat k.mTime, k.mValue⟩)) ∧
      n.scalingKeys = (a.channelsNamed an.mNodeName).flatMap (fun c =>
        c.mScalingKeys.map (fun k => ⟨toFloat k.mTime, k.mValue⟩)) ∧
      (a.channelsNamed an.mNodeName = [an] →
        n.positionKeys = an.mPositionKeys.map (fun k => ⟨toFloat k.mTime,
          ⟨ops.mul k.mValue.x fileScale, ops.mul k.mValue.y fileScale,
            ops.mul k.mValue.z fileScale⟩⟩) ∧
        n.rotationKeys = an.mRotationKeys.map (fun k => ⟨toFloat k.mTime, k.mValue⟩) ∧
        n.scalingKeys = an.mScalingKeys.map (fun k => ⟨toFloat k.mTime, k.mValue⟩)) := by
  intro an han
  have hmem : an ∈ a.channelsNamed an.mNodeName := by
    unfold aiAnimation.channelsNamed
    exact List.mem_filter.2 ⟨han, by simp⟩
  have hne : (a.channelsNamed an.mNodeName).isEmpty = false := by
    cases hl : a.channelsNamed an.mNodeName with
    | nil => rw [hl] at hmem; exact absurd hmem (List.not_mem_nil _)
    | cons b l => rfl
  have hf := ParseAnimation_find ops toFloat a fileScale animation h an.mNodeName
  rw [hne] at hf
  simp only [Bool.false_eq_true, if_false] at hf
  have hp : (mergedNode ops toFloat fileScale an.mNodeName
        (a.channelsNamed an.mNodeName)).positionKeys
      = (a.channelsNamed an.mNodeName).flatMap (fun c =>
        c.mPositionKeys.map (fun k => ⟨toFloat k.mTime,
          ⟨ops.mul k.mValue.x fileScale, ops.mul k.mValue.y fileScale,
            ops.mul k.mValue.z fileScale⟩⟩)) := by
    simp only [mergedNode, appendChannels, List.nil_append, hscale]
  have hr : (mergedNode ops toFloat fileScale an.mNodeName
        (a.channelsNamed an.mNodeName)).rotationKeys
      = (a.channelsNamed an.mNodeName).flatMap (fun c =>
        c.mRotationKeys.map (fun k => ⟨toFloat k.mTime, k.mValue⟩)) := by
    simp only [mergedNode, appendChannels, List.nil_append]
  have hs : (mergedNode ops toFloat fileScale an.mNodeName
        (a.channelsNamed an.mNodeName)).scalingKeys
      = (a.channelsNamed an.mNodeName).flatMap (fun c =>
        c.mScalingKeys.map (fun k => ⟨toFloat k.mTime, k.mValue⟩)) := by
    simp only [mergedNode, appendChannels, List.nil_append]
  refine ⟨_, hf, hmem, hp, hr, hs, ?_⟩
  intro hone
  rw [hp, hr, hs, hone]
  simp [List.flatMap_cons]

/-- The animation `mergeSource` for claim C21, with file scale 2: the node
stored under `B`, whose name one channel carries, has the position key
(1, (2, 2, 2)) for the source key (1, (1, 1, 1)) and the scaling key
(1, (2, 2, 2)) of the source unchanged. -/
theorem ParseAnimation_scales_only_positions_witness :
    ParseAnimation intOps id mergeSource 2 = some mergeParsed ∧
    StdMap.find mergeParsed.channels ['B']
      = some ⟨['B'], [⟨1, ⟨2, 2, 2⟩⟩], [], [⟨1, ⟨2, 2, 2⟩⟩]⟩ ∧
    ∀ an ∈ mergeSource.mChannels, ∃ n,
      StdMap.find mergeParsed.channels an.mNodeName = some n ∧
      an ∈ mergeSource.channelsNamed an.mNodeName ∧
      n.positionKeys = (mergeSource.channelsNamed an.mNodeName).flatMap (fun c =>
        c.mPositionKeys.map (fun k => ⟨id k.mTime,
          ⟨intOps.mul k.mValue.x 2, intOps.mul k.mValue.y 2, intOps.mul k.mValue.z 2⟩⟩)) ∧
      n.rotationKeys = (mergeSource.channelsNamed an.mNodeName).flatMap (fun c =>
        c.mRotationKeys.map (fun k => ⟨id k.mTime, k.mValue⟩)) ∧
      n.scalingKeys = (mergeSource.channelsNamed an.mNodeName).flatMap (fun c =>
        c.mScalingKeys.map (fun k => ⟨id k.mTime, k.mValue⟩)) ∧
      (mergeSource.channelsNamed an.mNodeName = [an] →
        n.positionKeys = an.mPositionKeys.map (fun k => ⟨id k.mTime,
          ⟨intOps.mul k.mValue.x 2, intOps.mul k.mValue.y 2, intOps.mul k.mValue.z 2⟩⟩) ∧
        n.rotationKeys = an.mRotationKeys.map (fun k => ⟨id k.mTime, k.mValue⟩) ∧
        n.scalingKeys = an.mScalingKeys.map (fun k => ⟨id k.mTime, k.mValue⟩)) :=
  ⟨by decide, by decide,
    ParseAnimation_scales_only_positions intOps id mergeSource 2 mergeParsed
      (fun _ _ => rfl) (by decide)⟩

/-- C22, counterexample.  The source rate 5 of `slowSource` is greater than 0,
and the cast `coarseCast` rounds it to 0 (as the cast to `float` does with a
positive `double` below the smallest positive `float`); the comparison is made
after the cast, so the rate of the returned animation is 25, which is neither
the source value nor its cast.  The duration 10000 is kept by the cast. -/
theorem ParseAnimation_rounded_rate_counterexample :
    (0 : Int) < slowSource.mTicksPerSecond ∧
    slowSource.mTicksPerSecond = 5 ∧
    coarseCast slowSource.mTicksPerSecond = 0 ∧
    ParseAnimation intOps coarseCast slowSource 1 = some ⟨"Take".toList, 10000, 25, []⟩ ∧
    (ParseAnimation intOps coarseCast slowSource 1).map (fun an => an.ticksPerSecond)
      = some 25 ∧
    (ParseAnimation intOps coarseCast slowSource 1).map (fun an => an.ticksPerSecond)
      ≠ some slowSource.mTicksPerSecond := by
  refine ⟨by decide, rfl, by decide, by decide, by decide, by decide⟩

/-- C22, as amended.  In an animation that `ParseAnimation` returns, the
duration is the source duration cast to `float`, and the rate is decided by
the comparison `<= 0.f` on the source rate after its cast to `float`:
`ticksPerSecond` is 25 when the comparison holds of the cast value and the
cast value itself when the comparison does not hold (also when the cast value
is unordered).  When 25 is not `<= 0.f` the returned rate is not `<= 0.f`.
When the comparison is the order of a linear order (no value is unordered) in
which 0 is less than 25, `ticksPerSecond` is the cast value when the cast
value is greater than 0 and 25 when the cast value is less than or equal to
0, and it is greater than 0 in both cases. -/
theorem ParseAnimation_duration_and_rate {F D : Type} [LinearOrder F] (ops : FloatOps F)
    (toFloat : D → F) (a : aiAnimation F D) (fileScale : F) (animation : Animation F)
    (h : ParseAnimation ops toFloat a fileScale = some animation) :
    animation.duration = toFloat a.mDuration ∧
    (ops.le (toFloat a.mTicksPerSecond) ops.zero = true →
      animation.ticksPerSecond = ops.twentyFive) ∧
    (ops.le (toFloat a.mTicksPerSecond) ops.zero = false →
      animation.ticksPerSecond = toFloat a.mTicksPerSecond) ∧
    (ops.le ops.twentyFive ops.zero = false →
      ops.le animation.ticksPerSecond ops.zero = false) ∧
    ((∀ x y, ops.le x y = decide (x ≤ y)) → ops.zero < ops.twentyFive →
      (ops.zero < toFloat a.mTicksPerSecond →
        animation.ticksPerSecond = toFloat a.mTicksPerSecond) ∧
      (toFloat a.mTicksPerSecond ≤ ops.zero → animation.ticksPerSecond = ops.twentyFive) ∧
      ops.zero < animation.ticksPerSecond) := by
  obtain ⟨-, hd, ht, -⟩ := ParseAnimation_some ops toFloat a fileScale animation h
  have htrue : ops.le (toFloat a.mTicksPerSecond) ops.zero = true →
      animation.ticksPerSecond = ops.twentyFive := by
    intro hc
    rw [ht, hc, if_pos rfl]
  have hfalse : ops.le (toFloat a.mTicksPerSecond) ops.zero = false →
      animation.ticksPerSecond = toFloat a.mTicksPerSecond := by
    intro hc
    rw [ht, hc, if_neg (by simp)]
  refine ⟨hd, htrue, hfalse, ?_, ?_⟩
  · intro h25
    cases hc : ops.le (toFloat a.mTicksPerSecond) ops.zero
    · rw [hfalse hc]
      exact hc
    · rw [htrue hc]
      exact h25
  · intro hle h25
    by_cases hc : toFloat a.mTicksPerSecond ≤ ops.zero
    · have hb : ops.le (toFloat a.mTicksPerSecond) ops.zero = true := by
        rw [hle]
        exact decide_eq_true hc
      exact ⟨fun hp => absurd hc (not_le.2 hp), fun _ => htrue hb, htrue hb ▸ h25⟩
    · have hb : ops.le (toFloat a.mTicksPerSecond) ops.zero = false := by
        rw [hle]
        exact decide_eq_false hc
      exact ⟨fun _ => hfalse hb, fun hn => absurd hn hc, hfalse hb ▸ not_le.1 hc⟩

/-- C22, witness: three animations.  The source rate 30 of `mergeSource` is
kept and the source rate 0 of `sampleSource` becomes 25, both under the cast
that changes no value; the source rate 5 of `slowSource` is rounded to 0 by
`coarseCast` and becomes 25. -/
theorem ParseAnimation_duration_and_rate_witness :
    ParseAnimation intOps id mergeSource 2 = some mergeParsed ∧
    mergeSource.mTicksPerSecond = 30 ∧ mergeParsed.ticksPerSecond = 30 ∧
    mergeParsed.duration = 10 ∧
    ParseAnimation intOps id sampleSource 2 = some sampleParsed ∧
    sampleSource.mTicksPerSecond = 0 ∧ sampleParsed.ticksPerSecond = 25 ∧
    (0 : Int) < sampleParsed.ticksPerSecond ∧
    intOps.le sampleParsed.ticksPerSecond 0 = false ∧
    slowSource.mTicksPerSecond = 5 ∧
    (∀ animation, ParseAnimation intOps coarseCast slowSource 1 = some animation →
      animation.ticksPerSecond = 25 ∧ animation.duration = 10000) :=
  ⟨by decide, rfl,
    (ParseAnimation_duration_and_rate intOps id mergeSource 2 mergeParsed
      (by decide)).2.2.1 (by decide),
    (ParseAnimation_duration_and_rate intOps id mergeSource 2 mergeParsed (by decide)).1,
    by decide, rfl,
    (ParseAnimation_duration_and_rate intOps id sampleSource 2 sampleParsed
      (by decide)).2.1 (by decide),
    ((ParseAnimation_duration_and_rate intOps id sampleSource 2 sampleParsed
      (by decide)).2.2.2.2 (fun _ _ => rfl) (by decide)).2.2,
    (ParseAnimation_duration_and_rate intOps id sampleSource 2 sampleParsed
      (by decide)).2.2.2.1 (by decide),
    rfl,
    fun animation h =>
      ⟨(ParseAnimation_duration_and_rate intOps coarseCast slowSource 1 animation h).2.1
        (by decide),
       (ParseAnimation_duration_and_rate intOps coarseCast slowSource 1 animation h).1⟩⟩

/-- Claim C23.  In an animation that `ParseAnimation` returns, the keys of the
channel map are pairwise distinct and are exactly the node names of the source
channels, and the node stored under a name has that name and, as its three
tracks, the converted position, rotation and scaling keys of all source
channels of that name, appended in source channel order. -/
theorem ParseAnimation_merges_channels {F D : Type} (ops : FloatOps F)
    (toFloat : D → F) (a : aiAnimation F D) (fileScale : F) (animation : Animation F)
    (h : ParseAnimation ops toFloat a fileScale = some animation) :
    (StdMap.keys animation.channels).Nodup ∧
    (∀ k, k ∈ StdMap.keys animation.channels ↔ k ∈ a.mChannels.map (fun an => an.mNodeName)) ∧
    ∀ k ∈ a.mChannels.map (fun an => an.mNodeName),
      StdMap.find animation.channels k
        = some (mergedNode ops toFloat fileScale k (a.channelsNamed k)) ∧
      (mergedNode ops toFloat fileScale k (a.channelsNamed k)).name = k := by
  have hf := ParseAnimation_find ops toFloat a fileScale animation h
  have hempty : ∀ k, (a.channelsNamed k).isEmpty = true ↔
      k ∉ a.mChannels.map (fun an => an.mNodeName) := by
    intro k
    rw [List.isEmpty_iff, channelsNamed_eq_nil]
  refine ⟨ParseAnimation_nodup ops toFloat a fileScale animation h, ?_, ?_⟩
  · intro k
    constructor
    · intro hk
      by_contra hc
      have e := hf k
      rw [if_pos ((hempty k).2 hc)] at e
      exact (StdMap.find_eq_none_iff _ _).1 e hk
    · intro hk
      by_contra hc
      have e := hf k
      rw [(StdMap.find_eq_none_iff _ _).2 hc] at e
      by_cases he : (a.channelsNamed k).isEmpty = true
      · exact (hempty k).1 he hk
      · rw [if_neg he] at e
        exact Option.noConfusion e
  · intro k hk
    have e := hf k
    have he : ¬ (a.channelsNamed k).isEmpty = true := fun he => (hempty k).1 he hk
    rw [if_neg he] at e
    exact ⟨e, rfl⟩

/-- The animation `mergeSource` for claim C23: its channels carry the names
`A`, `B`, `A`; the result has the keys `A` and `B`, and the node under `A`
holds the keys of the first channel followed by the keys of the third. -/
theorem ParseAnimation_merges_channels_witness :
    ParseAnimation intOps id mergeSource 2 = some mergeParsed ∧
    mergeSource.mChannels.map (fun an => an.mNodeName) = [['A'], ['B'], ['A']] ∧
    StdMap.keys mergeParsed.channels = [['A'], ['B']] ∧
    mergedNode intOps id 2 ['A'] (mergeSource.channelsNamed ['A'])
      = ⟨['A'], [⟨0, ⟨2, 4, 6⟩⟩, ⟨5, ⟨8, 10, 12⟩⟩, ⟨7, ⟨0, 0, 2⟩⟩],
          [⟨0, ⟨0, 0, 0, 1⟩⟩, ⟨7, ⟨0, 1, 0, 0⟩⟩], [⟨7, ⟨3, 3, 3⟩⟩]⟩ ∧
    ((StdMap.keys mergeParsed.channels).Nodup ∧
    (∀ k, k ∈ StdMap.keys mergeParsed.channels ↔
      k ∈ mergeSource.mChannels.map (fun an => an.mNodeName)) ∧
    ∀ k ∈ mergeSource.mChannels.map (fun an => an.mNodeName),
      StdMap.find mergeParsed.channels k
        = some (mergedNode intOps id 2 k (mergeSource.channelsNamed k)) ∧
      (mergedNode intOps id 2 k (mergeSource.channelsNamed k)).name = k) :=
  ⟨by decide, by decide, by decide, by decide,
    ParseAnimation_merges_channels intOps id mergeSource 2 mergeParsed (by decide)⟩

/-! ## The frame of `RemoveDummyNodeFBX` -/

/-- The loop leaves alone every channel whose key is neither the name of a
pending node nor a channel that the iteration of a pending node consumes. -/
theorem reconcileAll_frame {F : Type} (ops : FloatOps F) :
    ∀ (ps : PivotMap F) (c cf : Channels F), reconcileAll ops ps c = some cf →
      ∀ k, (∀ n r, (n, r) ∈ ps → k ≠ n ∧ consumes n r k = false) →
        StdMap.find cf k = StdMap.find c k := by
  intro ps
  induction ps with
  | nil =>
    intro c cf h k _
    simp only [reconcileAll, Option.some.injEq] at h
    rw [h]
  | cons p rest ih =>
    intro c cf h k hk
    obtain ⟨n, r⟩ := p
    rw [reconcileAll] at h
    cases hn : reconcileNode ops n r c with
    | none => rw [hn] at h; exact Option.noConfusion h
    | some res =>
      obtain ⟨node, c1⟩ := res
      rw [hn] at h
      simp only at h
      rw [ih c1 cf h k (fun n' r' hm => hk n' r' (List.mem_cons_of_mem _ hm)),
        reconcileNode_find ops n r c c1 node hn k]
      obtain ⟨h1, h2⟩ := hk n r (List.mem_cons_self _ _)
      rw [if_neg h1, h2]
      rfl

theorem consumes_eq_false_iff {F : Type} (n : Str) (r : StdMap Str (Matrix4x4 F)) (k : Str) :
    consumes n r k = false ↔
      ¬ (StdMap.find r roleTranslation ≠ none ∧ k = n ++ suffixTranslation) ∧
      ¬ (StdMap.find r roleRotation ≠ none ∧ k = n ++ suffixRotation) ∧
      ¬ (StdMap.find r roleScaling ≠ none ∧ k = n ++ suffixScaling) := by
  cases h1 : StdMap.find r roleTranslation <;> cases h2 : StdMap.find r roleRotation <;>
    cases h3 : StdMap.find r roleScaling <;> simp [consumes, h1, h2, h3, and_assoc]

/-- Claim C27.  A call of `RemoveDummyNodeFBX` that returns leaves the name,
the duration and `ticksPerSecond` of the animation as they were; it leaves
every channel as it was whose key is not a key of the pending pivot map and is
not, for an entry `p` of that map with true name `n`, the name
`n_$AssimpFbx$_Translation`, `n_$AssimpFbx$_Rotation` or
`n_$AssimpFbx$_Scaling` of a role that the entry records; and it leaves the
importer state, with the pending pivot map, as it was. -/
theorem RemoveDummyNodeFBX_frame {F : Type} (ops : FloatOps F) (st st' : ImporterState F)
    (animation result : Animation F)
    (h : st.RemoveDummyNodeFBX ops animation = some (result, st')) :
    result.name = animation.name ∧ result.duration = animation.duration ∧
    result.ticksPerSecond = animation.ticksPerSecond ∧
    (∀ k, k ∉ StdMap.keys st.m_nodeTransformations →
      (∀ p ∈ st.m_nodeTransformations,
        ¬ (StdMap.find p.2 roleTranslation ≠ none ∧ k = p.1 ++ suffixTranslation) ∧
        ¬ (StdMap.find p.2 roleRotation ≠ none ∧ k = p.1 ++ suffixRotation) ∧
        ¬ (StdMap.find p.2 roleScaling ≠ none ∧ k = p.1 ++ suffixScaling)) →
      StdMap.find result.channels k = StdMap.find animation.channels k) ∧
    st'.m_nodeTransformations = st.m_nodeTransformations ∧ st' = st := by
  unfold ImporterState.RemoveDummyNodeFBX at h
  obtain ⟨res, hres, e⟩ := Option.map_eq_some'.1 h
  simp only [Prod.mk.injEq] at e
  obtain ⟨e1, e2⟩ := e
  subst e1
  subst e2
  obtain ⟨hall, hn, hd, ht⟩ := RemoveDummyNodeFBX_channels ops _ animation res hres
  refine ⟨hn, hd, ht, ?_, rfl, rfl⟩
  intro k hk hc
  apply reconcileAll_frame ops _ _ _ hall k
  intro n r hm
  refine ⟨?_, (consumes_eq_false_iff n r k).2 (hc (n, r) hm)⟩
  intro e
  apply hk
  rw [e]
  exact List.mem_map_of_mem Prod.fst hm

/-- The run of `RemoveDummyNodeFBX` on `staticAnimation` with the pending
nodes `A` and `B`, for claim C27: the channel `C` is left as it was. -/
theorem RemoveDummyNodeFBX_frame_witness :
    ImporterState.RemoveDummyNodeFBX intOps ⟨samplePivots, [], []⟩ staticAnimation
      = some (staticResult, ⟨samplePivots, [], []⟩) ∧
    StdMap.find staticResult.channels ['C'] = some ⟨['C'], [⟨0, ⟨7, 7, 7⟩⟩], [], []⟩ ∧
    StdMap.find staticResult.channels ['C'] = StdMap.find staticAnimation.channels ['C'] :=
  ⟨rfl, by decide,
    (RemoveDummyNodeFBX_frame intOps ⟨samplePivots, [], []⟩ ⟨samplePivots, [], []⟩
      staticAnimation staticResult rfl).2.2.2.1 ['C'] (by decide) (by decide)⟩

/-! ## The mesh loop of `LoadFromFile` -/

theorem ParseMesh_name {F : Type} (ops : FloatOps F) (ord : FloatOrder F) (fileScale : F)
    (m : aiMesh F) (load_uv load_tangent : Bool) (mesh : Mesh F)
    (h : ParseMesh ops ord fileScale m load_uv load_tangent = some mesh) :
    mesh.m_name = m.mName := by
  unfold ParseMesh at h
  simp only at h
  split at h
  · exact Option.noConfusion h
  · split at h
    · exact Option.noConfusion h
    · split at h
      · split at h
        · split at h
          · exact Option.noConfusion h
          · simp only [Option.some.injEq] at h
            rw [← h]
        · exact Option.noConfusion h
      · simp only [Option.some.injEq] at h
        rw [← h]

theorem nameMesh_name {F : Type} (mesh : Mesh F) (count : Nat) :
    (mesh.m_name = [] → (nameMesh mesh count).m_name = "mesh".toList ++ lexicalCast count) ∧
    (mesh.m_name ≠ [] → (nameMesh mesh count).m_name = mesh.m_name) := by
  unfold nameMesh
  constructor
  · intro h
    rw [h]
    rfl
  · intro h
    cases hn : mesh.m_name with
    | nil => exact absurd hn h
    | cons c l => simp [hn]

/-- The mesh loop keeps the meshes that the model already has and appends,
for every source mesh, the parsed mesh, named with its position in the mesh
list of the model when its name is empty. -/
theorem meshLoop_spec {F : Type} (ops : FloatOps F) (ord : FloatOrder F) (fileScale : F)
    (load_uv load_tangent : Bool) :
    ∀ (ms : List (aiMesh F)) (acc r : List (Mesh F)),
      meshLoop ops ord fileScale load_uv load_tangent ms acc = some r →
      r.length = acc.length + ms.length ∧
      (∀ i, i < acc.length → r.get? i = acc.get? i) ∧
      ∀ i am, ms.get? i = some am →
        ∃ parsed, ParseMesh ops ord fileScale am load_uv load_tangent = some parsed ∧
          r.get? (acc.length + i) = some (nameMesh parsed (acc.length + i)) := by
  intro ms
  induction ms with
  | nil =>
    intro acc r h
    simp only [meshLoop, Option.some.injEq] at h
    subst h
    refine ⟨rfl, fun _ _ => rfl, ?_⟩
    intro i am hi
    simp at hi
  | cons m rest ih =>
    intro acc r h
    rw [meshLoop] at h
    cases hp : ParseMesh ops ord fileScale m load_uv load_tangent with
    | none => rw [hp] at h; exact Option.noConfusion h
    | some mesh =>
      rw [hp] at h
      simp only at h
      obtain ⟨l, keep, new⟩ := ih _ r h
      simp only [List.length_append, List.length_cons, List.length_nil] at l keep new
      refine ⟨by rw [l, List.length_cons]; omega, ?_, ?_⟩
      · intro i hi
        rw [keep i (by omega)]
        simp only [List.get?_eq_getElem?]
        rw [List.getElem?_append_left hi]
      · intro i am hi
        cases i with
        | zero =>
          simp only [List.get?_cons_zero, Option.some.injEq] at hi
          subst hi
          refine ⟨mesh, hp, ?_⟩
          rw [Nat.add_zero, keep acc.length (by omega)]
          simp only [List.get?_eq_getElem?]
          rw [List.getElem?_append_right (Nat.le_refl _)]
          simp
        | succ j =>
          simp only [List.get?_cons_succ] at hi
          obtain ⟨parsed, hq, e⟩ := new j am hi
          refine ⟨parsed, hq, ?_⟩
          rw [show acc.length + (j + 1) = acc.length + 1 + j by omega]
          exact e

theorem LoadFromFile_some {F D : Type} (ops : FloatOps F) (ord : FloatOrder F)
    (toFloat : D → F) (split : Str → Str → List Str) (toLower : Str → Str) (fileScale : F)
    (load_uv load_tangent : Bool) (scene : Option (aiScene F D)) (path : Str)
    (st st' : ImporterState F) (model : Model F)
    (h : LoadFromFile ops ord toFloat split toLower fileScale load_uv load_tangent scene path st
      = some (model, st')) :
    ∃ sc, scene = some sc ∧
      (split path ['/']).getLast? = some model.m_name ∧ 3 ≤ model.m_name.length ∧
      buildModelTree ops fileScale sc.mRootNode st = some (model.m_rootNode, st') ∧
      meshLoop ops ord fileScale load_uv load_tangent sc.mMeshes [] = some model.m_meshes ∧
      animationLoop ops toFloat fileScale
        (decide (toLower (model.m_name.drop (model.m_name.length - 3)) = "fbx".toList))
        st'.m_nodeTransformations sc.mAnimations [] = some model.m_animations := by
  unfold LoadFromFile at h
  cases scene with
  | none => exact Option.noConfusion h
  | some sc =>
    simp only at h
    cases hn : (split path ['/']).getLast? with
    | none => rw [hn] at h; exact Option.noConfusion h
    | some m_name =>
      rw [hn] at h
      simp only at h
      by_cases h3 : m_name.length < 3
      · rw [if_pos h3] at h; exact Option.noConfusion h
      · rw [if_neg h3] at h
        cases hb : buildModelTree ops fileScale sc.mRootNode st with
        | none => rw [hb] at h; exact Option.noConfusion h
        | some res =>
          obtain ⟨root, st1⟩ := res
          rw [hb] at h
          simp only at h
          cases hm : meshLoop ops ord fileScale load_uv load_tangent sc.mMeshes [] with
          | none => rw [hm] at h; exact Option.noConfusion h
          | some meshes =>
            rw [hm] at h
            simp only at h
            cases ha : animationLoop ops toFloat fileScale
                (decide (toLower (m_name.drop (m_name.length - 3)) = "fbx".toList))
                st1.m_nodeTransformations sc.mAnimations [] with
            | none => rw [ha] at h; exact Option.noConfusion h
            | some anims =>
              rw [ha] at h
              simp only [Option.some.injEq, Prod.mk.injEq] at h
              obtain ⟨e1, e2⟩ := h
              subst e1
              subst e2
              exact ⟨sc, rfl, rfl, by simp only; omega, hb, hm, ha⟩

/-! ## Claim about `LoadFromFile` -/

/-- Claim C24.  In a model that `LoadFromFile` returns for a scene, the mesh
list has one mesh per mesh of the scene, and the mesh at position `i` is named
`"mesh"` followed by the decimal representation of `i` when the source mesh at
position `i` has an empty name, and has the name of the source mesh
otherwise. -/
theorem LoadFromFile_mesh_names {F D : Type} (ops : FloatOps F) (ord : FloatOrder F)
    (toFloat : D → F) (split : Str → Str → List Str) (toLower : Str → Str) (fileScale : F)
    (load_uv load_tangent : Bool) (scene : aiScene F D) (path : Str)
    (st st' : ImporterState F) (model : Model F)
    (h : LoadFromFile ops ord toFloat split toLower fileScale load_uv load_tangent
      (some scene) path st = some (model, st')) :
    model.m_meshes.length = scene.mMeshes.length ∧
    ∀ i am, scene.mMeshes.get? i = some am →
      ∃ mesh, model.m_meshes.get? i = some mesh ∧
        (am.mName = [] → mesh.m_name = "mesh".toList ++ Nat.toDigits 10 i) ∧
        (am.mName ≠ [] → mesh.m_name = am.mName) := by
  obtain ⟨sc, hs, -, -, -, hm, -⟩ := LoadFromFile_some ops ord toFloat split toLower fileScale
    load_uv load_tangent (some scene) path st st' model h
  simp only [Option.some.injEq] at hs
  subst hs
  obtain ⟨l, -, new⟩ := meshLoop_spec ops ord fileScale load_uv load_tangent _ _ _ hm
  refine ⟨by simpa using l, ?_⟩
  intro i am hi
  obtain ⟨parsed, hp, e⟩ := new i am hi
  simp only [List.length_nil, Nat.zero_add] at e
  have hname := ParseMesh_name ops ord fileScale am load_uv load_tangent parsed hp
  obtain ⟨n1, n2⟩ := nameMesh_name parsed i
  rw [hname] at n1 n2
  exact ⟨_, e, n1, n2⟩

/-- The scene `twoMeshScene` for claim C24: its first mesh is named
`triangle` and its second mesh has no name; the model holds them under the
names `triangle` and `mesh1`. -/
theorem LoadFromFile_mesh_names_witness :
    LoadFromFile intOps (intOrder 1000) id (fun s _ => s.splitOn '/')
      (fun s => s.map Char.toLower) 1 true false (some twoMeshScene)
      "models/robot.fbx".toList (emptyState Int) = some (twoMeshModel, twoMeshState) ∧
    twoMeshScene.mMeshes.map (fun am => am.mName) = ["triangle".toList, []] ∧
    twoMeshModel.m_meshes.map (fun mesh => mesh.m_name) = ["triangle".toList, "mesh1".toList] ∧
    (twoMeshModel.m_meshes.length = twoMeshScene.mMeshes.length ∧
    ∀ i am, twoMeshScene.mMeshes.get? i = some am →
      ∃ mesh, twoMeshModel.m_meshes.get? i = some mesh ∧
        (am.mName = [] → mesh.m_name = "mesh".toList ++ Nat.toDigits 10 i) ∧
        (am.mName ≠ [] → mesh.m_name = am.mName)) :=
  ⟨rfl, by decide, by decide,
    LoadFromFile_mesh_names intOps (intOrder 1000) id (fun s _ => s.splitOn '/')
      (fun s => s.map Char.toLower) 1 true false twoMeshScene "models/robot.fbx".toList
      (emptyState Int) twoMeshState twoMeshModel rfl⟩

/-! ## Claim about the components of a game object -/

theorem GameObject.m_components_mk {P F : Type} (i : Nat) (n : Str)
    (t : Option (Matrix4x4 F)) (cs : List (Component P)) (ch : List (GameObject P F)) :
    (GameObject.mk i n t cs ch).m_components = cs := rfl

theorem GameObject.GetComponent_isSome {P F : Type} (go : GameObject P F)
    (T : ComponentClass) :
    (go.GetComponent T).isSome = true ↔
      ∃ x ∈ go.m_components, x.ClassName = T.StaticClassName := by
  unfold GameObject.GetComponent
  rw [List.find?_isSome]
  simp only [decide_eq_true_eq]

/-- The calls of `AddComponent` that append. -/
theorem GameObject.AddComponent_append {P F : Type} (go : GameObject P F)
    (T : ComponentClass) (component : Component P)
    (h : ¬ (T.IsUniqueComponent = true ∧
      ∃ x ∈ go.m_components, x.ClassName = T.StaticClassName)) :
    go.AddComponent T component
      = (true, .mk go.id go.name go.localToWorldMatrix (go.m_components ++ [component])
          go.children) := by
  have hc : (T.IsUniqueComponent && (go.GetComponent T).isSome) = false := by
    cases hb : (T.IsUniqueComponent && (go.GetComponent T).isSome) with
    | false => rfl
    | true =>
      rw [Bool.and_eq_true] at hb
      exact absurd ⟨hb.1, (GameObject.GetComponent_isSome go T).1 hb.2⟩ h
  unfold GameObject.AddComponent
  rw [hc]
  cases go with
  | mk i n t cs ch => rfl

/-- The calls of `AddComponent` that refuse. -/
theorem GameObject.AddComponent_refuse {P F : Type} (go : GameObject P F)
    (T : ComponentClass) (component : Component P)
    (hu : T.IsUniqueComponent = true)
    (h : ∃ x ∈ go.m_components, x.ClassName = T.StaticClassName) :
    go.AddComponent T component = (false, go) := by
  unfold GameObject.AddComponent
  rw [hu, (GameObject.GetComponent_isSome go T).2 h]
  rfl

/-- Claim C26.  `GetComponent<T>` returns the first component of the list
`m_components`, which is in insertion order, whose class name is the class
name of `T`, and `nullptr` exactly when no component has that class name.
`AddComponent<T>(component)` for a type `T` that is not a script returns
`false` and leaves the object as it is when `T` is a unique component type and
a component with the class name of `T` is attached; in every other case it
returns `true` and appends the component at the end of the list, leaving the
rest of the object as it is. -/
theorem GameObject_component_lookup_and_uniqueness {P F : Type} (go : GameObject P F)
    (T : ComponentClass) (component : Component P) :
    (∀ c, go.GetComponent T = some c ↔
      ∃ before after, go.m_components = before ++ c :: after ∧
        c.ClassName = T.StaticClassName ∧
        ∀ x ∈ before, x.ClassName ≠ T.StaticClassName) ∧
    (go.GetComponent T = none ↔ ∀ x ∈ go.m_components, x.ClassName ≠ T.StaticClassName) ∧
    ((T.IsUniqueComponent = true ∧ go.GetComponent T ≠ none) →
      go.AddComponent T component = (false, go)) ∧
    (¬ (T.IsUniqueComponent = true ∧ go.GetComponent T ≠ none) →
      (go.AddComponent T component).1 = true ∧
      (go.AddComponent T component).2.m_components = go.m_components ++ [component] ∧
      (go.AddComponent T component).2.id = go.id ∧
      (go.AddComponent T component).2.name = go.name ∧
      (go.AddComponent T component).2.localToWorldMatrix = go.localToWorldMatrix ∧
      (go.AddComponent T component).2.children = go.children) := by
  have hsome : go.GetComponent T ≠ none ↔
      ∃ x ∈ go.m_components, x.ClassName = T.StaticClassName := by
    rw [← GameObject.GetComponent_isSome, Option.isSome_iff_ne_none]
  refine ⟨?_, ?_, ?_, ?_⟩
  · intro c
    unfold GameObject.GetComponent
    rw [List.find?_eq_some]
    simp only [decide_eq_true_eq, Bool.not_eq_true', decide_eq_false_iff_not, ne_eq]
    constructor
    · rintro ⟨hc, before, after, e, hb⟩
      exact ⟨before, after, e, hc, hb⟩
    · rintro ⟨before, after, e, hc, hb⟩
      exact ⟨hc, before, after, e, hb⟩
  · unfold GameObject.GetComponent
    rw [List.find?_eq_none]
    simp only [decide_eq_true_eq, ne_eq]
  · rintro ⟨hu, hg⟩
    exact GameObject.AddComponent_refuse go T component hu (hsome.1 hg)
  · intro hn
    have hn2 : ¬ (T.IsUniqueComponent = true ∧
        ∃ x ∈ go.m_components, x.ClassName = T.StaticClassName) :=
      fun hc => hn ⟨hc.1, hsome.2 hc.2⟩
    rw [GameObject.AddComponent_append go T component hn2]
    exact ⟨rfl, rfl, rfl, rfl, rfl, rfl⟩

/-- The object `litObject` for claim C26, with the components `MeshRenderer`,
`Light` (2) and `Light` (3): the lookup of `Light` returns the component 2; a
unique `Light` is refused; a `Light` that is not unique and a unique `Camera`
are appended. -/
theorem GameObject_component_lookup_and_uniqueness_witness :
    litObject.GetComponent ⟨"Light".toList, true⟩ = some ⟨"Light".toList, 2⟩ ∧
    litObject.GetComponent ⟨"Camera".toList, true⟩ = none ∧
    litObject.AddComponent ⟨"Light".toList, true⟩ ⟨"Light".toList, 4⟩ = (false, litObject) ∧
    (litObject.AddComponent ⟨"Light".toList, false⟩ ⟨"Light".toList, 4⟩).2.m_components
      = litObject.m_components ++ [⟨"Light".toList, 4⟩] ∧
    (litObject.AddComponent ⟨"Camera".toList, true⟩ ⟨"Camera".toList, 5⟩).2.m_components
      = litObject.m_components ++ [⟨"Camera".toList, 5⟩] :=
  ⟨by decide, by decide,
    (GameObject_component_lookup_and_uniqueness litObject ⟨"Light".toList, true⟩
      ⟨"Light".toList, 4⟩).2.2.1 ⟨rfl, by decide⟩,
    ((GameObject_component_lookup_and_uniqueness litObject ⟨"Light".toList, false⟩
      ⟨"Light".toList, 4⟩).2.2.2 (by decide)).2.1,
    ((GameObject_component_lookup_and_uniqueness litObject ⟨"Camera".toList, true⟩
      ⟨"Camera".toList, 5⟩).2.2.2 (by decide)).2.1⟩

/-! ## Steps of `ResursivelyCreateGameObject` -/

/-- On an object without components, the renderer branch attaches exactly the
components of `rendererComponents`, whichever classes are unique. -/
theorem attachRenderers_fresh {F : Type} (IsUniqueComponent : Str → Bool)
    (go : GameObject RendererData F) (meshIndex : Nat) (m_skinned : Bool) (rootBone : Nat)
    (h : go.m_components = []) :
    attachRenderers IsUniqueComponent go meshIndex m_skinned rootBone
      = .mk go.id go.name go.localToWorldMatrix
          (rendererComponents meshIndex m_skinned rootBone) go.children := by
  unfold attachRenderers rendererComponents
  cases m_skinned with
  | true =>
    simp only [if_true]
    rw [GameObject.AddComponent_append _ _ _ (by rw [h]; simp), h]
    rfl
  | false =>
    simp only [Bool.false_eq_true, if_false]
    rw [GameObject.AddComponent_append go _ _ (by rw [h]; simp), h]
    rw [GameObject.AddComponent_append _ _ _ (by
      simp only [GameObject.m_components_mk, List.nil_append, List.mem_singleton]
      rintro ⟨-, x, rfl, hx⟩
      revert hx
      decide)]
    rfl

/-- The loop of the branch for more than one mesh creates one object per
mesh index: it is named after the mesh, has the renderer components of the
mesh and no child; the loop leaves the meshes and the root pointer alone. -/
theorem meshChildren_spec {F : Type} (IsUniqueComponent : Str → Bool) (rootBone : Nat) :
    ∀ (idxs : List Nat) (st st' : AssemblyState F) (objs : List (GameObject RendererData F)),
      meshChildren IsUniqueComponent rootBone idxs st = some (objs, st') →
      st'.m_meshes = st.m_meshes ∧ st'.m_rootGameObject = st.m_rootGameObject ∧
      st'.created = st.created + idxs.length ∧
      objs.length = idxs.length ∧
      ∀ i idx, idxs.get? i = some idx →
        ∃ mesh child, st.m_meshes.get? idx = some mesh ∧ objs.get? i = some child ∧
          child.id = st.created + i ∧
          child.name = mesh.m_name ∧
          child.m_components = rendererComponents idx mesh.m_skinned rootBone ∧
          child.children = [] := by
  intro idxs
  induction idxs with
  | nil =>
    intro st st' objs h
    simp only [meshChildren, Option.some.injEq, Prod.mk.injEq] at h
    obtain ⟨e1, e2⟩ := h
    subst e1
    subst e2
    refine ⟨rfl, rfl, rfl, rfl, ?_⟩
    intro i idx hi
    simp at hi
  | cons idx rest ih =>
    intro st st' objs h
    rw [meshChildren] at h
    cases hm : st.m_meshes.get? idx with
    | none => rw [hm] at h; exact Option.noConfusion h
    | some m =>
      rw [hm] at h
      simp only at h
      cases hr : meshChildren IsUniqueComponent rootBone rest
          { (Scene.CreateGameObject st m.m_name).2 with
            nameToGameObject := StdMap.assign (Scene.CreateGameObject st m.m_name).2.nameToGameObject
              m.m_name (Scene.CreateGameObject st m.m_name).1.id } with
      | none => rw [hr] at h; exact Option.noConfusion h
      | some res =>
        obtain ⟨cs, st2⟩ := res
        rw [hr] at h
        simp only [Option.some.injEq, Prod.mk.injEq] at h
        obtain ⟨e1, e2⟩ := h
        subst e1
        subst e2
        obtain ⟨k1, k2, k3, k4, k5⟩ := ih _ _ _ hr
        refine ⟨k1, k2, ?_, by rw [List.length_cons, List.length_cons, k4], ?_⟩
        · rw [k3, List.length_cons]
          show st.created + 1 + rest.length = _
          omega
        · intro i idx' hi
          cases i with
          | zero =>
            simp only [List.get?_cons_zero, Option.some.injEq] at hi
            subst hi
            refine ⟨m, _, hm, rfl, ?_⟩
            rw [attachRenderers_fresh IsUniqueComponent (Scene.CreateGameObject st m.m_name).1
              idx m.m_skinned rootBone rfl]
            exact ⟨rfl, rfl, rfl, rfl⟩
          | succ j =>
            simp only [List.get?_cons_succ] at hi
            obtain ⟨mesh, child, a1, a2, a3, a4, a5, a6⟩ := k5 j idx' hi
            refine ⟨mesh, child, a1, a2, ?_, a4, a5, a6⟩
            rw [a3]
            show st.created + 1 + j = _
            omega

/-- The three cases of the mesh part of `ResursivelyCreateGameObject`, for an
object `go` without components. -/
theorem attachMeshes_spec {F : Type} (IsUniqueComponent : Str → Bool) (name : Str)
    (meshesIndices : List Nat) (rootBone : Nat) (go go1 : GameObject RendererData F)
    (st st' : AssemblyState F) (meshObjects : List (GameObject RendererData F))
    (hgo : go.m_components = [])
    (h : attachMeshes IsUniqueComponent name meshesIndices rootBone go st
      = some (go1, meshObjects, st')) :
    go1.id = go.id ∧ go1.name = go.name ∧ go1.localToWorldMatrix = go.localToWorldMatrix ∧
    go1.children = go.children ∧ st'.m_rootGameObject = st.m_rootGameObject ∧
    (meshesIndices = [] → go1.m_components = [] ∧ meshObjects = []) ∧
    (∀ idx, meshesIndices = [idx] →
      ∃ mesh, st.m_meshes.get? idx = some mesh ∧
        go1.m_components = rendererComponents idx mesh.m_skinned rootBone ∧
        meshObjects = []) ∧
    (2 ≤ meshesIndices.length →
      go1.m_components = [] ∧ meshObjects.length = meshesIndices.length ∧
      ∀ i idx, meshesIndices.get? i = some idx →
        ∃ mesh child, st.m_meshes.get? idx = some mesh ∧ meshObjects.get? i = some child ∧
          child.name = mesh.m_name ∧
          child.m_components = rendererComponents idx mesh.m_skinned rootBone ∧
          child.children = []) := by
  unfold attachMeshes at h
  match meshesIndices, h with
  | [], h =>
    simp only [Option.some.injEq, Prod.mk.injEq] at h
    obtain ⟨e1, e2, e3⟩ := h
    subst e1
    subst e2
    subst e3
    refine ⟨rfl, rfl, rfl, rfl, rfl, fun _ => ⟨hgo, rfl⟩, ?_, ?_⟩
    · intro idx hc
      exact absurd hc (by simp)
    · intro hc
      simp at hc
  | [idx], h =>
    simp only at h
    cases hm : st.m_meshes.get? idx with
    | none => rw [hm] at h; exact Option.noConfusion h
    | some mesh =>
      rw [hm] at h
      simp only [Option.some.injEq, Prod.mk.injEq] at h
      obtain ⟨e1, e2, e3⟩ := h
      subst e1
      subst e2
      subst e3
      rw [attachRenderers_fresh _ _ _ _ _ hgo]
      refine ⟨rfl, rfl, rfl, rfl, rfl, ?_, ?_, ?_⟩
      · intro hc
        exact absurd hc (by simp)
      · intro idx' hc
        simp only [List.cons.injEq, and_true] at hc
        subst hc
        exact ⟨mesh, hm, rfl, rfl⟩
      · intro hc
        simp at hc
  | idx :: idx2 :: rest, h =>
    simp only at h
    obtain ⟨r, hr, e⟩ := Option.map_eq_some'.1 h
    obtain ⟨objs, st2⟩ := r
    simp only [Prod.mk.injEq] at e
    obtain ⟨e1, e2, e3⟩ := e
    subst e1
    subst e2
    subst e3
    obtain ⟨k1, k2, -, k4, k5⟩ := meshChildren_spec IsUniqueComponent rootBone _ _ _ _ hr
    refine ⟨rfl, rfl, rfl, rfl, k2, ?_, ?_, ?_⟩
    · intro hc
      exact absurd hc (by simp)
    · intro idx' hc
      exact absurd hc (by simp)
    · intro _
      refine ⟨hgo, k4, ?_⟩
      intro i idx' hi
      obtain ⟨mesh, child, a1, a2, -, a4, a5, a6⟩ := k5 i idx' hi
      exact ⟨mesh, child, a1, a2, a4, a5, a6⟩

theorem ResursivelyCreateGameObject_inv {F : Type} (IsUniqueComponent : Str → Bool)
    (name : Str) (t : Matrix4x4 F) (b : Bool) (i : Nat) (ms : List Nat)
    (children : List (ModelNode F)) (st st' : AssemblyState F)
    (go : GameObject RendererData F)
    (h : ResursivelyCreateGameObject IsUniqueComponent (.mk name t b i ms children) st
      = some (go, st')) :
    ∃ go1 meshObjects st2 nodeObjects,
      attachMeshes IsUniqueComponent name ms st.rootBone
        (.mk st.created name (some t) [] [])
        { created := st.created + 1
          m_meshes := st.m_meshes
          m_rootGameObject := some st.rootBone
          nameToGameObject := StdMap.assign st.nameToGameObject name st.created }
        = some (go1, meshObjects, st2) ∧
      createChildren IsUniqueComponent children st2 = some (nodeObjects, st') ∧
      go = .mk go1.id go1.name go1.localToWorldMatrix go1.m_components
        (meshObjects ++ nodeObjects) := by
  rw [ResursivelyCreateGameObject] at h
  simp only at h
  change (match attachMeshes IsUniqueComponent name ms st.rootBone
      (.mk st.created name (some t) [] [])
      { created := st.created + 1
        m_meshes := st.m_meshes
        m_rootGameObject := some st.rootBone
        nameToGameObject := StdMap.assign st.nameToGameObject name st.created } with
    | none => none
    | some (go1, meshObjects, st2) =>
      match createChildren IsUniqueComponent children st2 with
      | none => none
      | some (nodeObjects, st3) =>
        some (GameObject.mk go1.id go1.name go1.localToWorldMatrix go1.m_components
          (meshObjects ++ nodeObjects), st3)) = some (go, st') at h
  cases ha : attachMeshes IsUniqueComponent name ms st.rootBone
      (.mk st.created name (some t) [] [])
      { created := st.created + 1
        m_meshes := st.m_meshes
        m_rootGameObject := some st.rootBone
        nameToGameObject := StdMap.assign st.nameToGameObject name st.created } with
  | none => rw [ha] at h; exact Option.noConfusion h
  | some res =>
    obtain ⟨go1, meshObjects, st2⟩ := res
    rw [ha] at h
    simp only at h
    cases hc : createChildren IsUniqueComponent children st2 with
    | none => rw [hc] at h; exact Option.noConfusion h
    | some res2 =>
      obtain ⟨nodeObjects, st3⟩ := res2
      rw [hc] at h
      simp only [Option.some.injEq, Prod.mk.injEq] at h
      obtain ⟨e1, e2⟩ := h
      subst e2
      exact ⟨go1, meshObjects, st2, nodeObjects, rfl, hc, e1.symm⟩

theorem ResursivelyCreateGameObject_name {F : Type} (IsUniqueComponent : Str → Bool)
    (node : ModelNode F) (st st' : AssemblyState F) (go : GameObject RendererData F)
    (h : ResursivelyCreateGameObject IsUniqueComponent node st = some (go, st')) :
    go.name = node.name ∧ go.id = st.created ∧
    go.localToWorldMatrix = some node.transform := by
  cases node with
  | mk name t b i ms children =>
    obtain ⟨go1, meshObjects, st2, nodeObjects, ha, -, e⟩ :=
      ResursivelyCreateGameObject_inv IsUniqueComponent name t b i ms children st st' go h
    obtain ⟨k1, k2, k3, -⟩ := attachMeshes_spec IsUniqueComponent name ms st.rootBone
      (.mk st.created name (some t) [] []) go1 _ st2 meshObjects rfl ha
    subst e
    exact ⟨k2, k1, k3⟩

theorem createChildren_names {F : Type} (IsUniqueComponent : Str → Bool) :
    ∀ (cs : List (ModelNode F)) (st st' : AssemblyState F)
      (objs : List (GameObject RendererData F)),
      createChildren IsUniqueComponent cs st = some (objs, st') →
      objs.map GameObject.name = cs.map ModelNode.name := by
  intro cs
  induction cs with
  | nil =>
    intro st st' objs h
    rw [createChildren] at h
    simp only [Option.some.injEq, Prod.mk.injEq] at h
    rw [← h.1]
    rfl
  | cons c rest ih =>
    intro st st' objs h
    rw [createChildren] at h
    cases hc : ResursivelyCreateGameObject IsUniqueComponent c st with
    | none => rw [hc] at h; exact Option.noConfusion h
    | some res =>
      obtain ⟨child, st1⟩ := res
      rw [hc] at h
      simp only at h
      cases hr : createChildren IsUniqueComponent rest st1 with
      | none => rw [hr] at h; exact Option.noConfusion h
      | some res2 =>
        obtain ⟨others, st2⟩ := res2
        rw [hr] at h
        simp only [Option.some.injEq, Prod.mk.injEq] at h
        rw [← h.1, List.map_cons, List.map_cons, ih st1 st2 others hr,
          (ResursivelyCreateGameObject_name IsUniqueComponent c st st1 child hc).1]

/-! ## Claim about `ResursivelyCreateGameObject` -/

/-- Claim C25.  The object that `ResursivelyCreateGameObject` returns for a
model node has the name of the node, and its children are the objects created
for the meshes followed by the objects that the calls of
`ResursivelyCreateGameObject` for the children of the node return, one per
child and with the child's name.  For a node without a mesh, the
object has no component and no object is created for a mesh.  For a node with
exactly one mesh, the object has the renderer components of that mesh and no
object is created for a mesh.  For a node with more than one mesh, the object
has no component, and one object is created per mesh: it has the name of the
mesh, the renderer components of the mesh and no child.  The renderer
components of a skinned mesh are a skinned-mesh renderer, and those of another
mesh are a mesh renderer followed by a mesh filter. -/
theorem ResursivelyCreateGameObject_attaches_renderers {F : Type}
    (IsUniqueComponent : Str → Bool) (node : ModelNode F) (st st' : AssemblyState F)
    (go : GameObject RendererData F)
    (h : ResursivelyCreateGameObject IsUniqueComponent node st = some (go, st')) :
    go.name = node.name ∧
    ∃ meshObjects nodeObjects,
      go.children = meshObjects ++ nodeObjects ∧
      (∃ st2, createChildren IsUniqueComponent node.children st2 = some (nodeObjects, st')) ∧
      nodeObjects.map GameObject.name = node.children.map ModelNode.name ∧
      (node.meshesIndices = [] → go.m_components = [] ∧ meshObjects = []) ∧
      (∀ idx, node.meshesIndices = [idx] →
        ∃ mesh, st.m_meshes.get? idx = some mesh ∧
          go.m_components = rendererComponents idx mesh.m_skinned st.rootBone ∧
          meshObjects = []) ∧
      (2 ≤ node.meshesIndices.length →
        go.m_components = [] ∧ meshObjects.length = node.meshesIndices.length ∧
        ∀ i idx, node.meshesIndices.get? i = some idx →
          ∃ mesh child, st.m_meshes.get? idx = some mesh ∧
            meshObjects.get? i = some child ∧ child.name = mesh.m_name ∧
            child.m_components = rendererComponents idx mesh.m_skinned st.rootBone ∧
            child.children = []) ∧
      (∀ idx rootBone, rendererComponents idx true rootBone
        = [⟨"SkinnedMeshRenderer".toList, .skinnedMeshRenderer idx rootBone⟩]) ∧
      (∀ idx rootBone, rendererComponents idx false rootBone
        = [⟨"MeshRenderer".toList, .meshRenderer⟩, ⟨"MeshFilter".toList, .meshFilter idx⟩]) := by
  cases node with
  | mk name t b i ms children =>
    obtain ⟨go1, meshObjects, st2, nodeObjects, ha, hc, e⟩ :=
      ResursivelyCreateGameObject_inv IsUniqueComponent name t b i ms children st st' go h
    obtain ⟨-, k2, -, -, -, c0, c1, c2⟩ := attachMeshes_spec IsUniqueComponent name ms
      st.rootBone (.mk st.created name (some t) [] []) go1 _ st2 meshObjects rfl ha
    subst e
    refine ⟨k2, meshObjects, nodeObjects, rfl, ⟨st2, hc⟩,
      createChildren_names IsUniqueComponent children st2 st' nodeObjects hc,
      c0, c1, c2, fun _ _ => rfl, fun _ _ => rfl⟩

/-- The node `bodyNode` for claim C25: the object for `Body`, with one
skinned mesh, has a skinned-mesh renderer and the three objects of the child
nodes as children; the object for `Pair`, with two meshes, has no component
and the two objects `Hand` and `Body`, named after the meshes, as children. -/
theorem ResursivelyCreateGameObject_attaches_renderers_witness :
    ResursivelyCreateGameObject (fun _ => true) bodyNode assemblyStart
      = some (bodyObject, assemblyEnd) ∧
    bodyObject.m_components = [⟨"SkinnedMeshRenderer".toList, .skinnedMeshRenderer 2 0⟩] ∧
    bodyObject.children.map GameObject.name
      = ["Hand".toList, "Empty".toList, "Pair".toList] ∧
    bodyObject.children.map GameObject.m_components
      = [[⟨"MeshRenderer".toList, .meshRenderer⟩, ⟨"MeshFilter".toList, .meshFilter 1⟩], [],
          []] ∧
    bodyObject.name = bodyNode.name ∧
    ∃ meshObjects nodeObjects,
      bodyObject.children = meshObjects ++ nodeObjects ∧
      (∃ st2, createChildren (fun _ => true) bodyNode.children st2
        = some (nodeObjects, assemblyEnd)) ∧
      nodeObjects.map GameObject.name = bodyNode.children.map ModelNode.name ∧
      (bodyNode.meshesIndices = [] → bodyObject.m_components = [] ∧ meshObjects = []) ∧
      (∀ idx, bodyNode.meshesIndices = [idx] →
        ∃ mesh, assemblyStart.m_meshes.get? idx = some mesh ∧
          bodyObject.m_components
            = rendererComponents idx mesh.m_skinned assemblyStart.rootBone ∧
          meshObjects = []) ∧
      (2 ≤ bodyNode.meshesIndices.length →
        bodyObject.m_components = [] ∧ meshObjects.length = bodyNode.meshesIndices.length ∧
        ∀ i idx, bodyNode.meshesIndices.get? i = some idx →
          ∃ mesh child, assemblyStart.m_meshes.get? idx = some mesh ∧
            meshObjects.get? i = some child ∧ child.name = mesh.m_name ∧
            child.m_components
              = rendererComponents idx mesh.m_skinned assemblyStart.rootBone ∧
            child.children = []) ∧
      (∀ idx rootBone, rendererComponents idx true rootBone
        = [⟨"SkinnedMeshRenderer".toList, .skinnedMeshRenderer idx rootBone⟩]) ∧
      (∀ idx rootBone, rendererComponents idx false rootBone
        = [⟨"MeshRenderer".toList, .meshRenderer⟩, ⟨"MeshFilter".toList, .meshFilter idx⟩]) :=
  ⟨rfl, rfl, rfl, rfl,
    ResursivelyCreateGameObject_attaches_renderers (fun _ => true) bodyNode assemblyStart
      assemblyEnd bodyObject rfl⟩

/-! ## The loop of `processInclude` -/

/-- One iteration keeps the loaded headers pairwise distinct: a header is read
only when it is not among them. -/
theorem includeStep_nodup (readFile : Str → Option Str) (include_dir : Str) (result : Str)
    (loaded_headers : List Str) (pos : Nat) (scan : IncludeScan)
    (hn : loaded_headers.Nodup)
    (h : includeStep readFile include_dir result loaded_headers pos = some scan) :
    scan.loaded_headers.Nodup := by
  unfold includeStep at h
  simp only at h
  split at h
  · exact Option.noConfusion h
  · rename_i filename _
    by_cases hm : filename ∈ loaded_headers
    · rw [if_pos hm] at h
      simp only [Option.some.injEq] at h
      rw [← h]
      exact hn
    · rw [if_neg hm] at h
      split at h
      · exact Option.noConfusion h
      · simp only [Option.some.injEq] at h
        rw [← h]
        exact List.Nodup.append hn (List.nodup_singleton _)
          (by
            intro x hx hy
            rw [List.mem_singleton] at hy
            exact hm (hy ▸ hx))

theorem includeLoop_nodup (readFile : Str → Option Str) (include_dir : Str) :
    ∀ (fuel : Nat) (scan final : IncludeScan), scan.loaded_headers.Nodup →
      includeLoop readFile include_dir fuel scan = .done final →
      final.loaded_headers.Nodup := by
  intro fuel
  induction fuel with
  | zero =>
    intro scan final hn h
    obtain ⟨result, loaded, pos⟩ := scan
    cases pos with
    | none =>
      simp only [includeLoop, Run.done.injEq] at h
      rw [← h]
      exact hn
    | some p =>
      simp only [includeLoop] at h
      exact Run.noConfusion h
  | succ n ih =>
    intro scan final hn h
    obtain ⟨result, loaded, pos⟩ := scan
    cases pos with
    | none =>
      simp only [includeLoop, Run.done.injEq] at h
      rw [← h]
      exact hn
    | some p =>
      simp only [includeLoop] at h
      cases hs : includeStep readFile include_dir result loaded p with
      | none => rw [hs] at h; exact Run.noConfusion h
      | some next =>
        rw [hs] at h
        exact ih next final (includeStep_nodup readFile include_dir result loaded p next hn hs) h

/-- The headers that a run of `processInclude` reads are pairwise distinct. -/
theorem processInclude_nodup (readFile : Str → Option Str) (include_dir : Str) (fuel : Nat)
    (str result : Str) (loaded : List Str)
    (h : processInclude readFile include_dir fuel str = .done (result, loaded)) :
    loaded.Nodup := by
  unfold processInclude at h
  cases hl : includeLoop readFile include_dir fuel
      ⟨str, [], strFindFrom includeDirective str 0⟩ with
  | done scan =>
    rw [hl] at h
    simp only [Run.done.injEq, Prod.mk.injEq] at h
    rw [← h.2]
    exact includeLoop_nodup readFile include_dir fuel _ scan List.nodup_nil hl
  | aborted => rw [hl] at h; exact Run.noConfusion h
  | unfinished => rw [hl] at h; exact Run.noConfusion h

/-- More iterations do not change the result of a loop that has ended. -/
theorem includeLoop_mono (readFile : Str → Option Str) (include_dir : Str) :
    ∀ (fuel extra : Nat) (scan final : IncludeScan),
      includeLoop readFile include_dir fuel scan = .done final →
      includeLoop readFile include_dir (fuel + extra) scan = .done final := by
  intro fuel
  induction fuel with
  | zero =>
    intro extra scan final h
    obtain ⟨result, loaded, pos⟩ := scan
    cases pos with
    | none =>
      simp only [includeLoop] at h ⊢
      exact h
    | some p =>
      simp only [includeLoop] at h
      exact Run.noConfusion h
  | succ n ih =>
    intro extra scan final h
    obtain ⟨result, loaded, pos⟩ := scan
    cases pos with
    | none =>
      simp only [includeLoop] at h ⊢
      exact h
    | some p =>
      rw [show n + 1 + extra = (n + extra) + 1 by omega]
      simp only [includeLoop] at h ⊢
      cases hs : includeStep readFile include_dir result loaded p with
      | none => rw [hs] at h; exact Run.noConfusion h
      | some next =>
        rw [hs] at h
        exact ih extra next final h

/-! ## Claim about `processInclude` -/

/-- Claim C28, the behaviour of the code.  Every run of `processInclude` that
ends reads pairwise distinct headers, and on `nestedSource` the run replaces
the first directive of each header by the content of the header and deletes
the later ones.  On `joinedSource`, in which the text `#inc` stands right
before the directive of the header `a`, whose content starts with `lude`, the
run ends after one iteration: the inserted content joins the text before it to
a new directive, which lies before the position from which the scan goes on,
and the returned text is that directive, for the header `b`, which is never
read. -/
theorem processInclude_joins_directive :
    (∀ (readFile : Str → Option Str) (include_dir : Str) (fuel : Nat) (str result : Str)
      (loaded : List Str),
      processInclude readFile include_dir fuel str = .done (result, loaded) → loaded.Nodup) ∧
    processInclude (headerFiles nestedFiles) "inc/".toList 10 nestedSource
      = .done (['x', '\n', 'A', '\n', 'B', '\n', '\n', 'D', '\n', 'C', '\n', 'y', '\n', '\n', 'z'],
          ["a".toList, "b".toList]) ∧
    joinedSource = "#inc".toList ++ "#include ".toList ++ ['"', 'a', '"'] ∧
    headerFiles joinedFiles "inc/a".toList = some ("lude ".toList ++ ['"', 'b', '"']) ∧
    headerFiles joinedFiles "inc/b".toList = some "void f();".toList ∧
    processInclude (headerFiles joinedFiles) "inc/".toList 10 joinedSource
      = .done ("#include ".toList ++ ['"', 'b', '"'], ["a".toList]) ∧
    strFind includeDirective ("#include ".toList ++ ['"', 'b', '"']) = some 0 :=
  ⟨processInclude_nodup, by decide, by decide, by decide, by decide, by decide, by decide⟩

end FishEngine
